import Mathlib

/-!
A verification development for the AI news platform's denoise / digest /
storage pipeline.  Python source files are shallowly embedded as Lean
definitions: dataclasses become structures, dicts become association lists
(Python dicts preserve insertion order and have unique keys), floats are
modeled as exact rationals (or reals where a transcendental function is
involved), and process-dependent builtins (`hash`) become explicit function
parameters.  Theorems at the end settle the specification claims.
-/

/- ----------------------------------------------------------------------
   Data model: `ItemRecord` and `ScoreBreakdown`
   (backend/denoise/filters.py, backend/denoise/scorer.py)
   ---------------------------------------------------------------------- -/

/-- A JSON metadata value as used by the denoise pipeline: either a numeric
value (Python `int`/`float`, modeled as an exact rational) or a non-numeric
value (anything failing `isinstance(v, (int, float))`), carried as a string. -/
inductive MetaVal where
  | num (q : ℚ)
  | str (s : String)
  deriving DecidableEq

/-- `ItemRecord` from backend/denoise/filters.py: the lightweight item
representation used throughout the denoise pipeline.  `metadata` is an
association list modeling the parsed metadata dict. -/
structure ItemRecord where
  id : String
  source_id : String
  url : String
  title : String
  content : String
  author : Option String
  published_at : String
  fetched_at : String
  lang : String
  category : String
  metadata : List (String × MetaVal)
  cluster_id : Option String := none
  is_representative : Bool := false
  deriving DecidableEq

/-- `ScoreBreakdown` from backend/denoise/scorer.py (floats as rationals). -/
structure ScoreBreakdown where
  total : ℚ
  authority : ℚ
  recency : ℚ
  popularity : ℚ
  relevance : ℚ
  dup_penalty : ℚ
  deriving DecidableEq

/- ----------------------------------------------------------------------
   QuotaManager (backend/denoise/quota.py)
   ---------------------------------------------------------------------- -/

/-- The slice of the YAML configuration object read by `QuotaManager.__init__`:
`scoring.quotas` (an `Option`, `none` when the key is absent, in which case
Python creates a fresh empty dict that the caller never sees),
`scoring.weights` (representative of the untouched scoring fields) and
`digest.limits`. -/
structure QuotaConfig where
  scoring_quotas : Option (List (String × Int))
  scoring_weights : List (String × ℚ)
  digest_limits : Option (List (String × Int))
  deriving DecidableEq

/-- `QuotaManager` state after `__init__`: per-source quotas (the same dict
object as the config's, after `pop("default", 20)`), the default quota, and
the per-category limits. -/
structure QuotaManager where
  source_quotas : List (String × Int)
  default_quota : Int
  category_limits : List (String × Int)
  deriving DecidableEq

/-- `QuotaManager.__init__`.  `self._source_quotas = scoring.get("quotas", {})`
aliases the caller's dict, and `self._source_quotas.pop("default", 20)`
removes the `"default"` key from it; the mutation is modeled by returning the
updated configuration object alongside the manager.  When `scoring.quotas` is
absent the popped dict is a fresh one and the caller's object is unchanged. -/
def QuotaManager.init (config : QuotaConfig) : QuotaManager × QuotaConfig :=
  match config.scoring_quotas with
  | some qs =>
      let d := (qs.lookup "default").getD 20
      let qs' := qs.eraseP (fun kv => kv.1 == "default")
      (⟨qs', d, config.digest_limits.getD [("news", 20), ("tips", 20), ("paper", 10)]⟩,
       { config with scoring_quotas := some qs' })
  | none =>
      (⟨[], 20, config.digest_limits.getD [("news", 20), ("tips", 20), ("paper", 10)]⟩,
       config)

/-- Phase 1 of `QuotaManager.apply_quotas`: the per-source quota loop.
`counts` models the `defaultdict(int)` of already-admitted counts. -/
def applySourceQuota (qm : QuotaManager) (counts : String → Nat) :
    List (ItemRecord × ScoreBreakdown) → List (ItemRecord × ScoreBreakdown)
  | [] => []
  | (it, bd) :: rest =>
      let quota := (qm.source_quotas.lookup it.source_id).getD qm.default_quota
      if (counts it.source_id : Int) < quota then
        (it, bd) :: applySourceQuota qm
          (fun s => if s == it.source_id then counts s + 1 else counts s) rest
      else
        applySourceQuota qm counts rest

/-- Phase 2 of `QuotaManager.apply_quotas`: the per-category limit loop; the
fallback limit for a category missing from the dict is 20. -/
def applyCategoryLimit (qm : QuotaManager) (counts : String → Nat) :
    List (ItemRecord × ScoreBreakdown) → List (ItemRecord × ScoreBreakdown)
  | [] => []
  | (it, bd) :: rest =>
      let limit := (qm.category_limits.lookup it.category).getD 20
      if (counts it.category : Int) < limit then
        (it, bd) :: applyCategoryLimit qm
          (fun c => if c == it.category then counts c + 1 else counts c) rest
      else
        applyCategoryLimit qm counts rest

/-- `QuotaManager.apply_quotas`: per-source quotas then per-category limits. -/
def QuotaManager.applyQuotas (qm : QuotaManager)
    (scored : List (ItemRecord × ScoreBreakdown)) :
    List (ItemRecord × ScoreBreakdown) :=
  applyCategoryLimit qm (fun _ => 0) (applySourceQuota qm (fun _ => 0) scored)

/-- Number of admitted entries whose item has source id `s`. -/
def countSrc (s : String) (l : List (ItemRecord × ScoreBreakdown)) : Nat :=
  l.countP (fun p => p.1.source_id == s)

/-- Number of admitted entries whose item has category `c`. -/
def countCat (c : String) (l : List (ItemRecord × ScoreBreakdown)) : Nat :=
  l.countP (fun p => p.1.category == c)

/-- All prefixes of a list (used to state the spec's "output is a prefix of
the input" sentence). -/
def listPrefixes {α : Type} (l : List α) : List (List α) :=
  (List.range (l.length + 1)).map (fun n => l.take n)

/- ----------------------------------------------------------------------
   Digest sort step (backend/digest/generator.py, step 4)
   ---------------------------------------------------------------------- -/

/-- Stable descending insertion of one scored entry: the new element (which
occurred earlier in the input) is placed before the first element whose total
is not strictly greater. -/
def sortInsertDesc (x : ItemRecord × ScoreBreakdown) :
    List (ItemRecord × ScoreBreakdown) → List (ItemRecord × ScoreBreakdown)
  | [] => [x]
  | y :: ys => if x.2.total < y.2.total then y :: sortInsertDesc x ys else x :: y :: ys

/-- Step 4 of `DigestGenerator.generate_digest`:
`scored.sort(key=lambda x: x[1].total, reverse=True)`.  Python's `list.sort`
is a stable sort, and every stable sort for the same key agrees; it is modeled
as stable insertion sort, descending by `total` with ties kept in input
order. -/
def digestSortScored : List (ItemRecord × ScoreBreakdown) → List (ItemRecord × ScoreBreakdown)
  | [] => []
  | x :: xs => sortInsertDesc x (digestSortScored xs)

/- ----------------------------------------------------------------------
   HardFilter.filter_popularity (backend/denoise/filters.py)
   ---------------------------------------------------------------------- -/

/-- True when a metadata value is numeric (`isinstance(actual, (int, float))`). -/
def MetaVal.isNum : MetaVal → Bool
  | .num _ => true
  | .str _ => false

/-- The `HardFilter` configuration slice used by `filter_popularity`:
`scoring.min_popularity`, a dict `source_id → {metric: min_val}`. -/
structure HardFilterCfg where
  min_popularity : List (String × List (String × ℚ))
  deriving DecidableEq

/-- The inner threshold loop of `HardFilter.filter_popularity`:
`actual = item.metadata.get(metric_key, 0)`; the `passes` flag is cleared (and
the loop broken) by the first numeric value strictly below its minimum. -/
def passesThresholds (meta : List (String × MetaVal)) : List (String × ℚ) → Bool
  | [] => true
  | (k, minv) :: rest =>
      match (meta.lookup k).getD (MetaVal.num 0) with
      | .num v => if v < minv then false else passesThresholds meta rest
      | .str _ => passesThresholds meta rest

/-- The item loop of `HardFilter.filter_popularity`: items of sources without
declared minima pass straight through. -/
def filterPopularityLoop (cfg : HardFilterCfg) : List ItemRecord → List ItemRecord
  | [] => []
  | item :: rest =>
      match cfg.min_popularity.lookup item.source_id with
      | none => item :: filterPopularityLoop cfg rest
      | some th =>
          if passesThresholds item.metadata th then item :: filterPopularityLoop cfg rest
          else filterPopularityLoop cfg rest

/-- `HardFilter.filter_popularity`: with an empty `min_popularity` dict the
input list is returned unchanged, otherwise the threshold loop runs. -/
def filterPopularity (cfg : HardFilterCfg) (items : List ItemRecord) : List ItemRecord :=
  if cfg.min_popularity.isEmpty then items else filterPopularityLoop cfg items

/-- One declared metric violation: the metadata value for `k` — a missing key
defaults to the numeric 0, per `metadata.get(metric_key, 0)` — is numeric and
strictly below `minv`.  (This is the amended claim's drop condition.) -/
def metaBelow (meta : List (String × MetaVal)) (k : String) (minv : ℚ) : Bool :=
  match (meta.lookup k).getD (MetaVal.num 0) with
  | .num v => decide (v < minv)
  | .str _ => false

/-- The amended claim's keep-predicate for `filter_popularity`: an item is
dropped iff its source declares minima and some declared metric is violated in
the sense of `metaBelow`. -/
def popularityKeepSpec (cfg : HardFilterCfg) (item : ItemRecord) : Bool :=
  match cfg.min_popularity.lookup item.source_id with
  | none => true
  | some th => ! th.any (fun kv => metaBelow item.metadata kv.1 kv.2)

/- ----------------------------------------------------------------------
   Fixtures for concrete counterexamples and witnesses
   ---------------------------------------------------------------------- -/

/-- A minimal `ItemRecord` fixture. -/
def mkItem (id source cat : String) : ItemRecord :=
  { id := id, source_id := source, url := "", title := "", content := "",
    author := none, published_at := "", fetched_at := "", lang := "en",
    category := cat, metadata := [] }

/-- An all-zero score breakdown fixture. -/
def bd0 : ScoreBreakdown := ⟨0, 0, 0, 0, 0, 0⟩

/-- Config fixture with quota 0 for source A. -/
def quotaCfgCex : QuotaConfig := ⟨some [("A", 0), ("default", 20)], [], none⟩

/-- Config fixture with a configured default quota of 5. -/
def quotaCfgW : QuotaConfig :=
  ⟨some [("default", 5), ("A", 2)], [("authority", 0)], some [("news", 3)]⟩

/-- `min_popularity` fixture declaring a minimum of 10 points for source hn. -/
def hfCex : HardFilterCfg := ⟨[("hn", [("points", 10)])]⟩

/- ----------------------------------------------------------------------
   UTF-8 encoding and SHA-256 (for `Item.make_id` and the summary cache key;
   Python's `hashlib.sha256` over `str.encode("utf-8")`)
   ---------------------------------------------------------------------- -/

/-- UTF-8 encoding of one Unicode scalar value (1 to 4 bytes). -/
def utf8EncodeChar (c : Char) : List Nat :=
  let n := c.toNat
  if n < 128 then [n]
  else if n < 2048 then [192 + n / 64, 128 + n % 64]
  else if n < 65536 then [224 + n / 4096, 128 + (n / 64) % 64, 128 + n % 64]
  else [240 + n / 262144, 128 + (n / 4096) % 64, 128 + (n / 64) % 64, 128 + n % 64]

/-- `s.encode("utf-8")` as a byte list. -/
def strUtf8 (s : String) : List Nat :=
  (s.data.map utf8EncodeChar).flatten

/-- Truncation to a 32-bit word. -/
def w32 (x : Nat) : Nat := x % 4294967296

/-- 32-bit right rotation. -/
def rotr32 (n x : Nat) : Nat := w32 ((x >>> n) ||| (x <<< (32 - n)))

/-- SHA-256 round constants. -/
def sha256K : List Nat := [
  1116352408, 1899447441, 3049323471, 3921009573, 961987163, 1508970993, 2453635748, 2870763221,
  3624381080, 310598401, 607225278, 1426881987, 1925078388, 2162078206, 2614888103, 3248222580,
  3835390401, 4022224774, 264347078, 604807628, 770255983, 1249150122, 1555081692, 1996064986,
  2554220882, 2821834349, 2952996808, 3210313671, 3336571891, 3584528711, 113926993, 338241895,
  666307205, 773529912, 1294757372, 1396182291, 1695183700, 1986661051, 2177026350, 2456956037,
  2730485921, 2820302411, 3259730800, 3345764771, 3516065817, 3600352804, 4094571909, 275423344,
  430227734, 506948616, 659060556, 883997877, 958139571, 1322822218, 1537002063, 1747873779,
  1955562222, 2024104815, 2227730452, 2361852424, 2428436474, 2756734187, 3204031479, 3329325298]

/-- SHA-256 initial hash state. -/
def sha256H0 : List Nat :=
  [1779033703, 3144134277, 1013904242, 2773480762,
   1359893119, 2600822924, 528734635, 1541459225]

/-- SHA-256 big sigma 0. -/
def bsig0 (x : Nat) : Nat := rotr32 2 x ^^^ rotr32 13 x ^^^ rotr32 22 x

/-- SHA-256 big sigma 1. -/
def bsig1 (x : Nat) : Nat := rotr32 6 x ^^^ rotr32 11 x ^^^ rotr32 25 x

/-- SHA-256 small sigma 0. -/
def ssig0 (x : Nat) : Nat := rotr32 7 x ^^^ rotr32 18 x ^^^ (x >>> 3)

/-- SHA-256 small sigma 1. -/
def ssig1 (x : Nat) : Nat := rotr32 17 x ^^^ rotr32 19 x ^^^ (x >>> 10)

/-- SHA-256 choose function (32-bit complement via xor with the all-ones word). -/
def sha256Ch (x y z : Nat) : Nat := (x &&& y) ^^^ ((x ^^^ 4294967295) &&& z)

/-- SHA-256 majority function. -/
def sha256Maj (x y z : Nat) : Nat := (x &&& y) ^^^ (x &&& z) ^^^ (y &&& z)

/-- 64-bit big-endian byte encoding of the message bit length. -/
def be64 (n : Nat) : List Nat :=
  [n / 72057594037927936 % 256, n / 281474976710656 % 256,
   n / 1099511627776 % 256, n / 4294967296 % 256,
   n / 16777216 % 256, n / 65536 % 256, n / 256 % 256, n % 256]

/-- 32-bit big-endian byte encoding of a word. -/
def be32 (n : Nat) : List Nat :=
  [n / 16777216 % 256, n / 65536 % 256, n / 256 % 256, n % 256]

/-- SHA-256 padding: a 0x80 byte, zeros to 56 mod 64, then the 64-bit bit
length. -/
def sha256Pad (msg : List Nat) : List Nat :=
  let len := msg.length
  msg ++ [128] ++ List.replicate ((119 - len % 64) % 64) 0 ++ be64 (8 * len)

/-- Big-endian grouping of bytes into 32-bit words. -/
def bytesToWords : List Nat → List Nat
  | b0 :: b1 :: b2 :: b3 :: rest =>
      (((b0 * 256 + b1) * 256 + b2) * 256 + b3) :: bytesToWords rest
  | _ => []

/-- Extend the 16-word block schedule by `n` further words. -/
def sha256Extend (ws : List Nat) : Nat → List Nat
  | 0 => ws
  | n + 1 =>
      let k := ws.length
      let wnew := w32 (ssig1 (ws.getD (k - 2) 0) + ws.getD (k - 7) 0
        + ssig0 (ws.getD (k - 15) 0) + ws.getD (k - 16) 0)
      sha256Extend (ws ++ [wnew]) n

/-- The 64 compression rounds over working state `[a, b, c, d, e, f, g, h]`. -/
def sha256Rounds (st : List Nat) : List (Nat × Nat) → List Nat
  | [] => st
  | (wt, kt) :: rest =>
      match st with
      | [a, b, c, d, e, f, g, h] =>
          let t1 := w32 (h + bsig1 e + sha256Ch e f g + kt + wt)
          let t2 := w32 (bsig0 a + sha256Maj a b c)
          sha256Rounds [w32 (t1 + t2), a, b, c, w32 (d + t1), e, f, g] rest
      | other => other

/-- Process one 64-byte block. -/
def sha256ProcessBlock (hs : List Nat) (block : List Nat) : List Nat :=
  let ws := sha256Extend (bytesToWords block) 48
  let st := sha256Rounds hs (ws.zip sha256K)
  (hs.zip st).map (fun p => w32 (p.1 + p.2))

/-- Split a byte list into 64-byte chunks (fuel-driven; any fuel at least the
list length is enough). -/
def chunksOf64 : Nat → List Nat → List (List Nat)
  | 0, _ => []
  | _, [] => []
  | fuel + 1, bytes => bytes.take 64 :: chunksOf64 fuel (bytes.drop 64)

/-- The SHA-256 digest of a byte list, as 32 bytes. -/
def sha256Bytes (msg : List Nat) : List Nat :=
  let padded := sha256Pad msg
  let hs := (chunksOf64 padded.length padded).foldl sha256ProcessBlock sha256H0
  (hs.map be32).flatten

/-- Lowercase hex digit. -/
def hexDigitChar (n : Nat) : Char :=
  "0123456789abcdef".data.getD n '0'

/-- `hashlib.sha256(...).hexdigest()`. -/
def sha256Hex (msg : List Nat) : String :=
  ⟨((sha256Bytes msg).map (fun b => [hexDigitChar (b / 16), hexDigitChar (b % 16)])).flatten⟩

/-- `Item.make_id` (backend/storage/models.py): the first 16 hex characters
of the SHA-256 of `"{source_id}:{url}".encode("utf-8")`. -/
def Item.make_id (url source_id : String) : String :=
  (sha256Hex (strUtf8 (source_id ++ ":" ++ url))).take 16

/- ----------------------------------------------------------------------
   Storage model and batch_insert_items (backend/storage/db.py,
   backend/storage/models.py)
   ---------------------------------------------------------------------- -/

/-- `Item` from backend/storage/models.py (datetimes carried as ISO strings,
metadata as an association list). -/
structure Item where
  id : String
  source_id : String
  url : String
  url_canonical : String
  title : String
  published_at : String
  category : String
  language : String
  external_id : Option String := none
  content : Option String := none
  author : Option String := none
  ingested_at : Option String := none
  metadata : Option (List (String × MetaVal)) := none
  snapshot_path : Option String := none
  deriving DecidableEq

/-- Modelled from the spec: the `items` table schema lives in
storage/schema.sql, which is not among the provided sources.  Per the spec's
data-model section, `id` is the primary key, `url_canonical` is globally
unique, and `(source_id, external_id)` is unique when `external_id` is
present; a candidate row conflicts when inserting it would violate any of
these constraints. -/
def rowConflicts (table : List Item) (it : Item) : Bool :=
  table.any (fun r =>
    r.id == it.id
    || r.url_canonical == it.url_canonical
    || (it.external_id.isSome && r.external_id == it.external_id
         && r.source_id == it.source_id))

/-- `INSERT OR IGNORE` of a single row: appended unless it conflicts; the
second component is its contribution to `cursor.rowcount`. -/
def insertOrIgnore (table : List Item) (it : Item) : List Item × Nat :=
  if rowConflicts table it then (table, 0) else (table ++ [it], 1)

/-- `executemany` over one chunk: rows inserted in order, each seeing the
effect of the previous ones; the count is the rows actually inserted. -/
def insertMany (table : List Item) : List Item → List Item × Nat
  | [] => (table, 0)
  | it :: rest =>
      let step := insertOrIgnore table it
      let final := insertMany step.1 rest
      (final.1, step.2 + final.2)

/-- Chunking `items[i : i + batch_size]` (fuel-driven; any fuel at least the
list length is enough). -/
def chunksOf (batchSize : Nat) : Nat → List Item → List (List Item)
  | 0, _ => []
  | _, [] => []
  | fuel + 1, items =>
      items.take batchSize :: chunksOf batchSize fuel (items.drop batchSize)

/-- One chunk of the batch loop: `executemany` then
`inserted += cursor.rowcount`. -/
def batchStep (acc : List Item × Nat) (chunk : List Item) : List Item × Nat :=
  ((insertMany acc.1 chunk).1, acc.2 + (insertMany acc.1 chunk).2)

/-- `DatabaseManager.batch_insert_items`: chunked `INSERT OR IGNORE` inside a
single transaction, accumulating `cursor.rowcount` per chunk; returns the new
table and the count of rows actually inserted. -/
def batchInsertItems (batchSize : Nat) (table : List Item) (items : List Item) :
    List Item × Nat :=
  (chunksOf batchSize items.length items).foldl batchStep (table, 0)

/-- The invariant of the claim: no two rows of the items table share
`url_canonical`. -/
def urlCanonicalUnique (table : List Item) : Prop :=
  (table.map Item.url_canonical).Nodup

/- ----------------------------------------------------------------------
   LLMSummarizer.summarize (backend/digest/summarizer.py)
   ---------------------------------------------------------------------- -/

/-- `LLMSummarizer._cache_key`: first 16 hex chars of the SHA-256 of
`f"{item.url}:{item.title}:{item.content[:200]}"`. -/
def cacheKey (item : ItemRecord) : String :=
  (sha256Hex (strUtf8
    (item.url ++ ":" ++ item.title ++ ":" ++ item.content.take 200))).take 16

/-- `LLMSummarizer._fallback_summary`: the first 200 characters of the title. -/
def fallbackSummary (item : ItemRecord) : String := item.title.take 200

/-- Insertion-order-preserving dict assignment `d[k] = v`: an existing key
keeps its position with the value replaced, a new key is appended. -/
def dictSet {β : Type} (d : List (String × β)) (k : String) (v : β) :
    List (String × β) :=
  if (d.lookup k).isSome then d.map (fun kv => if kv.1 == k then (k, v) else kv)
  else d ++ [(k, v)]

/-- The `llm` configuration slice relevant to the summarize control flow. -/
structure SummarizerCfg where
  cache_summaries : Bool
  deriving DecidableEq

/-- The cache-hit test of the first summarize loop:
`self.cache_summaries and cache_key in self._cache`. -/
def summarizeHit (cfg : SummarizerCfg) (cache0 : List (String × String))
    (item : ItemRecord) : Bool :=
  cfg.cache_summaries && (cache0.lookup (cacheKey item)).isSome

/-- One iteration of the first summarize loop: a cache hit writes the cached
text under the item's id, a miss appends `(item, cache_key)` to
`to_summarize`. -/
def summarizeStep1 (cfg : SummarizerCfg) (cache0 : List (String × String))
    (acc : List (String × String) × List (ItemRecord × String)) (item : ItemRecord) :
    List (String × String) × List (ItemRecord × String) :=
  if summarizeHit cfg cache0 item then
    (dictSet acc.1 item.id ((cache0.lookup (cacheKey item)).getD ""), acc.2)
  else
    (acc.1, acc.2 ++ [(item, cacheKey item)])

/-- One iteration of the gather loop: the provider's text, or the fallback on
a per-item exception, is written into `results` and (when caching) into the
cache under the item's cache key. -/
def summarizeStep2 (cfg : SummarizerCfg) (provider : ItemRecord → Except String String)
    (acc : List (String × String) × List (String × String)) (p : ItemRecord × String) :
    List (String × String) × List (String × String) :=
  let text := match provider p.1 with
    | .ok s => s
    | .error _ => fallbackSummary p.1
  (dictSet acc.1 p.1.id text,
   if cfg.cache_summaries then dictSet acc.2 p.2 text else acc.2)

/-- `LLMSummarizer.summarize`.  `provider` models `_summarize_one` (the
provider dispatch, which performs network I/O and may raise).  The first loop
splits items into cache hits (written into `results`) and a `to_summarize`
list; the second models the batched `asyncio.gather(..,
return_exceptions=True)` loops, which preserve submission order.  Batching
into groups of `concurrent_requests` does not change the resulting dicts.
Returns `(results, cache')`. -/
def summarize (cfg : SummarizerCfg) (provider : ItemRecord → Except String String)
    (cache0 : List (String × String)) (items : List ItemRecord) :
    List (String × String) × List (String × String) :=
  let firstPass := items.foldl (summarizeStep1 cfg cache0) ([], [])
  firstPass.2.foldl (summarizeStep2 cfg provider) (firstPass.1, cache0)

/-- The amended claim's per-item closed form: the cached text on a cache hit,
otherwise the provider's text, or the fallback (first 200 characters of the
title) when the provider fails — depending only on the item itself, the
initial cache and that item's own outcome. -/
def expectedSummary (cfg : SummarizerCfg) (provider : ItemRecord → Except String String)
    (cache0 : List (String × String)) (item : ItemRecord) : String :=
  if cfg.cache_summaries && (cache0.lookup (cacheKey item)).isSome then
    (cache0.lookup (cacheKey item)).getD ""
  else
    match provider item with
    | .ok s => s
    | .error _ => fallbackSummary item

/-- Provider fixture for the duplicate-id counterexample: fails on title
"T0", succeeds with text "S" otherwise. -/
def cexProvider : ItemRecord → Except String String :=
  fun it => if it.title == "T0" then .error "boom" else .ok "S"

/- ----------------------------------------------------------------------
   Python string primitives (str.strip, str.lower, regex whitespace)
   ---------------------------------------------------------------------- -/

/-- Python's Unicode whitespace (the `str.isspace` / `str.strip` set). -/
def pyIsSpace (c : Char) : Bool :=
  c.toNat ∈ [9, 10, 11, 12, 13, 28, 29, 30, 31, 32, 133, 160, 5760,
    8192, 8193, 8194, 8195, 8196, 8197, 8198, 8199, 8200, 8201, 8202,
    8232, 8233, 8239, 8287, 12288]

/-- `str.strip()`. -/
def pyStrip (s : List Char) : List Char :=
  ((s.dropWhile pyIsSpace).reverse.dropWhile pyIsSpace).reverse

/-- `str.lower()` for one character, restricted to the ASCII case mapping
(non-ASCII characters are left unchanged; every use in this development is
insensitive to this restriction of the full Unicode table). -/
def pyLowerChar (c : Char) : Char :=
  if 'A' ≤ c ∧ c ≤ 'Z' then Char.ofNat (c.toNat + 32) else c

/-- `str.lower()`. -/
def pyLower (s : List Char) : List Char := s.map pyLowerChar

/-- Remove all trailing occurrences of `m` (`str.rstrip(m)` for a single
stripped character). -/
def rstripChars (m : Char) (s : List Char) : List Char :=
  (s.reverse.dropWhile (fun c => c == m)).reverse

/- ----------------------------------------------------------------------
   urllib.parse model (CPython 3.11 semantics).  Omitted checks that only
   reject exotic inputs: `_check_bracketed_host` (IPv6 validation inside
   brackets) and `_checknetloc` (NFKC check for non-ASCII netlocs); both
   raise for inputs this model instead parses.
   ---------------------------------------------------------------------- -/

/-- WHATWG C0-control-or-space characters, lstripped by `urlsplit`. -/
def isC0OrSpace (c : Char) : Bool := c.toNat ≤ 32

/-- `_UNSAFE_URL_BYTES_TO_REMOVE`: tab, CR and LF are removed anywhere. -/
def removeUnsafeBytes (s : List Char) : List Char :=
  s.filter (fun c => !(c == '\t' || c == '\r' || c == '\n'))

/-- `scheme_chars`: ASCII letters, digits and `+-.`. -/
def isSchemeChar (c : Char) : Bool :=
  c.isAlphanum || c == '+' || c == '-' || c == '.'

/-- The scheme detection of `urlsplit`: a colon at a positive index, an
ASCII-alphabetic first character, and scheme characters before the colon;
the detected scheme is lowercased. -/
def splitScheme (s : List Char) : List Char × List Char :=
  match s.findIdx? (fun c => c == ':') with
  | none => ([], s)
  | some i =>
      if 0 < i ∧ (s.headD ' ').isAlpha ∧ (s.take i).all isSchemeChar then
        (pyLower (s.take i), s.drop (i + 1))
      else ([], s)

/-- Split at the first occurrence of `m`, dropping the marker; when `m` is
absent the second component is empty (indistinguishable, for the caller,
from a trailing marker — which agrees with how the results are used). -/
def splitOnFirst (s : List Char) (m : Char) : List Char × List Char :=
  (s.takeWhile (fun c => !(c == m)), (s.dropWhile (fun c => !(c == m))).drop 1)

/-- The result record of `urlsplit`. -/
structure SplitUrl where
  scheme : List Char
  netloc : List Char
  path : List Char
  query : List Char
  fragment : List Char
  deriving DecidableEq

/-- `urlsplit(url)` (default scheme `''`, `allow_fragments=True`); `none`
models the `ValueError("Invalid IPv6 URL")` raise on mismatched brackets in
the netloc. -/
def urlsplitE (url : List Char) : Option SplitUrl :=
  let u0 := removeUnsafeBytes (url.dropWhile isC0OrSpace)
  let sp := splitScheme u0
  let rest := sp.2
  if rest.take 2 = ['/', '/'] then
    let nl := (rest.drop 2).takeWhile (fun c => !(c == '/' || c == '?' || c == '#'))
    let rest2 := (rest.drop 2).dropWhile (fun c => !(c == '/' || c == '?' || c == '#'))
    if (nl.contains '[' && !(nl.contains ']'))
        || (nl.contains ']' && !(nl.contains '[')) then
      none
    else
      let fr := splitOnFirst rest2 '#'
      let pq := splitOnFirst fr.1 '?'
      some ⟨sp.1, nl, pq.1, pq.2, fr.2⟩
  else
    let fr := splitOnFirst rest '#'
    let pq := splitOnFirst fr.1 '?'
    some ⟨sp.1, [], pq.1, pq.2, fr.2⟩

/-- `uses_params` schemes. -/
def usesParams : List (List Char) :=
  ["", "ftp", "hdl", "prospero", "http", "imap", "https", "shttp", "rtsp",
   "rtsps", "rtspu", "sip", "sips", "mms", "sftp", "tel"].map String.data

/-- `uses_netloc` schemes. -/
def usesNetloc : List (List Char) :=
  ["", "ftp", "http", "gopher", "nntp", "telnet", "imap", "wais", "file",
   "mms", "https", "shttp", "snews", "prospero", "rtsp", "rtsps", "rtspu",
   "rsync", "svn", "svn+ssh", "sftp", "nfs", "git", "git+ssh", "ws",
   "wss"].map String.data

/-- `str.find(m, start)` as an index option. -/
def findFrom (s : List Char) (m : Char) (start : Nat) : Option Nat :=
  match (s.drop start).findIdx? (fun c => c == m) with
  | none => none
  | some k => some (start + k)

/-- `str.rfind(m)` as an index option. -/
def rfindIdx (s : List Char) (m : Char) : Option Nat :=
  match s.reverse.findIdx? (fun c => c == m) with
  | none => none
  | some k => some (s.length - 1 - k)

/-- `_splitparams`: split at the first `;` in the last path segment (callers
guarantee a `;` is present, and a `/` is present in the branch using
`rfind`). -/
def splitParams (url : List Char) : List Char × List Char :=
  match (if url.contains '/' then
           match rfindIdx url '/' with
           | some j => findFrom url ';' j
           | none => none
         else url.findIdx? (fun c => c == ';')) with
  | none => (url, [])
  | some i => (url.take i, url.drop (i + 1))

/-- The result record of `urlparse`. -/
structure ParsedUrl where
  scheme : List Char
  netloc : List Char
  path : List Char
  params : List Char
  query : List Char
  fragment : List Char
  deriving DecidableEq

/-- `urlparse(url)`: `urlsplit` plus the params split for `uses_params`
schemes. -/
def urlparseE (url : List Char) : Option ParsedUrl :=
  match urlsplitE url with
  | none => none
  | some sp =>
      if usesParams.contains sp.scheme ∧ sp.path.contains ';' then
        let pp := splitParams sp.path
        some ⟨sp.scheme, sp.netloc, pp.1, pp.2, sp.query, sp.fragment⟩
      else some ⟨sp.scheme, sp.netloc, sp.path, [], sp.query, sp.fragment⟩

/-- `urlunsplit` (CPython 3.11: the `//` part is emitted when a netloc is
present, or for a `uses_netloc` scheme whose path does not already start
with `//`). -/
def urlunsplit (scheme netloc url query fragment : List Char) : List Char :=
  let u1 :=
    if !netloc.isEmpty
        || (!scheme.isEmpty && usesNetloc.contains scheme
             && !(url.take 2 == ['/', '/'])) then
      let p := if !url.isEmpty && !(url.headD ' ' == '/') then '/' :: url else url
      '/' :: '/' :: (netloc ++ p)
    else url
  let u2 := if !scheme.isEmpty then scheme ++ (':' :: u1) else u1
  let u3 := if !query.isEmpty then u2 ++ ('?' :: query) else u2
  if !fragment.isEmpty then u3 ++ ('#' :: fragment) else u3

/-- `urlunparse`: params are rejoined with `;` then `urlunsplit` runs. -/
def urlunparse (scheme netloc path params query fragment : List Char) : List Char :=
  urlunsplit scheme netloc
    (if !params.isEmpty then path ++ (';' :: params) else path) query fragment

/- ----------------------------------------------------------------------
   Percent-coding model (quote_plus / unquote_plus, UTF-8 with replace)
   ---------------------------------------------------------------------- -/

/-- The always-safe characters of `urllib.parse.quote`. -/
def isAlwaysSafe (c : Char) : Bool :=
  c.isAlphanum || c == '_' || c == '.' || c == '-' || c == '~'

/-- Uppercase hex digit. -/
def hexUpperChar (n : Nat) : Char := "0123456789ABCDEF".data.getD n '0'

/-- `quote_plus(s, safe='')` for one character: space to `+`, safe characters
verbatim, anything else percent-encoded per UTF-8 byte. -/
def quotePlusChar (c : Char) : List Char :=
  if c == ' ' then ['+']
  else if isAlwaysSafe c then [c]
  else ((utf8EncodeChar c).map
    (fun b => ['%', hexUpperChar (b / 16), hexUpperChar (b % 16)])).flatten

/-- `quote_plus(s, safe='')`. -/
def quotePlus (s : List Char) : List Char := (s.map quotePlusChar).flatten

/-- Hex digit test (both cases). -/
def isHexDigitChar (c : Char) : Bool :=
  ('0' ≤ c && c ≤ '9') || ('a' ≤ c && c ≤ 'f') || ('A' ≤ c && c ≤ 'F')

/-- Value of a hex digit. -/
def hexVal (c : Char) : Nat :=
  if c ≤ '9' then c.toNat - 48 else if c ≤ 'F' then c.toNat - 55 else c.toNat - 87

/-- U+FFFD, the Unicode replacement character. -/
def replacementChar : Char := Char.ofNat 65533

/-- UTF-8 continuation byte test. -/
def isContByte (b : Nat) : Bool := 128 ≤ b && b < 192

/-- UTF-8 decoding with `errors="replace"`: well-formed sequences decode to
their scalar value; each maximal invalid prefix yields one U+FFFD. -/
def utf8Decode : List Nat → List Char
  | [] => []
  | b :: rest =>
      if b < 128 then Char.ofNat b :: utf8Decode rest
      else if b < 194 then replacementChar :: utf8Decode rest
      else if b < 224 then
        match rest with
        | b1 :: r1 =>
            if isContByte b1 then
              Char.ofNat ((b - 192) * 64 + (b1 - 128)) :: utf8Decode r1
            else replacementChar :: utf8Decode (b1 :: r1)
        | [] => [replacementChar]
      else if b < 240 then
        match rest with
        | b1 :: r1 =>
            if (b == 224 && 160 ≤ b1 && b1 < 192)
                || (224 < b && b < 237 && isContByte b1)
                || (b == 237 && 128 ≤ b1 && b1 < 160)
                || (237 < b && isContByte b1) then
              match r1 with
              | b2 :: r2 =>
                  if isContByte b2 then
                    Char.ofNat ((b - 224) * 4096 + (b1 - 128) * 64 + (b2 - 128))
                      :: utf8Decode r2
                  else replacementChar :: utf8Decode (b2 :: r2)
              | [] => [replacementChar]
            else replacementChar :: utf8Decode (b1 :: r1)
        | [] => [replacementChar]
      else if b < 245 then
        match rest with
        | b1 :: r1 =>
            if (b == 240 && 144 ≤ b1 && b1 < 192)
                || (240 < b && b < 244 && isContByte b1)
                || (b == 244 && 128 ≤ b1 && b1 < 144) then
              match r1 with
              | b2 :: r2 =>
                  if isContByte b2 then
                    match r2 with
                    | b3 :: r3 =>
                        if isContByte b3 then
                          Char.ofNat ((b - 240) * 262144 + (b1 - 128) * 4096
                            + (b2 - 128) * 64 + (b3 - 128)) :: utf8Decode r3
                        else replacementChar :: utf8Decode (b3 :: r3)
                    | [] => [replacementChar]
                  else replacementChar :: utf8Decode (b2 :: r2)
              | [] => [replacementChar]
            else replacementChar :: utf8Decode (b1 :: r1)
        | [] => [replacementChar]
      else replacementChar :: utf8Decode rest

/-- Tokenize a string into literal characters and percent-decoded bytes
(an invalid escape leaves the `%` literal, as `unquote` does). -/
def pctTokens : List Char → List (Sum Char Nat)
  | [] => []
  | '%' :: h1 :: h2 :: r2 =>
      if isHexDigitChar h1 && isHexDigitChar h2 then
        Sum.inr (hexVal h1 * 16 + hexVal h2) :: pctTokens r2
      else Sum.inl '%' :: pctTokens (h1 :: h2 :: r2)
  | '%' :: rest => Sum.inl '%' :: pctTokens rest
  | c :: rest => Sum.inl c :: pctTokens rest

/-- Group maximal byte runs (consecutive escapes decode as one byte string,
as in `unquote`). -/
def groupBytes : List (Sum Char Nat) → List (Sum Char (List Nat))
  | [] => []
  | .inl c :: rest => .inl c :: groupBytes rest
  | .inr b :: rest =>
      match groupBytes rest with
      | .inr bs :: gs => .inr (b :: bs) :: gs
      | gs => .inr [b] :: gs

/-- `unquote(s, errors="replace")`. -/
def pyUnquote (s : List Char) : List Char :=
  ((groupBytes (pctTokens s)).map (fun g =>
    match g with
    | .inl c => [c]
    | .inr bs => utf8Decode bs)).flatten

/-- `unquote_plus`: `+` becomes a space, then `unquote`. -/
def pyUnquotePlus (s : List Char) : List Char :=
  pyUnquote (s.map (fun c => if c == '+' then ' ' else c))

/- ----------------------------------------------------------------------
   parse_qs / urlencode model
   ---------------------------------------------------------------------- -/

/-- `str.split(m)` (all occurrences; empty string gives one empty piece). -/
def splitOnChar (m : Char) : List Char → List (List Char)
  | [] => [[]]
  | c :: rest =>
      let r := splitOnChar m rest
      if c == m then [] :: r
      else
        match r with
        | h :: t => (c :: h) :: t
        | [] => [[c]]

/-- One `name=value` pair of `parse_qsl(qs, keep_blank_values=True)`: split
at the first `=` (a missing `=` yields a blank value), then unquote both. -/
def parseQsPair (seg : List Char) : List Char × List Char :=
  (pyUnquotePlus (seg.takeWhile (fun c => !(c == '='))),
   pyUnquotePlus ((seg.dropWhile (fun c => !(c == '='))).drop 1))

/-- `parse_qsl(qs, keep_blank_values=True)`: empty segments are skipped. -/
def parseQsl (qs : List Char) : List (List Char × List Char) :=
  ((splitOnChar '&' qs).filter (fun seg => !seg.isEmpty)).map parseQsPair

/-- Add a pair to the `parse_qs` dict: an existing key appends the value in
place, a new key is appended at the end. -/
def qsDictAdd (d : List (List Char × List (List Char))) (k v : List Char) :
    List (List Char × List (List Char)) :=
  if d.any (fun kv => kv.1 == k) then
    d.map (fun kv => if kv.1 == k then (kv.1, kv.2 ++ [v]) else kv)
  else d ++ [(k, [v])]

/-- `parse_qs(qs, keep_blank_values=True)`: group into a dict of value
lists, keys in first-occurrence order. -/
def parseQs (qs : List Char) : List (List Char × List (List Char)) :=
  (parseQsl qs).foldl (fun d p => qsDictAdd d p.1 p.2) []

/-- `'&'.join`. -/
def joinAmp : List (List Char) → List Char
  | [] => []
  | [x] => x
  | x :: rest => x ++ ('&' :: joinAmp rest)

/-- `urlencode(d, doseq=True)` over a str-to-list-of-str dict: one `k=v`
piece per value, keys and values quoted with `quote_plus`. -/
def urlencodeDoseq (d : List (List Char × List (List Char))) : List Char :=
  joinAmp ((d.map (fun kv =>
    kv.2.map (fun v => quotePlus kv.1 ++ ('=' :: quotePlus v)))).flatten)

/- ----------------------------------------------------------------------
   canonical_url (backend/denoise/dedup.py)
   ---------------------------------------------------------------------- -/

/-- The tracking query parameters stripped by `canonical_url`. -/
def stripParamsSet : List (List Char) :=
  ["utm_source", "utm_medium", "utm_campaign", "utm_term", "utm_content",
   "ref", "source", "fbclid", "gclid"].map String.data

/-- The components assembled by the success path of `canonical_url`:
lowercased scheme, lowercased dot-rstripped host, slash-rstripped path
(empty becomes `/`), and the tracking-filtered re-encoded query; `none` when
`urlparse` raises. -/
def canonAssemble (url : String) : Option (List Char × List Char × List Char × List Char) :=
  match urlparseE (pyStrip url.data) with
  | none => none
  | some p =>
      let scheme := pyLower p.scheme
      let netloc := rstripChars '.' (pyLower p.netloc)
      let path := if (rstripChars '/' p.path).isEmpty then ['/'] else rstripChars '/' p.path
      let query :=
        if p.query.isEmpty then []
        else urlencodeDoseq ((parseQs p.query).filter
          (fun kv => !(stripParamsSet.contains (pyLower kv.1))))
      some (scheme, netloc, path, query)

/-- `canonical_url` (backend/denoise/dedup.py): normalize a URL for dedup —
drop fragment and params, lowercase scheme and host, strip a trailing host
dot and trailing path slashes, filter tracking query parameters; on any
parse failure, fall back to the lowercased trimmed input. -/
def canonical_url (url : String) : String :=
  match canonAssemble url with
  | none => ⟨pyLower (pyStrip url.data)⟩
  | some cp => ⟨urlunparse cp.1 cp.2.1 cp.2.2.1 [] cp.2.2.2 []⟩

/-- The path component as it re-reads from the assembled output of
`canonical_url`: when `urlunsplit` emits the `//` part it prepends a slash to
a relative path, and the re-parse keeps that slash. -/
def canonRepath (scheme netloc path : List Char) : List Char :=
  if !netloc.isEmpty
      || (!scheme.isEmpty && usesNetloc.contains scheme
           && !(path.take 2 == ['/', '/'])) then
    if !path.isEmpty && !(path.headD ' ' == '/') then '/' :: path else path
  else path

/-- The re-parse stability check for `canonical_url`: on the fallback branch it
is vacuous; on the success branch it asks that the assembled output is
untouched by the whitespace preprocessing of a second pass (`strip()` and
`urlsplit`'s control-character handling), that an empty netloc does not abut a
`//`-initial path (which a second parse would read as a netloc), that a
schemeless output is not re-read as having a scheme, that the re-read path does
not shed a `;params` suffix, and that the re-encoded query re-parses to
itself. -/
def canonicalStable (u : String) : Bool :=
  match canonAssemble u with
  | none => true
  | some cp =>
      let scheme := cp.1
      let netloc := cp.2.1
      let path := cp.2.2.1
      let query := cp.2.2.2
      let v := urlunparse scheme netloc path [] query []
      let path2 := canonRepath scheme netloc path
      pyStrip v == v
      && v.dropWhile isC0OrSpace == v
      && removeUnsafeBytes v == v
      && !(netloc.isEmpty && path.take 2 == ['/', '/'])
      && (!scheme.isEmpty || splitScheme v == ([], v))
      && (!(usesParams.contains scheme && path2.contains ';')
          || splitParams path2 == (path2, []))
      && (query.isEmpty
          || urlencodeDoseq ((parseQs query).filter
              (fun kv => !(stripParamsSet.contains (pyLower kv.1)))) == query)

/- ----------------------------------------------------------------------
   IngestOrchestrator._normalize_items (backend/pipeline/orchestrator.py)
   ---------------------------------------------------------------------- -/

/-- A raw connector dict, restricted to the keys `_normalize_items` reads
(`raw.get("url", "")` defaults the url to the empty string; the other `get`
calls default to `None`). -/
structure RawItem where
  url : String := ""
  external_id : Option String := none
  title : Option String := none
  content : Option String := none
  author : Option String := none
  published_at : Option String := none
  metadata : Option (List (String × MetaVal)) := none

/-- The fields of a source configuration that `_normalize_items` reads. -/
structure SourceCfg where
  id : String
  category : Option String := none
  lang : Option String := none

/-- `IngestOrchestrator._normalize_items`: skip raw items with a falsy url,
canonicalize the url, build the id with `Item.make_id`, and fill defaults
(`_parse_datetime` is carried as an oracle `parseDT`, `datetime.utcnow()` as
`now`; `_parse_datetime(raw.get("published_at")) or now` falls back to `now`
both on a missing key and on a parse failure). -/
def normalizeItems (parseDT : String → Option String) (now : String)
    (source : SourceCfg) : List RawItem → List Item
  | [] => []
  | raw :: rest =>
      if raw.url == "" then normalizeItems parseDT now source rest
      else
        { id := Item.make_id raw.url source.id
          source_id := source.id
          external_id := raw.external_id
          url := raw.url
          url_canonical := canonical_url raw.url
          title := raw.title.getD "Untitled"
          content := raw.content
          author := raw.author
          published_at := match raw.published_at with
            | none => now
            | some sv => (parseDT sv).getD now
          ingested_at := some now
          category := source.category.getD "news"
          language := source.lang.getD "en"
          metadata := raw.metadata } :: normalizeItems parseDT now source rest

/-- Fixture: a raw connector item with only a url. -/
def c3raw : RawItem := { url := "http://e.com/a" }

/-- Fixture: the normalized item for `c3raw` under source `src`. -/
def c3item : Item :=
  { id := Item.make_id "http://e.com/a" "src"
    source_id := "src"
    url := "http://e.com/a"
    url_canonical := canonical_url "http://e.com/a"
    title := "Untitled"
    published_at := "t0"
    category := "news"
    language := "en"
    external_id := none
    content := none
    author := none
    ingested_at := some "t0"
    metadata := none
    snapshot_path := none }

/- ----------------------------------------------------------------------
   DedupClusterer.cluster_items (backend/denoise/dedup.py).  Python's
   process-seeded `hash()` and `unicodedata.normalize("NFKC", _)` are carried
   as oracles in a `ClusterEnv`; the similarity threshold (a float) is a
   rational; `find` is modelled without path compression, which changes no
   `find` result; LSH candidate sets (Python sets with unspecified iteration
   order) are modelled as first-seen-ordered lists, which can only affect
   which root labels name the merged clusters, not the clustering itself.
   ---------------------------------------------------------------------- -/

/-- The oracles and configuration `cluster_items` draws on. -/
structure ClusterEnv where
  hashStr : String → Int
  hashTuple : List Nat → Int
  nfkc : String → String
  threshold : ℚ
  hashFuncs : List (Nat × Nat)

/-- `MinHashSignature`. -/
structure MinHashSig where
  values : List Nat
  num_perm : Nat
  deriving DecidableEq

/-- `_LARGE_PRIME`. -/
def largePrime : Nat := 2 ^ 61 - 1

/-- `_MAX_HASH`. -/
def maxHash : Nat := 2 ^ 32 - 1

/-- `h & _MAX_HASH` on a Python int (two's complement: reduction mod `2^32`). -/
def intAnd32 (h : Int) : Nat := (h % (2 ^ 32 : Int)).toNat

/-- `re.sub(r"\s+", " ", text)`: collapse whitespace runs to one space. -/
def collapseWsAux : Bool → List Char → List Char
  | _, [] => []
  | inRun, c :: rest =>
      if pyIsSpace c then
        if inRun then collapseWsAux true rest
        else ' ' :: collapseWsAux true rest
      else c :: collapseWsAux false rest

/-- `re.sub(r"\s+", " ", text)` over a whole string. -/
def collapseWs (s : List Char) : List Char := collapseWsAux false s

/-- `_normalize_text`: NFKC (oracle), collapse whitespace, strip, lower. -/
def normalizeText (env : ClusterEnv) (s : String) : String :=
  ⟨pyLower (pyStrip (collapseWs (env.nfkc s).data))⟩

/-- `_shingle(text, 3)`: lower, strip, collapse, then the 3-gram hash values
(a Python set; the downstream minimum is insensitive to order and
multiplicity, so a list is kept). -/
def shingle (env : ClusterEnv) (text : String) : List Nat :=
  let t := collapseWs (pyLower (pyStrip text.data))
  if t.length < 3 then [intAnd32 (env.hashStr ⟨t⟩)]
  else (List.range (t.length - 3 + 1)).map
    (fun i => intAnd32 (env.hashStr ⟨(t.drop i).take 3⟩))

/-- One shingle's pass over the signature: position `i` is updated with hash
function `i` (signature positions beyond the function list stay put). -/
def applyShingle (s : Nat) : List (Nat × Nat) → List Nat → List Nat
  | _, [] => []
  | [], sig => sig
  | (a, b) :: fs, v :: vs =>
      (let h := intAnd32 (((a * s + b) % largePrime : Nat) : Int)
       if h < v then h else v) :: applyShingle s fs vs

/-- `compute_minhash(text, num_perm)`. -/
def computeMinhash (env : ClusterEnv) (text : String) (numPerm : Nat) : MinHashSig :=
  let shingles := shingle env text
  if shingles.isEmpty then ⟨List.replicate numPerm maxHash, numPerm⟩
  else
    ⟨shingles.foldl (fun sig s => applyShingle s (env.hashFuncs.take numPerm) sig)
      (List.replicate numPerm maxHash), numPerm⟩

/-- `minhash_similarity` (callers in `cluster_items` always compare signatures
of equal `num_perm`, so the `ValueError` branch is unreachable). -/
def minhashSimilarity (a b : MinHashSig) : ℚ :=
  (((a.values.zip b.values).countP (fun xy => xy.1 == xy.2) : ℚ)) / (a.num_perm : ℚ)

/-- Append values to a `defaultdict(list)` under a key (keys are unique, so
extending the first hit is extending the hit; key insertion order
preserved). -/
def dictExtend {α : Type} : List (String × List α) → String → List α →
    List (String × List α)
  | [], k, xs => [(k, xs)]
  | kv :: rest, k, xs =>
      if kv.1 == k then (kv.1, kv.2 ++ xs) :: rest
      else kv :: dictExtend rest k xs

/-- The same for the integer-keyed LSH band buckets. -/
def bucketAppend (band : List (Int × List String)) (h : Int) (cid : String) :
    List (Int × List String) :=
  if band.any (fun kv => kv.1 == h) then
    band.map (fun kv => if kv.1 == h then (kv.1, kv.2 ++ [cid]) else kv)
  else band ++ [(h, [cid])]

/-- The hash of band `i` of a signature (`hash(tuple(...))` as an oracle). -/
def bandHash (env : ClusterEnv) (sig : MinHashSig) (i : Nat) : Int :=
  env.hashTuple ((sig.values.drop (i * 8)).take 8)

/-- `LSHIndex.insert` over the 16 band bucket maps. -/
def lshInsertAux (env : ClusterEnv) (sig : MinHashSig) (cid : String) :
    Nat → List (List (Int × List String)) → List (List (Int × List String))
  | _, [] => []
  | i, band :: rest =>
      bucketAppend band (bandHash env sig i) cid :: lshInsertAux env sig cid (i + 1) rest

/-- `LSHIndex.query_candidates`, bucket contents in band order (the Python
set's iteration order is unspecified; only root labels can depend on it). -/
def lshQueryAux (env : ClusterEnv) (sig : MinHashSig) :
    Nat → List (List (Int × List String)) → List String
  | _, [] => []
  | i, band :: rest =>
      ((band.lookup (bandHash env sig i)).getD []) ++ lshQueryAux env sig (i + 1) rest

/-- First-seen-order dedup (the candidate set), with the seen accumulator. -/
def dedupFirstAux : List String → List String → List String
  | _, [] => []
  | seen, x :: rest =>
      if seen.contains x then dedupFirstAux seen rest
      else x :: dedupFirstAux (x :: seen) rest

/-- First-seen-order dedup (the candidate set). -/
def dedupFirst (l : List String) : List String := dedupFirstAux [] l

/-- `find` without path compression (same results on a forest; the fuel
`parent.length + 1` dominates every acyclic chain). -/
def findRoot (parent : List (String × String)) : Nat → String → String
  | 0, x => x
  | fuel + 1, x =>
      match parent.lookup x with
      | none => x
      | some px => if px == x then x else findRoot parent fuel px

/-- `find(x)`. -/
def ufFind (parent : List (String × String)) (x : String) : String :=
  findRoot parent (parent.length + 1) x

/-- `union(a, b)`: reroot `find(a)` onto `find(b)`. -/
def ufUnion (parent : List (String × String)) (a b : String) :
    List (String × String) :=
  let ra := ufFind parent a
  let rb := ufFind parent b
  if ra == rb then parent
  else parent.map (fun kv => if kv.1 == ra then (kv.1, rb) else kv)

/-- The candidate loop of phase 2 for one representative. -/
def processCandidates (env : ClusterEnv) (sigMap : List (String × MinHashSig))
    (cid : String) (sig : MinHashSig) :
    List (String × String) → List String → List (String × String)
  | parent, [] => parent
  | parent, other :: rest =>
      if other == cid then processCandidates env sigMap cid sig parent rest
      else if ufFind parent cid == ufFind parent other then
        processCandidates env sigMap cid sig parent rest
      else if env.threshold ≤ minhashSimilarity sig ((sigMap.lookup other).getD ⟨[], 0⟩)
      then processCandidates env sigMap cid sig (ufUnion parent cid other) rest
      else processCandidates env sigMap cid sig parent rest

/-- `f"c{n:06d}"`. -/
def cidOf (n : Nat) : String :=
  let s := Nat.repr n
  "c" ++ ⟨List.replicate (6 - s.length) '0'⟩ ++ s

/-- `_pick_best`'s sort key: `(len(content), -hash(published_at))`. -/
def pickKey (env : ClusterEnv) (it : ItemRecord) : Nat × Int :=
  (it.content.length, -(env.hashStr it.published_at))

/-- Strict lexicographic `>` on the key. -/
def keyGt (x y : Nat × Int) : Bool :=
  (decide (y.1 < x.1)) || ((x.1 == y.1) && decide (y.2 < x.2))

/-- `_pick_best`: `max` keeps the first maximal element; callers always pass a
nonempty group (on `[]`, where Python's `max` would raise, a placeholder is
returned). -/
def pickBest (env : ClusterEnv) : List ItemRecord → ItemRecord
  | [] => ⟨"", "", "", "", "", none, "", "", "", "", [], none, false⟩
  | g :: rest =>
      rest.foldl (fun best x => if keyGt (pickKey env x) (pickKey env best) then x
        else best) g

/-- Phase 1: group by canonical url (`defaultdict(list)` in insertion
order). -/
def urlClusters (items : List ItemRecord) : List (String × List ItemRecord) :=
  items.foldl (fun d it => dictExtend d (canonical_url it.url) [it]) []

/-- Assign `c%06d` cluster ids in iteration order. -/
def assignIds : Nat → List (String × List ItemRecord) → List (String × List ItemRecord)
  | _, [] => []
  | ctr, (_, group) :: rest => (cidOf ctr, group) :: assignIds (ctr + 1) rest

/-- The tagging pass: set `cluster_id` everywhere and `is_representative`
by id comparison with the picked representative. -/
def tagClusters (env : ClusterEnv) (merged : List (String × List ItemRecord)) :
    List (String × List ItemRecord) :=
  merged.map (fun kv =>
    (kv.1, (let rep := pickBest env kv.2
            kv.2.map (fun it =>
              { it with cluster_id := some kv.1,
                        is_representative := it.id == rep.id }))))

/-- Phase 1 with ids: the `clusters` dict of `cluster_items`. -/
def clusterPhase1 (items : List ItemRecord) : List (String × List ItemRecord) :=
  assignIds 0 (urlClusters items)

/-- The `representatives` signatures (`num_perm = 128`): each URL cluster's
picked representative feeds its normalized title-plus-content prefix into
MinHash. -/
def clusterReps (env : ClusterEnv) (clusters : List (String × List ItemRecord)) :
    List (String × MinHashSig) :=
  clusters.map (fun kv =>
    (kv.1, computeMinhash env
      (normalizeText env ((pickBest env kv.2).title ++ " "
        ++ ((pickBest env kv.2).content.take 500))) 128))

/-- Phase 2: build the 16-band LSH index and run the candidate/union loop,
returning the final union-find parent map. -/
def clusterParent (env : ClusterEnv) (reps : List (String × MinHashSig)) :
    List (String × String) :=
  let lsh := reps.foldl (fun l r => lshInsertAux env r.2 r.1 0 l)
    (List.replicate 16 [])
  reps.foldl (fun par r =>
    processCandidates env reps r.1 r.2 par (dedupFirst (lshQueryAux env r.2 0 lsh)))
    (reps.map (fun r => (r.1, r.1)))

/-- The `merged` dict: clusters regrouped under their union-find roots. -/
def clusterMerged (env : ClusterEnv) (items : List ItemRecord) :
    List (String × List ItemRecord) :=
  (clusterPhase1 items).foldl
    (fun m kv => dictExtend m
      (ufFind (clusterParent env (clusterReps env (clusterPhase1 items))) kv.1) kv.2)
    []

/-- `DedupClusterer.cluster_items` (similarity threshold and oracles from
`env`; `num_perm = 128`, 16 bands of 8 rows). -/
def clusterItems (env : ClusterEnv) (items : List ItemRecord) :
    List (String × List ItemRecord) :=
  if items.isEmpty then []
  else tagClusters env (clusterMerged env items)

/-- Fixture: a clustering environment with constant hash oracles, identity
NFKC, an integral threshold and no hash functions. -/
def cexClusterEnv : ClusterEnv :=
  { hashStr := fun _ => 0
    hashTuple := fun _ => 0
    nfkc := fun s => s
    threshold := 1
    hashFuncs := [] }

/- ----------------------------------------------------------------------
   Scorer popularity (backend/denoise/scorer.py): floats as rationals with
   `math.log1p` carried as a function parameter.
   ---------------------------------------------------------------------- -/

/-- `meta.get(key)` when the value is numeric (`isinstance(val, (int, float))`). -/
def lookupNum (meta : List (String × MetaVal)) (k : String) : Option ℚ :=
  match meta.lookup k with
  | some (MetaVal.num x) => some x
  | _ => none

/-- The fixed-key fallback loop of `_get_raw_popularity`. -/
def getRawFallback (meta : List (String × MetaVal)) : ℚ :=
  match lookupNum meta "points" with
  | some x => x
  | none =>
    match lookupNum meta "score" with
    | some x => x
    | none =>
      match lookupNum meta "stars" with
      | some x => x
      | none =>
        match lookupNum meta "likes_count" with
        | some x => x
        | none =>
          match lookupNum meta "likes" with
          | some x => x
          | none => 0

/-- `_get_raw_popularity`: a truthy `field_hint` with a numeric value wins;
otherwise (hint unset, empty, missing or non-numeric) the fixed key list is
scanned. -/
def getRawPopularity (meta : List (String × MetaVal)) (fieldHint : Option String) : ℚ :=
  match fieldHint with
  | some h =>
      if h == "" then getRawFallback meta
      else
        match lookupNum meta h with
        | some x => x
        | none => getRawFallback meta
  | none => getRawFallback meta

/-- One item's update of `_batch_source_max` in `score_items`. -/
def bmaxStep (spf : List (String × String)) (m : List (String × ℚ))
    (it : ItemRecord) : List (String × ℚ) :=
  let raw := getRawPopularity it.metadata (spf.lookup it.source_id)
  if 0 < raw then
    dictSet m it.source_id (max ((m.lookup it.source_id).getD 0) raw)
  else m

/-- The raw `_batch_source_max` after the first loop of `score_items`. -/
def batchSourceMaxRaw (spf : List (String × String)) (items : List ItemRecord) :
    List (String × ℚ) :=
  items.foldl (bmaxStep spf) []

/-- The clamping loop: every entry below 1 becomes 1.0. -/
def clampBatchMax (m : List (String × ℚ)) : List (String × ℚ) :=
  m.map (fun kv => if kv.2 < 1 then (kv.1, (1 : ℚ)) else kv)

/-- `Scorer._popularity` against a batch-max dict. -/
def popularityFactor (log1p : ℚ → ℚ) (spf : List (String × String))
    (bmax : List (String × ℚ)) (it : ItemRecord) : ℚ :=
  let raw := getRawPopularity it.metadata (spf.lookup it.source_id)
  if raw ≤ 0 then 0
  else
    let mfs := match bmax.lookup it.source_id with
      | none => 1000
      | some m => if m < 1 then 1000 else m
    min 1 (log1p raw / log1p mfs)

/-- The popularity column of `score_items`: each item scored against the
clamped per-source batch maxima of the same call. -/
def scoreItemsPopularity (log1p : ℚ → ℚ) (spf : List (String × String))
    (items : List ItemRecord) : List ℚ :=
  items.map (popularityFactor log1p spf (clampBatchMax (batchSourceMaxRaw spf items)))

/-- The per-source positive raw values of a batch, in batch order. -/
def posRaws (spf : List (String × String)) (items : List ItemRecord) (sid : String) :
    List ℚ :=
  (items.filter (fun jt => jt.source_id == sid
      && decide (0 < getRawPopularity jt.metadata (spf.lookup jt.source_id)))).map
    (fun jt => getRawPopularity jt.metadata (spf.lookup jt.source_id))

/-- The per-source batch maximum of the raw popularity values (0 when the
source has no positive value in the batch). -/
def batchRawMax (spf : List (String × String)) (items : List ItemRecord)
    (sid : String) : ℚ :=
  (posRaws spf items sid).foldl max 0

/-- Modelled from the spec: the claimed popularity factor — raw from the
declared field if set else the fixed key list, `0` when no value is present
or the per-source batch maximum is below one, else
`log1p(raw)/log1p(max_raw_for_same_source_in_batch)` clipped to `[0, 1]`. -/
def popularitySpec (log1p : ℚ → ℚ) (spf : List (String × String))
    (items : List ItemRecord) (it : ItemRecord) : ℚ :=
  let keys := match spf.lookup it.source_id with
    | some h => [h]
    | none => ["points", "score", "stars", "likes_count", "likes"]
  match keys.findSome? (lookupNum it.metadata) with
  | none => 0
  | some raw =>
      if batchRawMax spf items it.source_id < 1 then 0
      else max 0 (min 1 (log1p raw / log1p (batchRawMax spf items it.source_id)))

/-- Fixture: an item whose only metadata is `points = 1/2`. -/
def c7item : ItemRecord :=
  { mkItem "i" "s" "news" with metadata := [("points", MetaVal.num (1 / 2))] }

/- ============ DEFINITIONS ABOVE / THEOREMS BELOW ============ -/

theorem sortInsertDesc_perm (x : ItemRecord × ScoreBreakdown)
    (l : List (ItemRecord × ScoreBreakdown)) : (sortInsertDesc x l).Perm (x :: l) := by
  induction l with
  | nil => simp [sortInsertDesc]
  | cons y ys ih =>
      simp only [sortInsertDesc]
      split
      · exact ((ih.cons y).trans (List.Perm.swap x y ys))
      · exact List.Perm.refl _

theorem digestSortScored_perm (l : List (ItemRecord × ScoreBreakdown)) :
    (digestSortScored l).Perm l := by
  induction l with
  | nil => simp [digestSortScored]
  | cons x xs ih =>
      exact (sortInsertDesc_perm x (digestSortScored xs)).trans (ih.cons x)

theorem sortInsertDesc_sorted (x : ItemRecord × ScoreBreakdown)
    (l : List (ItemRecord × ScoreBreakdown))
    (h : l.Pairwise (fun a b => b.2.total ≤ a.2.total)) :
    (sortInsertDesc x l).Pairwise (fun a b => b.2.total ≤ a.2.total) := by
  induction l with
  | nil => simp [sortInsertDesc]
  | cons y ys ih =>
      simp only [sortInsertDesc]
      rcases List.pairwise_cons.mp h with ⟨hy, hys⟩
      split
      · rename_i hlt
        refine List.pairwise_cons.mpr ⟨?_, ih hys⟩
        intro z hz
        have hz' := (sortInsertDesc_perm x ys).mem_iff.mp hz
        rcases List.mem_cons.mp hz' with rfl | hzys
        · exact le_of_lt hlt
        · exact hy z hzys
      · rename_i hnlt
        refine List.pairwise_cons.mpr ⟨?_, h⟩
        intro z hz
        rcases List.mem_cons.mp hz with rfl | hzys
        · exact le_of_not_lt hnlt
        · exact le_trans (hy z hzys) (le_of_not_lt hnlt)

theorem digestSortScored_sorted (l : List (ItemRecord × ScoreBreakdown)) :
    (digestSortScored l).Pairwise (fun a b => b.2.total ≤ a.2.total) := by
  induction l with
  | nil => simp [digestSortScored]
  | cons x xs ih => exact sortInsertDesc_sorted x (digestSortScored xs) ih

theorem sortInsertDesc_filter (q : ℚ) (x : ItemRecord × ScoreBreakdown)
    (l : List (ItemRecord × ScoreBreakdown)) :
    (sortInsertDesc x l).filter (fun p => p.2.total == q)
      = if x.2.total == q then x :: l.filter (fun p => p.2.total == q)
        else l.filter (fun p => p.2.total == q) := by
  induction l with
  | nil =>
      by_cases hxq : x.2.total = q <;> simp [sortInsertDesc, List.filter_cons, hxq]
  | cons y ys ih =>
      simp only [sortInsertDesc]
      by_cases hlt : x.2.total < y.2.total
      · simp only [if_pos hlt, List.filter_cons, ih]
        by_cases hxq : x.2.total = q
        · have hyq : ¬ y.2.total = q := by
            intro hy
            rw [hxq, hy] at hlt
            exact lt_irrefl q hlt
          simp [hxq, hyq]
        · simp [hxq]
      · simp [if_neg hlt, List.filter_cons]

theorem digestSortScored_filter (l : List (ItemRecord × ScoreBreakdown)) (q : ℚ) :
    (digestSortScored l).filter (fun p => p.2.total == q)
      = l.filter (fun p => p.2.total == q) := by
  induction l with
  | nil => simp [digestSortScored]
  | cons x xs ih =>
      simp only [digestSortScored, sortInsertDesc_filter, List.filter_cons]
      by_cases hxq : x.2.total = q <;> simp [hxq, ih]

/- ----------------------------------------------------------------------
   QuotaManager lemmas
   ---------------------------------------------------------------------- -/

theorem applySourceQuota_sublist (qm : QuotaManager) (counts : String → Nat)
    (l : List (ItemRecord × ScoreBreakdown)) :
    (applySourceQuota qm counts l).Sublist l := by
  induction l generalizing counts with
  | nil => simp [applySourceQuota]
  | cons p rest ih =>
      obtain ⟨it, bd⟩ := p
      simp only [applySourceQuota]
      split
      · exact (ih _).cons₂ (it, bd)
      · exact (ih counts).cons (it, bd)

theorem applyCategoryLimit_sublist (qm : QuotaManager) (counts : String → Nat)
    (l : List (ItemRecord × ScoreBreakdown)) :
    (applyCategoryLimit qm counts l).Sublist l := by
  induction l generalizing counts with
  | nil => simp [applyCategoryLimit]
  | cons p rest ih =>
      obtain ⟨it, bd⟩ := p
      simp only [applyCategoryLimit]
      split
      · exact (ih _).cons₂ (it, bd)
      · exact (ih counts).cons (it, bd)

theorem applySourceQuota_count (qm : QuotaManager)
    (l : List (ItemRecord × ScoreBreakdown)) :
    ∀ (counts : String → Nat) (s : String),
      counts s + countSrc s (applySourceQuota qm counts l)
        ≤ max (counts s) ((qm.source_quotas.lookup s).getD qm.default_quota).toNat := by
  induction l with
  | nil => intro counts s; simp [applySourceQuota, countSrc]
  | cons p rest ih =>
      intro counts s
      obtain ⟨it, bd⟩ := p
      simp only [applySourceQuota]
      split
      · rename_i hadm
        by_cases hs : it.source_id = s
        · subst hs
          have h1 := ih (fun t => if t == it.source_id then counts t + 1 else counts t)
            it.source_id
          simp only [countSrc, List.countP_cons, beq_self_eq_true, if_pos, reduceIte]
            at h1 ⊢
          omega
        · have h1 := ih (fun t => if t == it.source_id then counts t + 1 else counts t) s
          have hne : (s == it.source_id) = false := by
            simp only [beq_eq_false_iff_ne, ne_eq]
            intro h; exact hs h.symm
          have hne2 : (it.source_id == s) = false := by
            simp only [beq_eq_false_iff_ne, ne_eq]; exact hs
          simp only [countSrc, List.countP_cons, hne, hne2, Bool.false_eq_true, reduceIte]
            at h1 ⊢
          omega
      · rename_i hnadm
        have h1 := ih counts s
        by_cases hs : it.source_id = s
        · subst hs
          simp only [countSrc] at h1 ⊢
          omega
        · simp only [countSrc] at h1 ⊢
          omega

theorem applyCategoryLimit_count (qm : QuotaManager)
    (l : List (ItemRecord × ScoreBreakdown)) :
    ∀ (counts : String → Nat) (c : String),
      counts c + countCat c (applyCategoryLimit qm counts l)
        ≤ max (counts c) ((qm.category_limits.lookup c).getD 20).toNat := by
  induction l with
  | nil => intro counts c; simp [applyCategoryLimit, countCat]
  | cons p rest ih =>
      intro counts c
      obtain ⟨it, bd⟩ := p
      simp only [applyCategoryLimit]
      split
      · rename_i hadm
        by_cases hc : it.category = c
        · subst hc
          have h1 := ih (fun t => if t == it.category then counts t + 1 else counts t)
            it.category
          simp only [countCat, List.countP_cons, beq_self_eq_true, if_pos, reduceIte]
            at h1 ⊢
          omega
        · have h1 := ih (fun t => if t == it.category then counts t + 1 else counts t) c
          have hne : (c == it.category) = false := by
            simp only [beq_eq_false_iff_ne, ne_eq]
            intro h; exact hc h.symm
          have hne2 : (it.category == c) = false := by
            simp only [beq_eq_false_iff_ne, ne_eq]; exact hc
          simp only [countCat, List.countP_cons, hne, hne2, Bool.false_eq_true, reduceIte]
            at h1 ⊢
          omega
      · rename_i hnadm
        have h1 := ih counts c
        by_cases hc : it.category = c
        · subst hc
          simp only [countCat] at h1 ⊢
          omega
        · simp only [countCat] at h1 ⊢
          omega

/- ----------------------------------------------------------------------
   HardFilter lemmas
   ---------------------------------------------------------------------- -/

theorem passesThresholds_eq_not_any (meta : List (String × MetaVal))
    (th : List (String × ℚ)) :
    passesThresholds meta th = ! th.any (fun kv => metaBelow meta kv.1 kv.2) := by
  induction th with
  | nil => simp [passesThresholds]
  | cons kv rest ih =>
      obtain ⟨k, minv⟩ := kv
      simp only [passesThresholds, List.any_cons]
      cases hv : (meta.lookup k).getD (MetaVal.num 0) with
      | num v =>
          have hb : metaBelow meta k minv = decide (v < minv) := by
            simp [metaBelow, hv]
          rw [hb]
          by_cases hlt : v < minv
          · simp [hlt]
          · simp [hlt, ih]
      | str s =>
          have hb : metaBelow meta k minv = false := by
            simp [metaBelow, hv]
          rw [hb]
          simp [ih]

theorem filterPopularityLoop_eq_filter (cfg : HardFilterCfg)
    (items : List ItemRecord) :
    filterPopularityLoop cfg items = items.filter (popularityKeepSpec cfg) := by
  induction items with
  | nil => simp [filterPopularityLoop]
  | cons item rest ih =>
      simp only [filterPopularityLoop, List.filter_cons]
      cases hl : cfg.min_popularity.lookup item.source_id with
      | none =>
          have hk : popularityKeepSpec cfg item = true := by
            simp [popularityKeepSpec, hl]
          simp [hk, ih]
      | some th =>
          dsimp only
          have hk : popularityKeepSpec cfg item
              = ! th.any (fun kv => metaBelow item.metadata kv.1 kv.2) := by
            simp [popularityKeepSpec, hl]
          rw [passesThresholds_eq_not_any, hk]
          by_cases h : th.any (fun kv => metaBelow item.metadata kv.1 kv.2)
          · simp [h, ih]
          · simp [h, ih]

/- ----------------------------------------------------------------------
   Claim theorems: C5, C6, C8, C10
   ---------------------------------------------------------------------- -/

/-- C5 counterexample: with quota 0 for source A the first entry is skipped
and the second admitted, so the output `[b]` is a subsequence but not a prefix
of the input `[a, b]`, refuting the "output is a prefix of the input"
sentence.  The rest of the claim is proved as `claim_C5_amended`. -/
theorem claim_C5_counterexample :
    ((QuotaManager.init quotaCfgCex).1.applyQuotas
        [(mkItem "a" "A" "news", bd0), (mkItem "b" "B" "news", bd0)]
      = [(mkItem "b" "B" "news", bd0)])
    ∧ [(mkItem "b" "B" "news", bd0)]
        ∉ listPrefixes [(mkItem "a" "A" "news", bd0), (mkItem "b" "B" "news", bd0)] := by
  decide

/-- C5 (amended): `apply_quotas` returns a subsequence of its input (hence
preserves relative order), with at most `quota(s)` entries per source `s`
(config quota with the default fallback, clamped at zero) and at most `cap(c)`
entries per category `c` (config cap, fallback 20); it is not in general a
prefix of the input. -/
theorem claim_C5_amended (qm : QuotaManager) (l : List (ItemRecord × ScoreBreakdown)) :
    (qm.applyQuotas l).Sublist l
    ∧ (∀ s, countSrc s (qm.applyQuotas l)
         ≤ ((qm.source_quotas.lookup s).getD qm.default_quota).toNat)
    ∧ (∀ c, countCat c (qm.applyQuotas l)
         ≤ ((qm.category_limits.lookup c).getD 20).toNat) := by
  refine ⟨?_, ?_, ?_⟩
  · exact (applyCategoryLimit_sublist _ _ _).trans (applySourceQuota_sublist _ _ _)
  · intro s
    have h1 := applySourceQuota_count qm l (fun _ => 0) s
    have h2 : countSrc s (qm.applyQuotas l)
        ≤ countSrc s (applySourceQuota qm (fun _ => 0) l) :=
      List.Sublist.countP_le _ (applyCategoryLimit_sublist _ _ _)
    simp only [Nat.zero_add, Nat.max_eq_right (Nat.zero_le _), Nat.zero_le] at h1
    omega
  · intro c
    have h1 := applyCategoryLimit_count qm (applySourceQuota qm (fun _ => 0) l)
      (fun _ => 0) c
    simp only [Nat.zero_add, Nat.max_eq_right (Nat.zero_le _), Nat.zero_le] at h1
    exact h1

/-- C6 counterexample: two entries with equal totals arrive in input order
id "b" then id "a"; the sort keeps "b" first (stable sort, no tie-break),
whereas the claimed tie-break by ascending id would put "a" first. -/
theorem claim_C6_counterexample :
    digestSortScored [(mkItem "b" "s" "news", bd0), (mkItem "a" "s" "news", bd0)]
        = [(mkItem "b" "s" "news", bd0), (mkItem "a" "s" "news", bd0)]
    ∧ (mkItem "b" "s" "news", bd0).2.total = (mkItem "a" "s" "news", bd0).2.total
    ∧ (mkItem "a" "s" "news").id = "a" ∧ (mkItem "b" "s" "news").id = "b"
    ∧ [(mkItem "b" "s" "news", bd0), (mkItem "a" "s" "news", bd0)]
        ≠ [(mkItem "a" "s" "news", bd0), (mkItem "b" "s" "news", bd0)] := by
  decide

/-- C6 (amended): step 4 of the digest pipeline sorts the scored list by total
descending only: the result is a permutation of the input, pairwise
non-increasing in total, and entries with any given tie value keep their
relative input order (Python's sort is stable); there is no id tie-break. -/
theorem claim_C6_amended (l : List (ItemRecord × ScoreBreakdown)) :
    (digestSortScored l).Perm l
    ∧ (digestSortScored l).Pairwise (fun a b => b.2.total ≤ a.2.total)
    ∧ ∀ q, (digestSortScored l).filter (fun p => p.2.total == q)
        = l.filter (fun p => p.2.total == q) :=
  ⟨digestSortScored_perm l, digestSortScored_sorted l, digestSortScored_filter l⟩

/-- C8 counterexample: source hn declares a minimum of 10 for "points", and
the item's metadata lacks that key; `metadata.get("points", 0)` yields the
numeric 0, which is strictly below 10, so the item is dropped — the claim says
an item lacking the key is kept. -/
theorem claim_C8_counterexample :
    filterPopularity hfCex [mkItem "i" "hn" "news"] = []
    ∧ (mkItem "i" "hn" "news").metadata.lookup "points" = none := by
  decide

/-- C8 (amended): `filter_popularity` drops an item iff its source declares
per-metric minima and some declared metric key has a numeric value strictly
below the minimum, where a metadata entry missing for that key is treated as
the numeric value 0 (so such an item is dropped whenever its minimum is
positive, not kept). -/
theorem claim_C8_amended (cfg : HardFilterCfg) (items : List ItemRecord) :
    filterPopularity cfg items = items.filter (popularityKeepSpec cfg) := by
  unfold filterPopularity
  by_cases hemp : cfg.min_popularity.isEmpty
  · rw [if_pos hemp]
    have : ∀ item : ItemRecord, popularityKeepSpec cfg item = true := by
      intro item
      unfold popularityKeepSpec
      cases hl : cfg.min_popularity.lookup item.source_id with
      | none => rfl
      | some th =>
          rw [List.isEmpty_iff] at hemp
          rw [hemp] at hl
          simp at hl
    exact (List.filter_eq_self.mpr (fun a _ => this a)).symm
  · rw [if_neg hemp]
    exact filterPopularityLoop_eq_filter cfg items

/-- C8 witness for the amended theorem (no propositional hypotheses in
`claim_C8_amended`, but a concrete instance is recorded): an item with 5
points against minimum 10 is dropped while one with 50 points survives. -/
theorem claim_C8_example :
    filterPopularity hfCex
        [{ mkItem "lo" "hn" "news" with metadata := [("points", MetaVal.num 5)] },
         { mkItem "hi" "hn" "news" with metadata := [("points", MetaVal.num 50)] }]
      = [{ mkItem "hi" "hn" "news" with metadata := [("points", MetaVal.num 50)] }] := by
  decide

/-- C10: constructing a `QuotaManager` pops "default" from the caller's
`scoring.quotas` dict: afterwards the configuration object lacks that key
while all other fields are unchanged; the first manager's default quota is the
configured value, and a second manager built from the same (mutated) config
object no longer sees it and falls back to the hard-coded 20. -/
theorem claim_C10 (cfg : QuotaConfig) (qs : List (String × Int)) (d : Int)
    (hq : cfg.scoring_quotas = some qs)
    (hnd : (qs.map Prod.fst).Nodup)
    (hd : qs.lookup "default" = some d) :
    ((QuotaManager.init cfg).2.scoring_quotas
        = some (qs.eraseP (fun kv => kv.1 == "default")))
    ∧ ((QuotaManager.init cfg).2.scoring_weights = cfg.scoring_weights)
    ∧ ((QuotaManager.init cfg).2.digest_limits = cfg.digest_limits)
    ∧ ((QuotaManager.init cfg).1.default_quota = d)
    ∧ ((QuotaManager.init ((QuotaManager.init cfg).2)).1.default_quota = 20) := by
  have hlookup_none : ∀ (l : List (String × Int)), "default" ∉ l.map Prod.fst →
      l.lookup "default" = none := by
    intro l hl
    induction l with
    | nil => simp
    | cons p rest ih =>
        simp only [List.map_cons, List.mem_cons] at hl
        push_neg at hl
        cases p with
        | mk k v =>
            simp only [List.lookup_cons]
            have hne : (("default" : String) == k) = false := by
              simp only [beq_eq_false_iff_ne, ne_eq]
              intro hh; exact hl.1 hh
            rw [hne]
            exact ih hl.2
  have herase : ((qs.eraseP (fun kv => kv.1 == "default")).lookup "default") = none := by
    clear hd hq
    induction qs with
    | nil => simp
    | cons p rest ih =>
        simp only [List.map_cons, List.nodup_cons] at hnd
        by_cases hp : p.1 = "default"
        · have hpt : (fun (kv : String × Int) => kv.1 == "default") p = true := by
            simp [hp]
          have he := @List.eraseP_cons_of_pos (String × Int) p rest
            (fun kv => kv.1 == "default") hpt
          rw [he]
          refine hlookup_none rest ?_
          intro hk
          exact hnd.1 (by rw [hp]; exact hk)
        · have hpf : ¬ ((fun (kv : String × Int) => kv.1 == "default") p = true) := by
            simp [hp]
          have he := @List.eraseP_cons_of_neg (String × Int) p rest
            (fun kv => kv.1 == "default") hpf
          rw [he]
          have hne : (("default" : String) == p.1) = false := by
            simp only [beq_eq_false_iff_ne, ne_eq]
            intro h; exact hp h.symm
          cases p with
          | mk k v =>
              simp only [List.lookup_cons]
              simp only at hne
              rw [hne]
              exact ih hnd.2
  refine ⟨?_, ?_, ?_, ?_, ?_⟩
  · simp [QuotaManager.init, hq]
  · simp [QuotaManager.init, hq]
  · simp [QuotaManager.init, hq]
  · simp [QuotaManager.init, hq, hd]
  · simp [QuotaManager.init, hq, herase]

/-- C10 witness: the configured default quota 5 is seen by the first manager,
the key is removed from the caller's dict, and a second construction falls
back to 20. -/
theorem claim_C10_witness :
    (quotaCfgW.scoring_quotas = some [("default", 5), ("A", 2)]
      ∧ (([("default", 5), ("A", 2)] : List (String × Int)).map Prod.fst).Nodup
      ∧ ([("default", 5), ("A", 2)] : List (String × Int)).lookup "default" = some 5)
    ∧ (((QuotaManager.init quotaCfgW).2.scoring_quotas
          = some (([("default", 5), ("A", 2)] : List (String × Int)).eraseP
              (fun kv => kv.1 == "default")))
       ∧ ((QuotaManager.init quotaCfgW).2.scoring_weights = quotaCfgW.scoring_weights)
       ∧ ((QuotaManager.init quotaCfgW).2.digest_limits = quotaCfgW.digest_limits)
       ∧ ((QuotaManager.init quotaCfgW).1.default_quota = 5)
       ∧ ((QuotaManager.init ((QuotaManager.init quotaCfgW).2)).1.default_quota = 20)) :=
  ⟨⟨by decide, by decide, by decide⟩,
   claim_C10 quotaCfgW [("default", 5), ("A", 2)] 5 (by decide) (by decide) (by decide)⟩

/- ----------------------------------------------------------------------
   SHA-256 known-answer checks (FIPS 180-4 test vector)
   ---------------------------------------------------------------------- -/

set_option maxRecDepth 10000 in
theorem sha256Hex_abc :
    sha256Hex (strUtf8 "abc")
      = "ba7816bf8f01cfea414140de5dae2223b00361a396177a9cb410ff61f20015ad" := by
  decide

/- ----------------------------------------------------------------------
   batch_insert_items lemmas
   ---------------------------------------------------------------------- -/

theorem insertOrIgnore_unique (table : List Item) (it : Item)
    (h : urlCanonicalUnique table) : urlCanonicalUnique (insertOrIgnore table it).1 := by
  unfold insertOrIgnore
  by_cases hc : rowConflicts table it
  · simpa [hc] using h
  · have hno : ∀ r ∈ table, ¬ (r.url_canonical = it.url_canonical) := by
      intro r hr heq
      apply hc
      unfold rowConflicts
      rw [List.any_eq_true]
      refine ⟨r, hr, ?_⟩
      simp [heq]
    simp only [hc, Bool.false_eq_true, if_neg, reduceIte]
    unfold urlCanonicalUnique at *
    rw [List.map_append, List.nodup_append]
    refine ⟨h, by simp, ?_⟩
    intro a ha hb
    simp only [List.map_cons, List.map_nil, List.mem_singleton] at hb
    rcases List.mem_map.mp ha with ⟨r, hr, rfl⟩
    exact hno r hr hb

theorem insertOrIgnore_len (table : List Item) (it : Item) :
    (insertOrIgnore table it).1.length = table.length + (insertOrIgnore table it).2 := by
  unfold insertOrIgnore
  by_cases hc : rowConflicts table it <;> simp [hc]

theorem insertMany_unique (items : List Item) :
    ∀ table, urlCanonicalUnique table → urlCanonicalUnique (insertMany table items).1 := by
  induction items with
  | nil => intro table h; simpa [insertMany] using h
  | cons it rest ih =>
      intro table h
      simp only [insertMany]
      exact ih _ (insertOrIgnore_unique table it h)

theorem insertMany_len (items : List Item) :
    ∀ table, (insertMany table items).1.length = table.length + (insertMany table items).2 := by
  induction items with
  | nil => intro table; simp [insertMany]
  | cons it rest ih =>
      intro table
      simp only [insertMany]
      have h1 := insertOrIgnore_len table it
      have h2 := ih (insertOrIgnore table it).1
      omega

theorem chunksFold_spec (chunks : List (List Item)) :
    ∀ (t : List Item) (n : Nat), urlCanonicalUnique t →
      urlCanonicalUnique ((chunks.foldl batchStep (t, n)).1)
      ∧ ((chunks.foldl batchStep (t, n)).1.length + n
          = t.length + (chunks.foldl batchStep (t, n)).2) := by
  induction chunks with
  | nil =>
      intro t n h
      exact ⟨h, by simp [Nat.add_comm]⟩
  | cons c rest ih =>
      intro t n h
      simp only [List.foldl_cons, batchStep]
      have h1 := insertMany_unique c t h
      have h2 := insertMany_len c t
      have h3 := ih (insertMany t c).1 (n + (insertMany t c).2) h1
      exact ⟨h3.1, by omega⟩

/- ----------------------------------------------------------------------
   Claim theorems: C1
   ---------------------------------------------------------------------- -/

/-- C1: starting from a table in which no two rows share `url_canonical`,
after `batch_insert_items` no two rows share `url_canonical`, and the
returned count equals the number of rows actually added to the table (rows
skipped by `INSERT OR IGNORE` on a conflicting primary key, `url_canonical`,
or `(source_id, external_id)` are not counted).  The schema's uniqueness
constraints are modelled from the spec, as storage/schema.sql is not among
the provided sources. -/
theorem claim_C1 (batchSize : Nat) (table items : List Item)
    (h : urlCanonicalUnique table) :
    urlCanonicalUnique (batchInsertItems batchSize table items).1
    ∧ (batchInsertItems batchSize table items).2
        = (batchInsertItems batchSize table items).1.length - table.length := by
  unfold batchInsertItems
  have hs := chunksFold_spec (chunksOf batchSize items.length items) table 0 h
  exact ⟨hs.1, by omega⟩

/-- C1 witness: inserting two rows that share a canonical URL into an empty
table inserts only the first; the count is 1 and the invariant holds. -/
theorem claim_C1_witness :
    urlCanonicalUnique ([] : List Item)
    ∧ (urlCanonicalUnique (batchInsertItems 1000 []
          [{ id := "a", source_id := "s", url := "u1", url_canonical := "c",
             title := "", published_at := "", category := "news", language := "en" },
           { id := "b", source_id := "s", url := "u2", url_canonical := "c",
             title := "", published_at := "", category := "news", language := "en" }]).1
       ∧ (batchInsertItems 1000 []
          [{ id := "a", source_id := "s", url := "u1", url_canonical := "c",
             title := "", published_at := "", category := "news", language := "en" },
           { id := "b", source_id := "s", url := "u2", url_canonical := "c",
             title := "", published_at := "", category := "news", language := "en" }]).2
          = (batchInsertItems 1000 []
          [{ id := "a", source_id := "s", url := "u1", url_canonical := "c",
             title := "", published_at := "", category := "news", language := "en" },
           { id := "b", source_id := "s", url := "u2", url_canonical := "c",
             title := "", published_at := "", category := "news", language := "en" }]).1.length
            - ([] : List Item).length) :=
  ⟨by simp [urlCanonicalUnique],
   claim_C1 1000 []
     [{ id := "a", source_id := "s", url := "u1", url_canonical := "c",
        title := "", published_at := "", category := "news", language := "en" },
      { id := "b", source_id := "s", url := "u2", url_canonical := "c",
        title := "", published_at := "", category := "news", language := "en" }]
     (by simp [urlCanonicalUnique])⟩

/- ----------------------------------------------------------------------
   Summarizer lemmas
   ---------------------------------------------------------------------- -/

theorem dictSet_lookup_self {β : Type} (d : List (String × β)) (k : String) (v : β) :
    (dictSet d k v).lookup k = some v := by
  unfold dictSet
  by_cases hs : (d.lookup k).isSome
  · rw [if_pos hs]
    induction d with
    | nil => simp at hs
    | cons p rest ih =>
        obtain ⟨a, b⟩ := p
        by_cases hak : a = k
        · subst hak
          simp [List.lookup_cons]
        · have h1 : (a == k) = false := by
            simp only [beq_eq_false_iff_ne, ne_eq]; exact hak
          have h2 : (k == a) = false := by
            simp only [beq_eq_false_iff_ne, ne_eq]
            intro h; exact hak h.symm
          simp only [List.lookup_cons, h2] at hs
          simp only [List.map_cons, h1, Bool.false_eq_true, reduceIte,
            List.lookup_cons, h2]
          exact ih hs
  · rw [if_neg hs]
    rw [List.lookup_append]
    rw [Option.not_isSome_iff_eq_none] at hs
    simp [hs, List.lookup_cons]

theorem dictSet_lookup_ne {β : Type} (d : List (String × β)) (k : String) (v : β)
    (k' : String) (h : k' ≠ k) : (dictSet d k v).lookup k' = d.lookup k' := by
  unfold dictSet
  by_cases hs : (d.lookup k).isSome
  · rw [if_pos hs]
    induction d with
    | nil => simp
    | cons p rest ih =>
        obtain ⟨a, b⟩ := p
        by_cases hak : a = k
        · subst hak
          have h2 : (k' == a) = false := by
            simp only [beq_eq_false_iff_ne, ne_eq]; exact h
          simp only [List.map_cons, beq_self_eq_true, reduceIte, List.lookup_cons, h2]
          by_cases hrest : (rest.lookup a).isSome
          · exact ih hrest
          · -- when the tail no longer contains k the map is the identity there
            clear ih hs
            induction rest with
            | nil => simp
            | cons q qs ihq =>
                obtain ⟨c, e⟩ := q
                by_cases hck : c = a
                · subst hck
                  simp [List.lookup_cons] at hrest
                · have h3 : (c == a) = false := by
                    simp only [beq_eq_false_iff_ne, ne_eq]; exact hck
                  have h4 : (a == c) = false := by
                    simp only [beq_eq_false_iff_ne, ne_eq]
                    intro hh; exact hck hh.symm
                  simp only [List.lookup_cons, h4] at hrest
                  simp only [List.map_cons, h3, Bool.false_eq_true, reduceIte,
                    List.lookup_cons]
                  cases hkc : (k' == c) with
                  | true => rfl
                  | false => exact ihq hrest
        · have h1 : (a == k) = false := by
            simp only [beq_eq_false_iff_ne, ne_eq]; exact hak
          have h2 : (k == a) = false := by
            simp only [beq_eq_false_iff_ne, ne_eq]
            intro hh; exact hak hh.symm
          simp only [List.lookup_cons, h2] at hs
          simp only [List.map_cons, h1, Bool.false_eq_true, reduceIte, List.lookup_cons]
          cases hka : (k' == a) with
          | true => rfl
          | false => exact ih hs
  · rw [if_neg hs]
    rw [List.lookup_append]
    have h2 : (k' == k) = false := by
      simp only [beq_eq_false_iff_ne, ne_eq]; exact h
    simp [List.lookup_cons, h2]

theorem foldl_step1_snd (cfg : SummarizerCfg) (cache0 : List (String × String))
    (items : List ItemRecord) :
    ∀ acc, (items.foldl (summarizeStep1 cfg cache0) acc).2
      = acc.2 ++ (items.filter (fun it => ! summarizeHit cfg cache0 it)).map
          (fun it => (it, cacheKey it)) := by
  induction items with
  | nil => intro acc; simp
  | cons item rest ih =>
      intro acc
      simp only [List.foldl_cons, List.filter_cons]
      by_cases hh : summarizeHit cfg cache0 item
      · have : summarizeStep1 cfg cache0 acc item
            = (dictSet acc.1 item.id ((cache0.lookup (cacheKey item)).getD ""), acc.2) := by
          simp [summarizeStep1, hh]
        rw [this, ih]
        simp [hh]
      · have : summarizeStep1 cfg cache0 acc item
            = (acc.1, acc.2 ++ [(item, cacheKey item)]) := by
          simp [summarizeStep1, hh]
        rw [this, ih]
        simp [hh]

theorem foldl_step1_fst_notmem (cfg : SummarizerCfg) (cache0 : List (String × String))
    (items : List ItemRecord) :
    ∀ acc (k : String), k ∉ items.map ItemRecord.id →
      ((items.foldl (summarizeStep1 cfg cache0) acc).1).lookup k = acc.1.lookup k := by
  induction items with
  | nil => intro acc k _; simp
  | cons item rest ih =>
      intro acc k hk
      simp only [List.map_cons, List.mem_cons] at hk
      push_neg at hk
      simp only [List.foldl_cons]
      rw [ih _ k hk.2]
      by_cases hh : summarizeHit cfg cache0 item
      · simp only [summarizeStep1, hh, reduceIte]
        exact dictSet_lookup_ne _ _ _ _ hk.1
      · simp [summarizeStep1, hh]

theorem foldl_step2_notmem (cfg : SummarizerCfg)
    (provider : ItemRecord → Except String String) (todo : List (ItemRecord × String)) :
    ∀ acc (k : String), k ∉ todo.map (fun p => p.1.id) →
      ((todo.foldl (summarizeStep2 cfg provider) acc).1).lookup k = acc.1.lookup k := by
  induction todo with
  | nil => intro acc k _; simp
  | cons p rest ih =>
      intro acc k hk
      simp only [List.map_cons, List.mem_cons] at hk
      push_neg at hk
      simp only [List.foldl_cons]
      rw [ih _ k hk.2]
      simp only [summarizeStep2]
      exact dictSet_lookup_ne _ _ _ _ hk.1

theorem mem_filter_map_id {l : List ItemRecord} {p : ItemRecord → Bool} {x : String}
    (h : x ∈ (l.filter p).map ItemRecord.id) : x ∈ l.map ItemRecord.id := by
  rcases List.mem_map.mp h with ⟨it, hit, rfl⟩
  exact List.mem_map.mpr ⟨it, (List.mem_filter.mp hit).1, rfl⟩

theorem todo_ids (l : List ItemRecord) (q : ItemRecord → Bool) :
    ((l.filter q).map (fun it => (it, cacheKey it))).map (fun p => p.1.id)
      = (l.filter q).map ItemRecord.id := by
  rw [List.map_map]
  rfl

/- ----------------------------------------------------------------------
   Claim theorems: C9
   ---------------------------------------------------------------------- -/

set_option maxRecDepth 10000 in
/-- C9 counterexample: two items share the id "x"; the provider fails on the
first (title "T0") and succeeds on the second with text "S".  The returned
mapping's entry for "x" is "S", not the first item's fallback "T0" — so, as
universally stated over all passed items, the per-item fallback claim fails
when ids collide (the later outcome overwrites the shared entry). -/
theorem claim_C9_counterexample :
    (summarize ⟨false⟩ cexProvider []
        [{ mkItem "x" "s" "news" with title := "T0" },
         { mkItem "x" "s" "news" with title := "T1" }]).1.lookup "x" = some "S"
    ∧ cexProvider { mkItem "x" "s" "news" with title := "T0" } = .error "boom"
    ∧ fallbackSummary { mkItem "x" "s" "news" with title := "T0" } = "T0"
    ∧ ("S" : String) ≠ "T0" := by
  refine ⟨by rfl, by rfl, by rfl, by decide⟩

/-- C9 (amended): provided the passed items have pairwise distinct ids, the
returned mapping has an entry for every item, equal to: the cached text on a
cache hit, else the provider's text, else — when producing that item's
summary fails — the deterministic fallback, the first 200 characters of the
title; each entry depends only on that item, the initial cache and its own
outcome, so failures for one item do not remove or alter the others. -/
theorem claim_C9_amended (cfg : SummarizerCfg)
    (provider : ItemRecord → Except String String)
    (cache0 : List (String × String)) (items : List ItemRecord)
    (hnd : (items.map ItemRecord.id).Nodup) :
    ∀ item ∈ items,
      (summarize cfg provider cache0 items).1.lookup item.id
        = some (expectedSummary cfg provider cache0 item) := by
  intro item hmem
  obtain ⟨l₁, l₂, rfl⟩ := List.append_of_mem hmem
  have hid12 : item.id ∉ l₁.map ItemRecord.id ∧ item.id ∉ l₂.map ItemRecord.id := by
    rw [List.map_append, List.map_cons, List.nodup_append] at hnd
    obtain ⟨h1, h2, h3⟩ := hnd
    refine ⟨?_, (List.nodup_cons.mp h2).1⟩
    intro hx
    exact (h3 hx) (List.mem_cons_self _ _)
  obtain ⟨hid1, hid2⟩ := hid12
  unfold summarize
  rw [List.foldl_append, List.foldl_cons]
  dsimp only
  have hA2 : (l₁.foldl (summarizeStep1 cfg cache0) ([], [])).2
      = (l₁.filter (fun it => ! summarizeHit cfg cache0 it)).map
          (fun it => (it, cacheKey it)) := by
    rw [foldl_step1_snd]
    simp
  have hA2ids : item.id
      ∉ ((l₁.foldl (summarizeStep1 cfg cache0) ([], [])).2).map (fun p => p.1.id) := by
    rw [hA2, todo_ids]
    intro hx
    exact hid1 (mem_filter_map_id hx)
  by_cases hh : summarizeHit cfg cache0 item
  · have hstep : summarizeStep1 cfg cache0
        (l₁.foldl (summarizeStep1 cfg cache0) ([], [])) item
        = (dictSet (l₁.foldl (summarizeStep1 cfg cache0) ([], [])).1 item.id
            ((cache0.lookup (cacheKey item)).getD ""),
           (l₁.foldl (summarizeStep1 cfg cache0) ([], [])).2) := by
      simp [summarizeStep1, hh]
    rw [hstep]
    have hfp2 := foldl_step1_snd cfg cache0 l₂
      (dictSet (l₁.foldl (summarizeStep1 cfg cache0) ([], [])).1 item.id
          ((cache0.lookup (cacheKey item)).getD ""),
       (l₁.foldl (summarizeStep1 cfg cache0) ([], [])).2)
    rw [foldl_step2_notmem]
    · rw [foldl_step1_fst_notmem _ _ _ _ _ hid2]
      rw [dictSet_lookup_self]
      have hexp : expectedSummary cfg provider cache0 item
          = (cache0.lookup (cacheKey item)).getD "" := by
        unfold expectedSummary
        unfold summarizeHit at hh
        rw [if_pos hh]
      rw [hexp]
    · rw [hfp2]
      simp only [List.map_append, List.mem_append]
      push_neg
      refine ⟨hA2ids, ?_⟩
      rw [todo_ids]
      intro hx
      exact hid2 (mem_filter_map_id hx)
  · have hstep : summarizeStep1 cfg cache0
        (l₁.foldl (summarizeStep1 cfg cache0) ([], [])) item
        = ((l₁.foldl (summarizeStep1 cfg cache0) ([], [])).1,
           (l₁.foldl (summarizeStep1 cfg cache0) ([], [])).2
             ++ [(item, cacheKey item)]) := by
      simp [summarizeStep1, hh]
    rw [hstep]
    have hfp2 := foldl_step1_snd cfg cache0 l₂
      ((l₁.foldl (summarizeStep1 cfg cache0) ([], [])).1,
       (l₁.foldl (summarizeStep1 cfg cache0) ([], [])).2 ++ [(item, cacheKey item)])
    rw [hfp2]
    have hassoc :
        ((l₁.foldl (summarizeStep1 cfg cache0) ([], [])).2 ++ [(item, cacheKey item)])
            ++ (l₂.filter (fun it => ! summarizeHit cfg cache0 it)).map
                (fun it => (it, cacheKey it))
          = (l₁.foldl (summarizeStep1 cfg cache0) ([], [])).2
            ++ ((item, cacheKey item)
              :: (l₂.filter (fun it => ! summarizeHit cfg cache0 it)).map
                  (fun it => (it, cacheKey it))) := by
      rw [List.append_assoc, List.singleton_append]
    rw [hassoc, List.foldl_append, List.foldl_cons]
    rw [foldl_step2_notmem]
    · have hstep2 : ∀ (B : List (String × String) × List (String × String)),
          (summarizeStep2 cfg provider B (item, cacheKey item)).1
            = dictSet B.1 item.id
                (match provider item with
                 | .ok s => s
                 | .error _ => fallbackSummary item) := fun B => rfl
      rw [hstep2]
      rw [dictSet_lookup_self]
      have hexp : expectedSummary cfg provider cache0 item
          = match provider item with
            | .ok s => s
            | .error _ => fallbackSummary item := by
        unfold expectedSummary
        unfold summarizeHit at hh
        rw [if_neg (by simpa using hh)]
      rw [hexp]
    · rw [todo_ids]
      intro hx
      exact hid2 (mem_filter_map_id hx)

/-- C9 witness: for two distinct-id items where the provider fails on the
first, the amended theorem applies; its hypotheses hold at this input. -/
theorem claim_C9_witness :
    ((([{ mkItem "a" "s" "news" with title := "T0" },
        { mkItem "b" "s" "news" with title := "T1" }].map ItemRecord.id)).Nodup
      ∧ ({ mkItem "a" "s" "news" with title := "T0" } : ItemRecord)
          ∈ [{ mkItem "a" "s" "news" with title := "T0" },
             { mkItem "b" "s" "news" with title := "T1" }])
    ∧ (summarize ⟨false⟩ cexProvider []
          [{ mkItem "a" "s" "news" with title := "T0" },
           { mkItem "b" "s" "news" with title := "T1" }]).1.lookup
            ({ mkItem "a" "s" "news" with title := "T0" } : ItemRecord).id
        = some (expectedSummary ⟨false⟩ cexProvider []
            { mkItem "a" "s" "news" with title := "T0" }) :=
  ⟨⟨by decide, by decide⟩,
   claim_C9_amended ⟨false⟩ cexProvider []
     [{ mkItem "a" "s" "news" with title := "T0" },
      { mkItem "b" "s" "news" with title := "T1" }] (by decide)
     { mkItem "a" "s" "news" with title := "T0" } (by decide)⟩

/- ----------------------------------------------------------------------
   Character lemmas for the URL model
   ---------------------------------------------------------------------- -/

theorem char_toNat_ofNat (n : Nat) (h : n.isValidChar) : (Char.ofNat n).toNat = n := by
  unfold Char.ofNat
  rw [dif_pos h]
  have hn : n < 4294967296 := by
    rcases h with h1 | ⟨h2, h3⟩ <;> omega
  show (UInt32.ofNatCore n _).toNat = n
  simp [UInt32.ofNatCore, UInt32.toNat]

theorem char_toNat_inj {a b : Char} (h : a.toNat = b.toNat) : a = b := by
  rw [← Char.ofNat_toNat a, ← Char.ofNat_toNat b, h]

theorem char_le_toNat (a b : Char) : (a ≤ b) ↔ a.toNat ≤ b.toNat := by
  rw [Char.le_def, UInt32.le_def, BitVec.le_def]
  exact Iff.rfl

theorem pyLowerChar_toNat (c : Char) :
    (pyLowerChar c).toNat
      = if 65 ≤ c.toNat ∧ c.toNat ≤ 90 then c.toNat + 32 else c.toNat := by
  unfold pyLowerChar
  have hiff : ('A' ≤ c ∧ c ≤ 'Z') ↔ (65 ≤ c.toNat ∧ c.toNat ≤ 90) := by
    rw [char_le_toNat, char_le_toNat]
    exact Iff.rfl
  by_cases h : 65 ≤ c.toNat ∧ c.toNat ≤ 90
  · rw [if_pos (hiff.mpr h), if_pos h]
    exact char_toNat_ofNat _ (Or.inl (by omega))
  · rw [if_neg (fun hc => h (hiff.mp hc)), if_neg h]

theorem pyLowerChar_idem (c : Char) : pyLowerChar (pyLowerChar c) = pyLowerChar c := by
  apply char_toNat_inj
  rw [pyLowerChar_toNat, pyLowerChar_toNat]
  split_ifs <;> omega

theorem pyLower_idem (s : List Char) : pyLower (pyLower s) = pyLower s := by
  unfold pyLower
  rw [List.map_map]
  exact List.map_congr_left (fun c _ => pyLowerChar_idem c)

theorem pyIsSpace_lower (c : Char) : pyIsSpace (pyLowerChar c) = pyIsSpace c := by
  unfold pyIsSpace
  rw [pyLowerChar_toNat]
  by_cases h : 65 ≤ c.toNat ∧ c.toNat ≤ 90
  · rw [if_pos h]
    have h1 : ¬ (c.toNat + 32) ∈ [9, 10, 11, 12, 13, 28, 29, 30, 31, 32, 133, 160, 5760,
        8192, 8193, 8194, 8195, 8196, 8197, 8198, 8199, 8200, 8201, 8202,
        8232, 8233, 8239, 8287, 12288] := by
      intro hm
      simp only [List.mem_cons, List.not_mem_nil, or_false] at hm
      omega
    have h2 : ¬ c.toNat ∈ [9, 10, 11, 12, 13, 28, 29, 30, 31, 32, 133, 160, 5760,
        8192, 8193, 8194, 8195, 8196, 8197, 8198, 8199, 8200, 8201, 8202,
        8232, 8233, 8239, 8287, 12288] := by
      intro hm
      simp only [List.mem_cons, List.not_mem_nil, or_false] at hm
      omega
    rw [decide_eq_false h1, decide_eq_false h2]
  · rw [if_neg h]

/-- A character whose codepoint is neither an uppercase nor a lowercase ASCII
letter is hit by `pyLowerChar c = c₀` only at `c = c₀`. -/
theorem pyLowerChar_eq_special {c c₀ : Char}
    (h1 : ¬ (65 ≤ c₀.toNat ∧ c₀.toNat ≤ 90)) (h2 : ¬ (97 ≤ c₀.toNat ∧ c₀.toNat ≤ 122)) :
    pyLowerChar c = c₀ ↔ c = c₀ := by
  constructor
  · intro h
    have ht := congrArg Char.toNat h
    rw [pyLowerChar_toNat] at ht
    by_cases hc : 65 ≤ c.toNat ∧ c.toNat ≤ 90
    · rw [if_pos hc] at ht
      exact absurd ⟨by omega, by omega⟩ h2
    · rw [if_neg hc] at ht
      exact char_toNat_inj ht
  · intro h
    subst h
    apply char_toNat_inj
    rw [pyLowerChar_toNat, if_neg h1]


theorem char_beq_toNat (c d : Char) : (c == d) = decide (c.toNat = d.toNat) := by
  by_cases h : c = d
  · subst h
    simp
  · have hne : ¬ c.toNat = d.toNat := fun hh => h (char_toNat_inj hh)
    rw [beq_eq_false_iff_ne.mpr h, decide_eq_false hne]

/-- For a target character that is not an ASCII letter of either case,
`pyLowerChar` neither creates nor destroys occurrences. -/
theorem pyLowerChar_beq_special (c c₀ : Char)
    (h1 : ¬ (65 ≤ c₀.toNat ∧ c₀.toNat ≤ 90)) (h2 : ¬ (97 ≤ c₀.toNat ∧ c₀.toNat ≤ 122)) :
    (pyLowerChar c == c₀) = (c == c₀) := by
  rw [char_beq_toNat, char_beq_toNat, pyLowerChar_toNat]
  rw [Bool.eq_iff_iff]
  simp only [decide_eq_true_eq]
  split_ifs <;> omega

theorem pyLowerChar_isAlpha (c : Char) : (pyLowerChar c).isAlpha = c.isAlpha := by
  have h1 : ∀ d : Char, d.isAlpha
      = ((decide (65 ≤ d.toNat) && decide (d.toNat ≤ 90))
         || (decide (97 ≤ d.toNat) && decide (d.toNat ≤ 122))) := fun d => rfl
  rw [h1, h1, Bool.eq_iff_iff]
  simp only [Bool.or_eq_true, Bool.and_eq_true, decide_eq_true_eq]
  rw [pyLowerChar_toNat]
  split_ifs <;> omega

theorem pyLowerChar_isAlphanum (c : Char) : (pyLowerChar c).isAlphanum = c.isAlphanum := by
  have h1 : ∀ d : Char, d.isAlphanum
      = (((decide (65 ≤ d.toNat) && decide (d.toNat ≤ 90))
         || (decide (97 ≤ d.toNat) && decide (d.toNat ≤ 122)))
         || (decide (48 ≤ d.toNat) && decide (d.toNat ≤ 57))) := fun d => rfl
  rw [h1, h1, Bool.eq_iff_iff]
  simp only [Bool.or_eq_true, Bool.and_eq_true, decide_eq_true_eq]
  rw [pyLowerChar_toNat]
  split_ifs <;> omega

theorem pyLowerChar_isSchemeChar (c : Char) :
    isSchemeChar (pyLowerChar c) = isSchemeChar c := by
  unfold isSchemeChar
  rw [pyLowerChar_isAlphanum]
  congr 1
  · congr 1
    · congr 1
      exact pyLowerChar_beq_special c '+' (by decide) (by decide)
    · exact pyLowerChar_beq_special c '-' (by decide) (by decide)
  · exact pyLowerChar_beq_special c '.' (by decide) (by decide)

theorem pyLowerChar_isC0OrSpace (c : Char) :
    isC0OrSpace (pyLowerChar c) = isC0OrSpace c := by
  unfold isC0OrSpace
  rw [Bool.eq_iff_iff]
  simp only [decide_eq_true_eq]
  rw [pyLowerChar_toNat]
  split_ifs <;> omega

/- ----------------------------------------------------------------------
   strip / lower algebra
   ---------------------------------------------------------------------- -/

theorem dropWhile_dropWhile_self {α : Type} (p : α → Bool) (l : List α) :
    (l.dropWhile p).dropWhile p = l.dropWhile p := by
  induction l with
  | nil => simp
  | cons a t ih =>
      rw [List.dropWhile_cons]
      by_cases h : p a
      · simpa [h] using ih
      · simp [List.dropWhile_cons, h]

theorem dropWhile_eq_self_of_pre {α : Type} (p : α → Bool) {l m : List α}
    (hpre : l <+: m) (hm : m.dropWhile p = m) : l.dropWhile p = l := by
  cases l with
  | nil => simp
  | cons a t =>
      obtain ⟨r, hr⟩ := hpre
      have : m.dropWhile p = m := hm
      rw [← hr] at this
      rw [List.cons_append, List.dropWhile_cons] at this
      by_cases h : p a
      · exfalso
        rw [if_pos h] at this
        have hlen := congrArg List.length this
        have h2 := (List.dropWhile_suffix (l := t ++ r) p).sublist.length_le
        simp only [List.length_cons, List.length_append] at hlen h2
        omega
      · rw [List.dropWhile_cons, if_neg h]

theorem rstripIsPre {α : Type} (p : α → Bool) (l : List α) :
    (l.reverse.dropWhile p).reverse <+: l := by
  apply List.reverse_suffix.mp
  rw [List.reverse_reverse]
  exact List.dropWhile_suffix p

theorem dropWhile_congr_of_eq {α : Type} {p q : α → Bool} (l : List α)
    (h : ∀ c ∈ l, p c = q c) : l.dropWhile p = l.dropWhile q := by
  induction l with
  | nil => rfl
  | cons a t ih =>
      rw [List.dropWhile_cons, List.dropWhile_cons, h a (List.mem_cons_self a t)]
      by_cases hq : q a
      · rw [if_pos hq, if_pos hq]
        exact ih (fun c hc => h c (List.mem_cons_of_mem a hc))
      · rw [if_neg hq, if_neg hq]

theorem pyStrip_idem (s : List Char) : pyStrip (pyStrip s) = pyStrip s := by
  unfold pyStrip
  set A := s.dropWhile pyIsSpace with hA
  have h1 : ((A.reverse.dropWhile pyIsSpace).reverse).dropWhile pyIsSpace
      = (A.reverse.dropWhile pyIsSpace).reverse := by
    apply dropWhile_eq_self_of_pre pyIsSpace (rstripIsPre pyIsSpace A)
    rw [hA]
    exact dropWhile_dropWhile_self pyIsSpace s
  rw [h1]
  rw [List.reverse_reverse]
  rw [dropWhile_dropWhile_self]

theorem pyLower_dropWhile (p : Char → Bool) (s : List Char)
    (hp : ∀ c, p (pyLowerChar c) = p c) :
    (pyLower s).dropWhile p = pyLower (s.dropWhile p) := by
  unfold pyLower
  rw [List.dropWhile_map]
  congr 1
  exact dropWhile_congr_of_eq s (fun c _ => hp c)

theorem pyStrip_lower (s : List Char) : pyStrip (pyLower s) = pyLower (pyStrip s) := by
  unfold pyStrip
  rw [pyLower_dropWhile pyIsSpace s pyIsSpace_lower]
  have h2 : (pyLower (s.dropWhile pyIsSpace)).reverse
      = pyLower ((s.dropWhile pyIsSpace).reverse) := by
    unfold pyLower
    rw [List.map_reverse]
  rw [h2, pyLower_dropWhile pyIsSpace _ pyIsSpace_lower]
  unfold pyLower
  rw [List.map_reverse]


/- ----------------------------------------------------------------------
   urlsplit / pyLower commutation (for the fallback branch)
   ---------------------------------------------------------------------- -/

theorem filter_congr_of_eq {α : Type} {p q : α → Bool} (l : List α)
    (h : ∀ c ∈ l, p c = q c) : l.filter p = l.filter q := by
  induction l with
  | nil => rfl
  | cons a t ih =>
      rw [List.filter_cons, List.filter_cons, h a (List.mem_cons_self a t)]
      by_cases hq : q a
      · rw [if_pos hq, if_pos hq, ih (fun c hc => h c (List.mem_cons_of_mem a hc))]
      · rw [if_neg hq, if_neg hq]
        exact ih (fun c hc => h c (List.mem_cons_of_mem a hc))

theorem takeWhile_congr_of_eq {α : Type} {p q : α → Bool} (l : List α)
    (h : ∀ c ∈ l, p c = q c) : l.takeWhile p = l.takeWhile q := by
  induction l with
  | nil => rfl
  | cons a t ih =>
      rw [List.takeWhile_cons, List.takeWhile_cons, h a (List.mem_cons_self a t)]
      by_cases hq : q a
      · rw [if_pos hq, if_pos hq, ih (fun c hc => h c (List.mem_cons_of_mem a hc))]
      · rw [if_neg hq, if_neg hq]

theorem findIdxQ_congr_of_eq {α : Type} {p q : α → Bool} (l : List α)
    (h : ∀ c ∈ l, p c = q c) : ∀ i, List.findIdx? p l i = List.findIdx? q l i := by
  induction l with
  | nil => intro i; rfl
  | cons a t ih =>
      intro i
      rw [List.findIdx?_cons, List.findIdx?_cons, h a (List.mem_cons_self a t)]
      by_cases hq : q a
      · rw [if_pos hq, if_pos hq]
      · rw [if_neg hq, if_neg hq]
        exact ih (fun c hc => h c (List.mem_cons_of_mem a hc)) (i + 1)

theorem removeUnsafe_lower (s : List Char) :
    removeUnsafeBytes (pyLower s) = pyLower (removeUnsafeBytes s) := by
  unfold removeUnsafeBytes pyLower
  rw [List.filter_map]
  congr 1
  apply filter_congr_of_eq
  intro c _
  show (!(pyLowerChar c == '\t' || pyLowerChar c == '\r' || pyLowerChar c == '\n'))
      = (!(c == '\t' || c == '\r' || c == '\n'))
  rw [pyLowerChar_beq_special c '\t' (by decide) (by decide),
    pyLowerChar_beq_special c '\r' (by decide) (by decide),
    pyLowerChar_beq_special c '\n' (by decide) (by decide)]

theorem pyLower_headD_space (t : List Char) :
    (pyLower t).headD ' ' = pyLowerChar (t.headD ' ') := by
  cases t with
  | nil => rfl
  | cons a l => rfl

theorem pyLower_contains_special (l : List Char) (c₀ : Char)
    (h1 : ¬ (65 ≤ c₀.toNat ∧ c₀.toNat ≤ 90)) (h2 : ¬ (97 ≤ c₀.toNat ∧ c₀.toNat ≤ 122)) :
    (pyLower l).contains c₀ = l.contains c₀ := by
  induction l with
  | nil => rfl
  | cons a t ih =>
      show (pyLowerChar a :: pyLower t).contains c₀ = (a :: t).contains c₀
      rw [List.contains_cons, List.contains_cons, ih]
      congr 1
      rw [char_beq_toNat, char_beq_toNat, pyLowerChar_toNat]
      rw [Bool.eq_iff_iff]
      simp only [decide_eq_true_eq]
      split_ifs <;> omega

theorem all_congr_of_eq {α : Type} {p q : α → Bool} (l : List α)
    (h : ∀ c ∈ l, p c = q c) : l.all p = l.all q := by
  induction l with
  | nil => rfl
  | cons a t ih =>
      rw [List.all_cons, List.all_cons, h a (List.mem_cons_self a t)]
      rw [ih (fun c hc => h c (List.mem_cons_of_mem a hc))]

theorem splitScheme_lower (t : List Char) :
    splitScheme (pyLower t) = ((splitScheme t).1, pyLower (splitScheme t).2) := by
  unfold splitScheme
  have hf : List.findIdx? (fun c => c == ':') (pyLower t)
      = List.findIdx? (fun c => c == ':') t := by
    unfold pyLower
    rw [List.findIdx?_map pyLowerChar t]
    apply findIdxQ_congr_of_eq
    intro c _
    exact pyLowerChar_beq_special c ':' (by decide) (by decide)
  rw [hf]
  cases hi : List.findIdx? (fun c => c == ':') t with
  | none => rfl
  | some i =>
      have hhead : ((pyLower t).headD ' ').isAlpha = (t.headD ' ').isAlpha := by
        rw [pyLower_headD_space, pyLowerChar_isAlpha]
      have hall : ((pyLower t).take i).all isSchemeChar = (t.take i).all isSchemeChar := by
        unfold pyLower
        rw [← List.map_take, List.all_map]
        exact all_congr_of_eq (t.take i) (fun c _ => pyLowerChar_isSchemeChar c)
      simp only [hhead, hall]
      by_cases hc : 0 < i ∧ (t.headD ' ').isAlpha ∧ (t.take i).all isSchemeChar
      · rw [if_pos hc, if_pos hc]
        show (pyLower ((pyLower t).take i), (pyLower t).drop (i + 1)) = _
        show _ = (pyLower (t.take i), pyLower (t.drop (i + 1)))
        unfold pyLower
        rw [← List.map_take, ← List.map_drop, List.map_map]
        have hcomp : pyLowerChar ∘ pyLowerChar = pyLowerChar := by
          funext c
          exact pyLowerChar_idem c
        rw [hcomp]
      · rw [if_neg hc, if_neg hc]

theorem urlsplitE_lower_none (t : List Char) (h : urlsplitE t = none) :
    urlsplitE (pyLower t) = none := by
  simp only [urlsplitE] at h ⊢
  rw [pyLower_dropWhile isC0OrSpace t pyLowerChar_isC0OrSpace,
    removeUnsafe_lower, splitScheme_lower]
  set u0 := removeUnsafeBytes (t.dropWhile isC0OrSpace) with hu0
  set rest := (splitScheme u0).2 with hrest
  have htake : (pyLower rest).take 2 = pyLower (rest.take 2) := by
    unfold pyLower
    rw [← List.map_take]
  by_cases h2 : rest.take 2 = ['/', '/']
  · rw [if_pos h2] at h
    rw [if_pos (by rw [htake, h2]; rfl)]
    set pred := fun c => !(c == '/' || c == '?' || c == '#') with hpred
    have hpredlow : ∀ c, pred (pyLowerChar c) = pred c := by
      intro c
      rw [hpred]
      show (!(pyLowerChar c == '/' || pyLowerChar c == '?' || pyLowerChar c == '#'))
          = (!(c == '/' || c == '?' || c == '#'))
      rw [pyLowerChar_beq_special c '/' (by decide) (by decide),
        pyLowerChar_beq_special c '?' (by decide) (by decide),
        pyLowerChar_beq_special c '#' (by decide) (by decide)]
    have hdrop2 : (pyLower rest).drop 2 = pyLower (rest.drop 2) := by
      unfold pyLower
      rw [← List.map_drop]
    have hnl : ((pyLower rest).drop 2).takeWhile pred
        = pyLower ((rest.drop 2).takeWhile pred) := by
      rw [hdrop2]
      unfold pyLower
      rw [List.takeWhile_map pyLowerChar pred (rest.drop 2)]
      congr 1
      apply takeWhile_congr_of_eq
      intro c _
      exact hpredlow c
    rw [hnl]
    set nl := (rest.drop 2).takeWhile pred with hnldef
    have hob : (pyLower nl).contains '[' = nl.contains '[' :=
      pyLower_contains_special nl '[' (by decide) (by decide)
    have hcb : (pyLower nl).contains ']' = nl.contains ']' :=
      pyLower_contains_special nl ']' (by decide) (by decide)
    rw [hob, hcb]
    by_cases hbr : ((nl.contains '[' && !nl.contains ']')
        || (nl.contains ']' && !nl.contains '[')) = true
    · rw [if_pos hbr]
    · rw [if_neg hbr] at h
      exact absurd h (by simp)
  · rw [if_neg h2] at h
    exact absurd h (by simp)

theorem urlparseE_lower_none (t : List Char) (h : urlparseE t = none) :
    urlparseE (pyLower t) = none := by
  unfold urlparseE at h ⊢
  cases hs : urlsplitE t with
  | none => rw [urlsplitE_lower_none t hs]
  | some sp =>
      rw [hs] at h
      simp only at h
      by_cases hc : usesParams.contains sp.scheme ∧ sp.path.contains ';'
      · rw [if_pos hc] at h
        exact absurd h (by simp)
      · rw [if_neg hc] at h
        exact absurd h (by simp)

theorem canonAssemble_none_iff (u : String) :
    canonAssemble u = none ↔ urlparseE (pyStrip u.data) = none := by
  unfold canonAssemble
  cases h : urlparseE (pyStrip u.data) with
  | none => simp
  | some p => simp

theorem canonical_url_fallback (u : String) (h : canonAssemble u = none) :
    canonical_url (canonical_url u) = canonical_url u := by
  have h1 : urlparseE (pyStrip u.data) = none := (canonAssemble_none_iff u).mp h
  have hcu : canonical_url u = ⟨pyLower (pyStrip u.data)⟩ := by
    unfold canonical_url
    rw [h]
  rw [hcu]
  set w : List Char := pyLower (pyStrip u.data) with hw
  have hwdata : (String.mk w).data = w := rfl
  have hsw : pyStrip w = w := by
    rw [hw, pyStrip_lower, pyStrip_idem]
  have h2 : urlparseE (pyStrip w) = none := by
    rw [hsw, hw]
    exact urlparseE_lower_none _ h1
  have h3 : canonAssemble ⟨w⟩ = none := by
    rw [canonAssemble_none_iff]
    exact h2
  unfold canonical_url
  rw [h3]
  show String.mk (pyLower (pyStrip w)) = String.mk w
  rw [hsw, hw, pyLower_idem]

/- ----------------------------------------------------------------------
   splitting lemmas over concatenation
   ---------------------------------------------------------------------- -/

theorem takeWhile_append_of_all {α : Type} {p : α → Bool} {a : List α} (b : List α)
    (ha : ∀ c ∈ a, p c = true) : (a ++ b).takeWhile p = a ++ b.takeWhile p := by
  induction a with
  | nil => rfl
  | cons x t ih =>
      rw [List.cons_append, List.takeWhile_cons,
        if_pos (ha x (List.mem_cons_self x t)), List.cons_append]
      rw [ih (fun c hc => ha c (List.mem_cons_of_mem x hc))]

theorem dropWhile_append_of_all {α : Type} {p : α → Bool} {a : List α} (b : List α)
    (ha : ∀ c ∈ a, p c = true) : (a ++ b).dropWhile p = b.dropWhile p := by
  induction a with
  | nil => rfl
  | cons x t ih =>
      rw [List.cons_append, List.dropWhile_cons, if_pos (ha x (List.mem_cons_self x t))]
      exact ih (fun c hc => ha c (List.mem_cons_of_mem x hc))

theorem takeWhile_eq_self_of_all {α : Type} {p : α → Bool} {a : List α}
    (ha : ∀ c ∈ a, p c = true) : a.takeWhile p = a := by
  induction a with
  | nil => rfl
  | cons x t ih =>
      rw [List.takeWhile_cons, if_pos (ha x (List.mem_cons_self x t))]
      rw [ih (fun c hc => ha c (List.mem_cons_of_mem x hc))]

theorem dropWhile_eq_nil_of_all {α : Type} {p : α → Bool} {a : List α}
    (ha : ∀ c ∈ a, p c = true) : a.dropWhile p = [] := by
  induction a with
  | nil => rfl
  | cons x t ih =>
      rw [List.dropWhile_cons, if_pos (ha x (List.mem_cons_self x t))]
      exact ih (fun c hc => ha c (List.mem_cons_of_mem x hc))

/-- `splitOnFirst` on a string free of the marker. -/
theorem splitOnFirst_of_not_mem {a : List Char} {m : Char}
    (ha : ∀ c ∈ a, (c == m) = false) : splitOnFirst a m = (a, []) := by
  unfold splitOnFirst
  rw [takeWhile_eq_self_of_all (fun c hc => by rw [ha c hc]; rfl),
    dropWhile_eq_nil_of_all (fun c hc => by rw [ha c hc]; rfl)]
  rfl

/-- `splitOnFirst` at the first marker occurrence. -/
theorem splitOnFirst_append {a : List Char} {m : Char} (b : List Char)
    (ha : ∀ c ∈ a, (c == m) = false) : splitOnFirst (a ++ m :: b) m = (a, b) := by
  unfold splitOnFirst
  rw [takeWhile_append_of_all (m :: b) (fun c hc => by rw [ha c hc]; rfl),
    dropWhile_append_of_all (m :: b) (fun c hc => by rw [ha c hc]; rfl)]
  rw [List.takeWhile_cons, List.dropWhile_cons]
  simp

theorem findIdxQ_append_none {a : List Char} {m : Char} (b : List Char)
    (ha : ∀ c ∈ a, (c == m) = false) (i : Nat) :
    List.findIdx? (fun c => c == m) (a ++ m :: b) i = some (i + a.length) := by
  induction a generalizing i with
  | nil =>
      rw [List.nil_append, List.findIdx?_cons]
      simp
  | cons x t ih =>
      rw [List.cons_append, List.findIdx?_cons, ha x (List.mem_cons_self x t)]
      rw [if_neg (by simp)]
      rw [ih (fun c hc => ha c (List.mem_cons_of_mem x hc)) (i + 1)]
      congr 1
      simp only [List.length_cons]
      omega

theorem findIdxQ_none_of_all {a : List Char} {m : Char}
    (ha : ∀ c ∈ a, (c == m) = false) (i : Nat) :
    List.findIdx? (fun c => c == m) a i = none := by
  induction a generalizing i with
  | nil => rfl
  | cons x t ih =>
      rw [List.findIdx?_cons, ha x (List.mem_cons_self x t)]
      rw [if_neg (by simp)]
      exact ih (fun c hc => ha c (List.mem_cons_of_mem x hc)) (i + 1)

/- ----------------------------------------------------------------------
   rstrip algebra and membership helpers
   ---------------------------------------------------------------------- -/

theorem char_beq_comm (a b : Char) : (a == b) = (b == a) := by
  rw [char_beq_toNat, char_beq_toNat]
  exact decide_eq_decide.mpr ⟨fun h => h.symm, fun h => h.symm⟩

theorem contains_append (a b : List Char) (x : Char) :
    (a ++ b).contains x = (a.contains x || b.contains x) := by
  induction a with
  | nil => simp
  | cons y t ih =>
      rw [List.cons_append, List.contains_cons, List.contains_cons, ih, Bool.or_assoc]

theorem contains_eq_false_of_all (l : List Char) (x : Char)
    (h : ∀ c ∈ l, (c == x) = false) : l.contains x = false := by
  induction l with
  | nil => rfl
  | cons y t ih =>
      rw [List.contains_cons]
      have h1 := h y (List.mem_cons_self y t)
      rw [char_beq_comm] at h1
      rw [h1, Bool.false_or]
      exact ih (fun c hc => h c (List.mem_cons_of_mem y hc))

/-- Decompose a list into its `rstrip` and the stripped tail. -/
theorem rstrip_decomp (m : Char) (l : List Char) :
    l = rstripChars m l ++ (l.reverse.takeWhile (fun c => c == m)).reverse := by
  unfold rstripChars
  rw [← List.reverse_append, List.takeWhile_append_dropWhile, List.reverse_reverse]

theorem mem_rstrip {m : Char} {l : List Char} {a : Char} (h : a ∈ rstripChars m l) :
    a ∈ l := by
  unfold rstripChars at h
  have h1 := List.mem_reverse.mp h
  exact List.mem_reverse.mp ((List.dropWhile_sublist _).subset h1)

theorem rstrip_idem (m : Char) (l : List Char) :
    rstripChars m (rstripChars m l) = rstripChars m l := by
  unfold rstripChars
  rw [List.reverse_reverse, dropWhile_dropWhile_self]

theorem contains_rstrip {m c : Char} (hne : (m == c) = false) (l : List Char) :
    (rstripChars m l).contains c = l.contains c := by
  conv_rhs => rw [rstrip_decomp m l]
  rw [contains_append]
  have htail : ((l.reverse.takeWhile (fun d => d == m)).reverse).contains c = false := by
    apply contains_eq_false_of_all
    intro d hd
    have hd1 := List.mem_takeWhile_imp (List.mem_reverse.mp hd)
    have : d = m := by
      have := of_decide_eq_true (by rw [char_beq_toNat] at hd1; exact hd1)
      exact char_toNat_inj this
    subst this
    exact hne
  rw [htail, Bool.or_false]

theorem pyLower_rstrip (m : Char)
    (hm : ∀ c, (pyLowerChar c == m) = (c == m)) (l : List Char) :
    pyLower (rstripChars m l) = rstripChars m (pyLower l) := by
  unfold rstripChars
  have h1 : (pyLower l).reverse = pyLower l.reverse := by
    unfold pyLower
    rw [List.map_reverse]
  rw [h1, pyLower_dropWhile (fun c => c == m) l.reverse hm]
  unfold pyLower
  rw [List.map_reverse]

theorem dropWhile_head_false {α : Type} {p : α → Bool} {x : α} {t : List α}
    (h : (x :: t).dropWhile p = x :: t) : p x = false := by
  by_cases hp : p x
  · exfalso
    rw [List.dropWhile_cons, if_pos hp] at h
    have hlen := congrArg List.length h
    have h2 := (List.dropWhile_sublist (l := t) p).length_le
    simp only [List.length_cons] at hlen
    omega
  · exact Bool.eq_false_iff.mpr hp

/-- A no-op `rstrip` stays a no-op after consing in front. -/
theorem rstrip_noop_cons {m c : Char} {l : List Char} (hl : l ≠ [])
    (h : rstripChars m l = l) : rstripChars m (c :: l) = c :: l := by
  have hrev : l.reverse.dropWhile (fun d => d == m) = l.reverse := by
    have := congrArg List.reverse h
    unfold rstripChars at this
    rw [List.reverse_reverse] at this
    exact this
  cases hr : l.reverse with
  | nil =>
      exact absurd (by simpa using congrArg List.reverse hr) hl
  | cons y t =>
      unfold rstripChars
      rw [show (c :: l).reverse = l.reverse ++ [c] by simp, hr, List.cons_append,
        List.dropWhile_cons]
      rw [hr] at hrev
      rw [if_neg (by rw [dropWhile_head_false hrev]; exact Bool.false_ne_true)]
      rw [← List.cons_append, ← hr]
      simp

/-- The scheme produced by `splitScheme` is already lowercase, starts with an
ASCII letter when nonempty, and consists of scheme characters. -/
theorem splitScheme_fst_spec (t : List Char) :
    pyLower (splitScheme t).1 = (splitScheme t).1
    ∧ ((splitScheme t).1 ≠ [] → ((splitScheme t).1.headD ' ').isAlpha = true)
    ∧ ∀ c ∈ (splitScheme t).1, isSchemeChar c = true := by
  unfold splitScheme
  cases hfind : t.findIdx? (fun c => c == ':') with
  | none =>
      refine ⟨rfl, fun h => absurd rfl h, ?_⟩
      intro c hc
      exact absurd hc (List.not_mem_nil c)
  | some i =>
      dsimp only
      by_cases hc : 0 < i ∧ (t.headD ' ').isAlpha ∧ (t.take i).all isSchemeChar
      · rw [if_pos hc]
        refine ⟨pyLower_idem _, ?_, ?_⟩
        · intro _
          cases t with
          | nil => exact absurd hfind (by rw [List.findIdx?_nil]; exact Option.noConfusion)
          | cons a r =>
              obtain ⟨j, hj⟩ : ∃ j, i = j + 1 := ⟨i - 1, by omega⟩
              subst hj
              show ((pyLower ((a :: r).take (j + 1))).headD ' ').isAlpha = true
              rw [List.take_succ_cons]
              show ((pyLowerChar a :: pyLower (r.take j)).headD ' ').isAlpha = true
              show (pyLowerChar a).isAlpha = true
              rw [pyLowerChar_isAlpha]
              exact hc.2.1
        · intro c hcmem
          obtain ⟨d, hd, hdc⟩ := List.mem_map.mp hcmem
          have hds := List.all_eq_true.mp hc.2.2 d hd
          rw [← hdc, pyLowerChar_isSchemeChar]
          exact hds
      · rw [if_neg hc]
        refine ⟨rfl, fun h => absurd rfl h, ?_⟩
        intro c hcmem
        exact absurd hcmem (List.not_mem_nil c)

/-- Component facts of a successful `urlsplit`: the scheme is the one detected
by `splitScheme` on the preprocessed input, the netloc is free of `/?#` and has
no mismatched bracket, the path is free of `?#`, and the query of `#`. -/
theorem urlsplitE_facts (t : List Char) (sp : SplitUrl) (h : urlsplitE t = some sp) :
    sp.scheme = (splitScheme (removeUnsafeBytes (t.dropWhile isC0OrSpace))).1
    ∧ (∀ c ∈ sp.netloc, (!(c == '/' || c == '?' || c == '#')) = true)
    ∧ ((sp.netloc.contains '[' && !sp.netloc.contains ']')
        || (sp.netloc.contains ']' && !sp.netloc.contains '[')) = false
    ∧ (∀ c ∈ sp.path, (c == '?') = false ∧ (c == '#') = false)
    ∧ (∀ c ∈ sp.query, (c == '#') = false) := by
  simp only [urlsplitE, splitOnFirst] at h
  set u0 := removeUnsafeBytes (t.dropWhile isC0OrSpace) with hu0
  set rest := (splitScheme u0).2 with hrest
  have hq : ∀ (fr1 : List Char), (∀ c ∈ fr1, (c == '#') = false) →
      (∀ c ∈ (fr1.takeWhile (fun c => !(c == '?'))), (c == '?') = false ∧ (c == '#') = false)
      ∧ (∀ c ∈ ((fr1.dropWhile (fun c => !(c == '?'))).drop 1), (c == '#') = false) := by
    intro fr1 hfr
    constructor
    · intro c hc
      have h1 := List.mem_takeWhile_imp hc
      have h2 := (List.takeWhile_sublist (fun c => !(c == '?'))).subset hc
      refine ⟨?_, hfr c h2⟩
      cases hb : (c == '?') with
      | false => rfl
      | true => rw [hb] at h1; exact absurd h1 (by decide)
    · intro c hc
      have h2 := (List.dropWhile_sublist (fun c => !(c == '?'))).subset
        (List.mem_of_mem_drop hc)
      exact hfr c h2
  by_cases h2 : rest.take 2 = ['/', '/']
  · rw [if_pos h2] at h
    set nl := (rest.drop 2).takeWhile (fun c => !(c == '/' || c == '?' || c == '#')) with hnl
    by_cases hbr : ((nl.contains '[' && !nl.contains ']')
        || (nl.contains ']' && !nl.contains '[')) = true
    · rw [if_pos hbr] at h
      exact absurd h (by simp)
    · rw [if_neg hbr] at h
      set rest2 := (rest.drop 2).dropWhile (fun c => !(c == '/' || c == '?' || c == '#'))
        with hrest2
      have hfr1 : ∀ c ∈ rest2.takeWhile (fun c => !(c == '#')), (c == '#') = false := by
        intro c hc
        have h1 := List.mem_takeWhile_imp hc
        cases hb : (c == '#') with
        | false => rfl
        | true => rw [hb] at h1; exact absurd h1 (by decide)
      obtain ⟨hqa, hqb⟩ := hq _ hfr1
      have hspeq := Option.some.inj h
      subst hspeq
      dsimp only
      refine ⟨rfl, ?_, Bool.eq_false_iff.mpr hbr, hqa, hqb⟩
      intro c hc
      rw [hnl] at hc
      have hmem := List.mem_takeWhile_imp hc
      exact hmem
  · rw [if_neg h2] at h
    have hfr1 : ∀ c ∈ rest.takeWhile (fun c => !(c == '#')), (c == '#') = false := by
      intro c hc
      have h1 := List.mem_takeWhile_imp hc
      cases hb : (c == '#') with
      | false => rfl
      | true => rw [hb] at h1; exact absurd h1 (by decide)
    obtain ⟨hqa, hqb⟩ := hq _ hfr1
    have hspeq := Option.some.inj h
    subst hspeq
    dsimp only
    refine ⟨rfl, ?_, by decide, hqa, hqb⟩
    intro c hc
    exact absurd hc (List.not_mem_nil c)

/- ----------------------------------------------------------------------
   character classes of the urlencode output
   ---------------------------------------------------------------------- -/

theorem hexUpperChar_mem (n : Nat) : hexUpperChar n ∈ "0123456789ABCDEF".data := by
  unfold hexUpperChar
  rcases Nat.lt_or_ge n 16 with h | h
  · interval_cases n <;> decide
  · rw [List.getD_eq_default _ _ (by simpa using h)]
    decide

theorem mem_quotePlusChar (c d : Char) (h : d ∈ quotePlusChar c) :
    d = '+' ∨ isAlwaysSafe d = true ∨ d = '%' ∨ d ∈ "0123456789ABCDEF".data := by
  unfold quotePlusChar at h
  by_cases hsp : (c == ' ') = true
  · rw [if_pos hsp] at h
    left
    exact (List.mem_singleton.mp h)
  · rw [if_neg hsp] at h
    by_cases hsafe : isAlwaysSafe c = true
    · rw [if_pos hsafe] at h
      right; left
      rw [List.mem_singleton.mp h]
      exact hsafe
    · rw [if_neg hsafe] at h
      obtain ⟨piece, hpiece, hd⟩ := List.mem_flatten.mp h
      obtain ⟨b, _, hb⟩ := List.mem_map.mp hpiece
      rw [← hb] at hd
      simp only [List.mem_cons, List.not_mem_nil, or_false] at hd
      rcases hd with h1 | h1 | h1
      · right; right; left; exact h1
      · right; right; right
        rw [h1]
        exact hexUpperChar_mem (b / 16)
      · right; right; right
        rw [h1]
        exact hexUpperChar_mem (b % 16)

theorem mem_joinAmp (ls : List (List Char)) (c : Char) (h : c ∈ joinAmp ls) :
    c = '&' ∨ ∃ x ∈ ls, c ∈ x := by
  induction ls with
  | nil => exact absurd h (List.not_mem_nil c)
  | cons x rest ih =>
      cases rest with
      | nil =>
          right
          exact ⟨x, List.mem_cons_self x [], by simpa [joinAmp] using h⟩
      | cons y t =>
          rw [show joinAmp (x :: y :: t) = x ++ ('&' :: joinAmp (y :: t)) from rfl] at h
          rcases List.mem_append.mp h with h1 | h1
          · right
            exact ⟨x, List.mem_cons_self x _, h1⟩
          · rcases List.mem_cons.mp h1 with h2 | h2
            · left; exact h2
            · rcases ih h2 with h3 | ⟨z, hz, hcz⟩
              · left; exact h3
              · right
                exact ⟨z, List.mem_cons_of_mem x hz, hcz⟩

theorem mem_urlencodeDoseq (d : List (List Char × List (List Char))) (c : Char)
    (h : c ∈ urlencodeDoseq d) :
    c = '&' ∨ c = '=' ∨ c = '+' ∨ isAlwaysSafe c = true ∨ c = '%'
      ∨ c ∈ "0123456789ABCDEF".data := by
  unfold urlencodeDoseq at h
  rcases mem_joinAmp _ c h with h1 | ⟨piece, hp, hcp⟩
  · left; exact h1
  · obtain ⟨grp, hgrp, hpg⟩ := List.mem_flatten.mp hp
    obtain ⟨kv, _, hkv⟩ := List.mem_map.mp hgrp
    rw [← hkv] at hpg
    obtain ⟨v, _, hv⟩ := List.mem_map.mp hpg
    rw [← hv] at hcp
    rcases List.mem_append.mp hcp with h2 | h2
    · obtain ⟨pc, hpc, hcc⟩ := List.mem_flatten.mp h2
      obtain ⟨ch, _, hch⟩ := List.mem_map.mp hpc
      rw [← hch] at hcc
      rcases mem_quotePlusChar ch c hcc with h3 | h3 | h3 | h3
      · right; right; left; exact h3
      · right; right; right; left; exact h3
      · right; right; right; right; left; exact h3
      · right; right; right; right; right; exact h3
    · rcases List.mem_cons.mp h2 with h3 | h3
      · right; left; exact h3
      · obtain ⟨pc, hpc, hcc⟩ := List.mem_flatten.mp h3
        obtain ⟨ch, _, hch⟩ := List.mem_map.mp hpc
        rw [← hch] at hcc
        rcases mem_quotePlusChar ch c hcc with h4 | h4 | h4 | h4
        · right; right; left; exact h4
        · right; right; right; left; exact h4
        · right; right; right; right; left; exact h4
        · right; right; right; right; right; exact h4

/-- No `urlencode` output character is `?` or `#`. -/
theorem urlencodeDoseq_no_qh (d : List (List Char × List (List Char))) (c : Char)
    (h : c ∈ urlencodeDoseq d) : (c == '?') = false ∧ (c == '#') = false := by
  have hcases := mem_urlencodeDoseq d c h
  have hne : c ≠ '?' ∧ c ≠ '#' := by
    rcases hcases with h1 | h1 | h1 | h1 | h1 | h1
    · subst h1; exact ⟨by decide, by decide⟩
    · subst h1; exact ⟨by decide, by decide⟩
    · subst h1; exact ⟨by decide, by decide⟩
    · constructor
      · intro hc; subst hc; exact absurd h1 (by decide)
      · intro hc; subst hc; exact absurd h1 (by decide)
    · subst h1; exact ⟨by decide, by decide⟩
    · constructor
      · intro hc; subst hc; exact absurd h1 (by decide)
      · intro hc; subst hc; exact absurd h1 (by decide)
  exact ⟨beq_eq_false_iff_ne.mpr hne.1, beq_eq_false_iff_ne.mpr hne.2⟩

theorem mem_splitParams_fst {url : List Char} {c : Char}
    (h : c ∈ (splitParams url).1) : c ∈ url := by
  unfold splitParams at h
  rcases hm : (if url.contains '/' then
      match rfindIdx url '/' with
      | some j => findFrom url ';' j
      | none => none
    else url.findIdx? (fun c => c == ';')) with _ | i
  · rw [hm] at h
    exact h
  · rw [hm] at h
    exact List.mem_of_mem_take h

/-- Component facts of a successful `canonAssemble`. -/
theorem canonAssemble_facts (u : String) (s n p q : List Char)
    (h : canonAssemble u = some (s, n, p, q)) :
    pyLower s = s
    ∧ (s ≠ [] → (((s.headD ' ').isAlpha = true) ∧ ∀ c ∈ s, isSchemeChar c = true))
    ∧ pyLower n = n
    ∧ rstripChars '.' n = n
    ∧ (∀ c ∈ n, (!(c == '/' || c == '?' || c == '#')) = true)
    ∧ ((n.contains '[' && !n.contains ']') || (n.contains ']' && !n.contains '[')) = false
    ∧ p ≠ []
    ∧ (∀ c ∈ p, (c == '?') = false ∧ (c == '#') = false)
    ∧ (p = ['/'] ∨ rstripChars '/' p = p)
    ∧ (∀ c ∈ q, (c == '?') = false ∧ (c == '#') = false) := by
  unfold canonAssemble at h
  cases hpr : urlparseE (pyStrip u.data) with
  | none => rw [hpr] at h; exact absurd h (by simp)
  | some pr =>
      rw [hpr] at h
      simp only at h
      have hinj := Option.some.inj h
      obtain ⟨hs, hn, hp, hq⟩ : s = pyLower pr.scheme
          ∧ n = rstripChars '.' (pyLower pr.netloc)
          ∧ p = (if (rstripChars '/' pr.path).isEmpty then ['/']
                 else rstripChars '/' pr.path)
          ∧ q = (if pr.query.isEmpty then []
                 else urlencodeDoseq ((parseQs pr.query).filter
                   (fun kv => !(stripParamsSet.contains (pyLower kv.1))))) := by
        have h1 := congrArg Prod.fst hinj
        have h2 := congrArg (fun x => x.2.1) hinj
        have h3 := congrArg (fun x => x.2.2.1) hinj
        have h4 := congrArg (fun x => x.2.2.2) hinj
        exact ⟨h1.symm, h2.symm, h3.symm, h4.symm⟩
      obtain ⟨sp, hsp, hpreq⟩ : ∃ sp, urlsplitE (pyStrip u.data) = some sp
          ∧ pr.scheme = sp.scheme ∧ pr.netloc = sp.netloc ∧ pr.query = sp.query
          ∧ (pr.path = sp.path ∨ pr.path = (splitParams sp.path).1) := by
        unfold urlparseE at hpr
        cases hss : urlsplitE (pyStrip u.data) with
        | none => rw [hss] at hpr; exact absurd hpr (by simp)
        | some sp =>
            rw [hss] at hpr
            simp only at hpr
            by_cases hc : usesParams.contains sp.scheme ∧ sp.path.contains ';'
            · rw [if_pos hc] at hpr
              have := Option.some.inj hpr
              refine ⟨sp, rfl, ?_, ?_, ?_, Or.inr ?_⟩ <;> rw [← this]
            · rw [if_neg hc] at hpr
              have := Option.some.inj hpr
              refine ⟨sp, rfl, ?_, ?_, ?_, Or.inl ?_⟩ <;> rw [← this]
      obtain ⟨hprs, hprn, hprq, hprp⟩ := hpreq
      obtain ⟨hsch, hnet, hbr, hpath, hquery⟩ := urlsplitE_facts _ sp hsp
      obtain ⟨hlow, hhead, hschemechars⟩ := splitScheme_fst_spec
        (removeUnsafeBytes ((pyStrip u.data).dropWhile isC0OrSpace))
      have hs' : s = sp.scheme := by
        rw [hs, hprs, hsch, hlow]
      refine ⟨?_, ?_, ?_, ?_, ?_, ?_, ?_, ?_, ?_, ?_⟩
      · rw [hs]
        exact pyLower_idem _
      · intro hne
        rw [hs', hsch]
        rw [hs', hsch] at hne
        exact ⟨hhead hne, hschemechars⟩
      · rw [hn, ← pyLower_rstrip '.'
          (fun c => pyLowerChar_beq_special c '.' (by decide) (by decide)), pyLower_idem,
          pyLower_rstrip '.'
          (fun c => pyLowerChar_beq_special c '.' (by decide) (by decide))]
      · rw [hn]
        exact rstrip_idem '.' _
      · intro c hc
        rw [hn] at hc
        have hc2 := mem_rstrip hc
        obtain ⟨d, hd, hdc⟩ := List.mem_map.mp hc2
        rw [hprn] at hd
        have hfact := hnet d hd
        rw [← hdc]
        show (!(pyLowerChar d == '/' || pyLowerChar d == '?' || pyLowerChar d == '#')) = true
        rw [pyLowerChar_beq_special d '/' (by decide) (by decide),
          pyLowerChar_beq_special d '?' (by decide) (by decide),
          pyLowerChar_beq_special d '#' (by decide) (by decide)]
        exact hfact
      · rw [hn]
        rw [contains_rstrip (by decide), contains_rstrip (by decide)]
        show ((pyLower pr.netloc).contains '[' && !(pyLower pr.netloc).contains ']'
            || ((pyLower pr.netloc).contains ']' && !(pyLower pr.netloc).contains '[')) = false
        rw [pyLower_contains_special pr.netloc '[' (by decide) (by decide),
          pyLower_contains_special pr.netloc ']' (by decide) (by decide), hprn]
        exact hbr
      · rw [hp]
        by_cases he : (rstripChars '/' pr.path).isEmpty
        · rw [if_pos he]
          exact List.cons_ne_nil '/' []
        · rw [if_neg he]
          intro hnil
          rw [hnil] at he
          exact he rfl
      · intro c hc
        rw [hp] at hc
        by_cases he : (rstripChars '/' pr.path).isEmpty
        · rw [if_pos he] at hc
          have : c = '/' := List.mem_singleton.mp hc
          subst this
          exact ⟨by decide, by decide⟩
        · rw [if_neg he] at hc
          have hc2 := mem_rstrip hc
          rcases hprp with h1 | h1
          · rw [h1] at hc2
            exact hpath c hc2
          · rw [h1] at hc2
            exact hpath c (mem_splitParams_fst hc2)
      · by_cases he : (rstripChars '/' pr.path).isEmpty
        · rw [hp, if_pos he]
          left; rfl
        · rw [hp, if_neg he]
          right
          exact rstrip_idem '/' _
      · intro c hc
        rw [hq] at hc
        by_cases he : pr.query.isEmpty
        · rw [if_pos he] at hc
          exact absurd hc (List.not_mem_nil c)
        · rw [if_neg he] at hc
          exact urlencodeDoseq_no_qh _ c hc

/- ----------------------------------------------------------------------
   re-parsing the canonical output
   ---------------------------------------------------------------------- -/

theorem scheme_chars_ne_colon {s : List Char}
    (h : ∀ c ∈ s, isSchemeChar c = true) : ∀ c ∈ s, (c == ':') = false := by
  intro c hc
  apply beq_eq_false_iff_ne.mpr
  intro heq
  subst heq
  exact absurd (h ':' hc) (by decide)

theorem headD_append {a : List Char} (b : List Char) (x : Char) (h : a ≠ []) :
    (a ++ b).headD x = a.headD x := by
  cases a with
  | nil => exact absurd rfl h
  | cons y t => rfl

/-- `splitScheme` recovers a well-formed scheme prefix. -/
theorem splitScheme_pre (s R : List Char) (hs : s ≠ [])
    (hlow : pyLower s = s) (hhead : (s.headD ' ').isAlpha = true)
    (hchars : ∀ c ∈ s, isSchemeChar c = true) :
    splitScheme (s ++ ':' :: R) = (s, R) := by
  unfold splitScheme
  rw [findIdxQ_append_none R (scheme_chars_ne_colon hchars) 0]
  dsimp only
  rw [if_pos ?_]
  · have htake : (s ++ ':' :: R).take (0 + s.length) = s := by
      rw [Nat.zero_add]
      rw [List.take_append_of_le_length (Nat.le_refl _), List.take_length]
    have hdrop : (s ++ ':' :: R).drop (0 + s.length + 1) = R := by
      rw [Nat.zero_add]
      rw [show s ++ ':' :: R = (s ++ [':']) ++ R by simp]
      rw [show s.length + 1 = (s ++ [':']).length by simp]
      exact List.drop_left _ _
    rw [htake, hdrop, hlow]
  · refine ⟨by rw [Nat.zero_add]; exact List.length_pos.mpr hs, ?_, ?_⟩
    · rw [headD_append _ _ hs]
      exact hhead
    · rw [Nat.zero_add, List.take_append_of_le_length (Nat.le_refl _), List.take_length]
      exact List.all_eq_true.mpr hchars

/-- Normal form of the value assembled by `canonical_url`. -/
theorem urlunparse_eval (s n p q : List Char) :
    urlunparse s n p [] q []
    = (if !q.isEmpty
        then (if !s.isEmpty
               then s ++ (':' :: (if (!n.isEmpty
                      || (!s.isEmpty && usesNetloc.contains s
                           && !(p.take 2 == ['/', '/'])))
                   then '/' :: '/' :: (n ++ canonRepath s n p)
                   else canonRepath s n p))
               else (if (!n.isEmpty
                      || (!s.isEmpty && usesNetloc.contains s
                           && !(p.take 2 == ['/', '/'])))
                   then '/' :: '/' :: (n ++ canonRepath s n p)
                   else canonRepath s n p)) ++ ('?' :: q)
        else (if !s.isEmpty
               then s ++ (':' :: (if (!n.isEmpty
                      || (!s.isEmpty && usesNetloc.contains s
                           && !(p.take 2 == ['/', '/'])))
                   then '/' :: '/' :: (n ++ canonRepath s n p)
                   else canonRepath s n p))
               else (if (!n.isEmpty
                      || (!s.isEmpty && usesNetloc.contains s
                           && !(p.take 2 == ['/', '/'])))
                   then '/' :: '/' :: (n ++ canonRepath s n p)
                   else canonRepath s n p))) := by
  unfold urlunparse urlunsplit canonRepath
  have h1 : ∀ (x y : List Char), (if (!List.isEmpty ([] : List Char)) = true then x else y) = y :=
    fun x y => rfl
  simp only [h1]
  by_cases hA : (!n.isEmpty
      || (!s.isEmpty && usesNetloc.contains s && !(p.take 2 == ['/', '/']))) = true
  · simp only [if_pos hA]
  · simp only [if_neg hA]

/-- Re-parsing an assembled URL whose netloc part is emitted. -/
theorem urlsplitE_netloc_case (v s n P2 qpart q : List Char)
    (hC0 : v.dropWhile isC0OrSpace = v) (hUn : removeUnsafeBytes v = v)
    (hsch : splitScheme v = (s, '/' :: '/' :: (n ++ (P2 ++ qpart))))
    (hnet : ∀ c ∈ n, (!(c == '/' || c == '?' || c == '#')) = true)
    (hbr : ((n.contains '[' && !n.contains ']')
        || (n.contains ']' && !n.contains '[')) = false)
    (hP2 : ∃ t, P2 = '/' :: t)
    (hP2chars : ∀ c ∈ P2, (c == '?') = false ∧ (c == '#') = false)
    (hqpart : (qpart = [] ∧ q = []) ∨ (qpart = '?' :: q ∧ ∀ c ∈ q, (c == '#') = false)) :
    urlsplitE v = some ⟨s, n, P2, q, []⟩ := by
  simp only [urlsplitE]
  rw [hC0, hUn, hsch]
  dsimp only
  rw [if_pos (by rw [List.take_succ_cons, List.take_succ_cons, List.take_zero])]
  rw [List.drop_succ_cons, List.drop_succ_cons, List.drop_zero]
  obtain ⟨t, hP2t⟩ := hP2
  have hnl : (n ++ (P2 ++ qpart)).takeWhile (fun c => !(c == '/' || c == '?' || c == '#'))
      = n := by
    rw [takeWhile_append_of_all _ hnet, hP2t, List.cons_append, List.takeWhile_cons,
      if_neg (by decide)]
    exact List.append_nil n
  have hrest2 : (n ++ (P2 ++ qpart)).dropWhile (fun c => !(c == '/' || c == '?' || c == '#'))
      = P2 ++ qpart := by
    rw [dropWhile_append_of_all _ hnet, hP2t, List.cons_append, List.dropWhile_cons,
      if_neg (by decide), ← List.cons_append]
  rw [hnl, hrest2, hbr]
  rw [if_neg (by exact Bool.false_ne_true)]
  rcases hqpart with ⟨hqp, hq0⟩ | ⟨hqp, hqchars⟩
  · rw [hqp, List.append_nil]
    have h1 : splitOnFirst P2 '#' = (P2, []) :=
      splitOnFirst_of_not_mem (fun c hc => (hP2chars c hc).2)
    have h2 : splitOnFirst P2 '?' = (P2, []) :=
      splitOnFirst_of_not_mem (fun c hc => (hP2chars c hc).1)
    rw [h1]
    dsimp only
    rw [h2]
    rw [hq0]
  · rw [hqp]
    have h1 : splitOnFirst (P2 ++ '?' :: q) '#' = (P2 ++ '?' :: q, []) := by
      apply splitOnFirst_of_not_mem
      intro c hc
      rcases List.mem_append.mp hc with h3 | h3
      · exact (hP2chars c h3).2
      · rcases List.mem_cons.mp h3 with h4 | h4
        · subst h4; decide
        · exact hqchars c h4
    have h2 : splitOnFirst (P2 ++ '?' :: q) '?' = (P2, q) :=
      splitOnFirst_append q (fun c hc => (hP2chars c hc).1)
    rw [h1]
    dsimp only
    rw [h2]

/-- Re-parsing an assembled URL without the netloc part. -/
theorem urlsplitE_nonetloc_case (v s p qpart q : List Char)
    (hC0 : v.dropWhile isC0OrSpace = v) (hUn : removeUnsafeBytes v = v)
    (hsch : splitScheme v = (s, p ++ qpart))
    (htake2 : ¬ (p ++ qpart).take 2 = ['/', '/'])
    (hpchars : ∀ c ∈ p, (c == '?') = false ∧ (c == '#') = false)
    (hqpart : (qpart = [] ∧ q = []) ∨ (qpart = '?' :: q ∧ ∀ c ∈ q, (c == '#') = false)) :
    urlsplitE v = some ⟨s, [], p, q, []⟩ := by
  simp only [urlsplitE]
  rw [hC0, hUn, hsch]
  dsimp only
  rw [if_neg htake2]
  rcases hqpart with ⟨hqp, hq0⟩ | ⟨hqp, hqchars⟩
  · rw [hqp, List.append_nil]
    have h1 : splitOnFirst p '#' = (p, []) :=
      splitOnFirst_of_not_mem (fun c hc => (hpchars c hc).2)
    have h2 : splitOnFirst p '?' = (p, []) :=
      splitOnFirst_of_not_mem (fun c hc => (hpchars c hc).1)
    rw [h1]
    dsimp only
    rw [h2]
    rw [hq0]
  · rw [hqp]
    have h1 : splitOnFirst (p ++ '?' :: q) '#' = (p ++ '?' :: q, []) := by
      apply splitOnFirst_of_not_mem
      intro c hc
      rcases List.mem_append.mp hc with h3 | h3
      · exact (hpchars c h3).2
      · rcases List.mem_cons.mp h3 with h4 | h4
        · subst h4; decide
        · exact hqchars c h4
    have h2 : splitOnFirst (p ++ '?' :: q) '?' = (p, q) :=
      splitOnFirst_append q (fun c hc => (hpchars c hc).1)
    rw [h1]
    dsimp only
    rw [h2]

/-- `urlsplit` re-reads the exact components assembled by `canonical_url`,
under the stability side conditions. -/
theorem urlsplitE_canon (s n p q : List Char)
    (hslow : pyLower s = s)
    (hshead : s ≠ [] → (((s.headD ' ').isAlpha = true) ∧ ∀ c ∈ s, isSchemeChar c = true))
    (hnet : ∀ c ∈ n, (!(c == '/' || c == '?' || c == '#')) = true)
    (hbr : ((n.contains '[' && !n.contains ']')
        || (n.contains ']' && !n.contains '[')) = false)
    (hpne : p ≠ [])
    (hpath : ∀ c ∈ p, (c == '?') = false ∧ (c == '#') = false)
    (hquery : ∀ c ∈ q, (c == '?') = false ∧ (c == '#') = false)
    (hC0 : (urlunparse s n p [] q []).dropWhile isC0OrSpace = urlunparse s n p [] q [])
    (hUn : removeUnsafeBytes (urlunparse s n p [] q []) = urlunparse s n p [] q [])
    (hslash : (n.isEmpty && p.take 2 == ['/', '/']) = false)
    (hredetect : s = [] →
      splitScheme (urlunparse s n p [] q []) = ([], urlunparse s n p [] q [])) :
    urlsplitE (urlunparse s n p [] q []) = some ⟨s, n, canonRepath s n p, q, []⟩ := by
  have hqpart : ((if !q.isEmpty then '?' :: q else ([] : List Char)) = [] ∧ q = [])
      ∨ ((if !q.isEmpty then '?' :: q else ([] : List Char)) = '?' :: q
          ∧ ∀ c ∈ q, (c == '#') = false) := by
    cases q with
    | nil => left; exact ⟨rfl, rfl⟩
    | cons c t =>
        right
        refine ⟨rfl, fun d hd => (hquery d hd).2⟩
  have hv : urlunparse s n p [] q []
      = (if !s.isEmpty
          then s ++ (':' :: (if (!n.isEmpty
                 || (!s.isEmpty && usesNetloc.contains s && !(p.take 2 == ['/', '/'])))
              then '/' :: '/' :: (n ++ canonRepath s n p)
              else canonRepath s n p))
          else (if (!n.isEmpty
                 || (!s.isEmpty && usesNetloc.contains s && !(p.take 2 == ['/', '/'])))
              then '/' :: '/' :: (n ++ canonRepath s n p)
              else canonRepath s n p))
        ++ (if !q.isEmpty then '?' :: q else []) := by
    rw [urlunparse_eval]
    have hiteF : ∀ (X Y : List Char), (if (false = true) then X else Y) = Y :=
      fun X Y => rfl
    have hiteT : ∀ (X Y : List Char), (if (true = true) then X else Y) = X :=
      fun X Y => rfl
    cases q with
    | nil =>
        rw [show (!List.isEmpty ([] : List Char)) = false from rfl]
        rw [hiteF, hiteF, List.append_nil]
    | cons c t =>
        rw [show (!List.isEmpty (c :: t)) = true from rfl]
        rw [hiteT, hiteT]
  have hsch : splitScheme (urlunparse s n p [] q [])
      = (s, (if (!n.isEmpty
                 || (!s.isEmpty && usesNetloc.contains s && !(p.take 2 == ['/', '/'])))
              then '/' :: '/' :: (n ++ canonRepath s n p)
              else canonRepath s n p)
            ++ (if !q.isEmpty then '?' :: q else [])) := by
    by_cases hs0 : s = []
    · have hred := hredetect hs0
      rw [hred, hv]
      subst hs0
      rw [show (!List.isEmpty ([] : List Char)) = false from rfl,
        if_neg (by exact Bool.false_ne_true)]
    · have hsne : (!s.isEmpty) = true := by
        cases s with
        | nil => exact absurd rfl hs0
        | cons a r => rfl
      rw [hv, if_pos hsne, List.append_assoc]
      exact splitScheme_pre s _ hs0 hslow (hshead hs0).1 (hshead hs0).2
  by_cases hA : (!n.isEmpty
      || (!s.isEmpty && usesNetloc.contains s && !(p.take 2 == ['/', '/']))) = true
  · rw [if_pos hA] at hsch
    have hP2head : ∃ t, canonRepath s n p = '/' :: t := by
      unfold canonRepath
      rw [if_pos hA]
      by_cases hp0 : (!p.isEmpty && !(p.headD ' ' == '/')) = true
      · rw [if_pos hp0]
        exact ⟨p, rfl⟩
      · rw [if_neg hp0]
        cases p with
        | nil => exact absurd rfl hpne
        | cons c t =>
            have h2 : (!((c :: t).headD ' ' == '/')) = false := by
              cases hb : (!((c :: t).headD ' ' == '/')) with
              | false => rfl
              | true => exact absurd (by rw [hb]; rfl) hp0
            have h3 : (c == '/') = true := by
              cases hbc : (c == '/') with
              | true => rfl
              | false =>
                  rw [show ((c :: t).headD ' ' == '/') = (c == '/') from rfl, hbc] at h2
                  exact absurd h2 (by decide)
            have h4 : c = '/' := eq_of_beq h3
            exact ⟨t, by rw [h4]⟩
    have hP2chars : ∀ c ∈ canonRepath s n p, (c == '?') = false ∧ (c == '#') = false := by
      intro c hc
      unfold canonRepath at hc
      by_cases hA0 : (!n.isEmpty
          || (!s.isEmpty && usesNetloc.contains s && !(p.take 2 == ['/', '/']))) = true
      · rw [if_pos hA0] at hc
        by_cases hp0 : (!p.isEmpty && !(p.headD ' ' == '/')) = true
        · rw [if_pos hp0] at hc
          rcases List.mem_cons.mp hc with h1 | h1
          · subst h1; exact ⟨by decide, by decide⟩
          · exact hpath c h1
        · rw [if_neg hp0] at hc
          exact hpath c hc
      · rw [if_neg hA0] at hc
        exact hpath c hc
    rw [show ('/' :: '/' :: (n ++ canonRepath s n p))
          ++ (if !q.isEmpty then '?' :: q else [])
        = '/' :: '/' :: (n ++ (canonRepath s n p
          ++ (if !q.isEmpty then '?' :: q else []))) by
      rw [List.cons_append, List.cons_append, List.append_assoc]] at hsch
    exact urlsplitE_netloc_case _ s n _ _ q hC0 hUn hsch hnet hbr hP2head hP2chars hqpart
  · have hn0 : n = [] := by
      cases n with
      | nil => rfl
      | cons a r =>
          exfalso
          apply hA
          rw [show (!List.isEmpty (a :: r)) = true from rfl]
          rfl
    have hP2p : canonRepath s n p = p := by
      unfold canonRepath
      rw [if_neg hA]
    rw [if_neg hA] at hsch
    rw [hP2p] at hsch ⊢
    have hps : (p.take 2 == ['/', '/']) = false := by
      rw [hn0] at hslash
      rw [show List.isEmpty ([] : List Char) = true from rfl] at hslash
      rw [Bool.true_and] at hslash
      exact hslash
    have htake2 : ¬ (p ++ (if !q.isEmpty then '?' :: q else [])).take 2 = ['/', '/'] := by
      intro hcon
      cases p with
      | nil => exact absurd rfl hpne
      | cons c t =>
          cases t with
          | cons d r =>
              rw [List.cons_append, List.cons_append, List.take_succ_cons,
                List.take_succ_cons, List.take_zero] at hcon
              have h6 : (c :: d :: r).take 2 = ['/', '/'] := by
                rw [List.take_succ_cons, List.take_succ_cons, List.take_zero]
                exact hcon
              rw [h6] at hps
              exact absurd hps (by decide)
          | nil =>
              cases q with
              | nil =>
                  rw [show (!List.isEmpty ([] : List Char)) = false from rfl,
                    if_neg (by exact Bool.false_ne_true), List.append_nil] at hcon
                  have := congrArg List.length hcon
                  simp at this
              | cons e w =>
                  rw [show (!List.isEmpty (e :: w)) = true from rfl, if_pos rfl] at hcon
                  rw [List.cons_append, List.nil_append, List.take_succ_cons,
                    List.take_succ_cons, List.take_zero] at hcon
                  have h5 : ('?' : Char) = '/' := (List.cons.injEq _ _ _ _).mp
                    ((List.cons.injEq _ _ _ _).mp hcon).2 |>.1
                  exact absurd h5 (by decide)
    rw [hn0] at hnet hbr hC0 hUn hsch ⊢
    exact urlsplitE_nonetloc_case _ s p _ q hC0 hUn hsch htake2 hpath hqpart

theorem bool_not_true {b : Bool} (h : (!b) = true) : b = false := by
  cases b with
  | false => rfl
  | true => exact absurd h (by decide)

/-- `urlparse` adds no params split on the re-read path under the stability
condition. -/
theorem urlparseE_canon (s n p q : List Char)
    (hcanon : urlsplitE (urlunparse s n p [] q [])
      = some ⟨s, n, canonRepath s n p, q, []⟩)
    (hparams : (!(usesParams.contains s && (canonRepath s n p).contains ';')
        || splitParams (canonRepath s n p) == (canonRepath s n p, [])) = true) :
    urlparseE (urlunparse s n p [] q [])
      = some ⟨s, n, canonRepath s n p, [], q, []⟩ := by
  unfold urlparseE
  rw [hcanon]
  dsimp only
  by_cases hc : usesParams.contains s = true ∧ (canonRepath s n p).contains ';' = true
  · rw [if_pos hc]
    have h1 : (usesParams.contains s && (canonRepath s n p).contains ';') = true := by
      rw [hc.1, hc.2]
      rfl
    rw [h1, Bool.not_true, Bool.false_or] at hparams
    have hsp : splitParams (canonRepath s n p) = (canonRepath s n p, []) :=
      eq_of_beq hparams
    rw [hsp]
  · rw [if_neg hc]

/-- The outcome of `canonRepath`, with the side facts of the prepending
branch. -/
theorem canonRepath_cases (s n p : List Char) :
    canonRepath s n p = p
    ∨ (canonRepath s n p = '/' :: p ∧ (p.headD ' ' == '/') = false
        ∧ (!n.isEmpty || (!s.isEmpty && usesNetloc.contains s
            && !(p.take 2 == ['/', '/']))) = true) := by
  unfold canonRepath
  by_cases hA : (!n.isEmpty || (!s.isEmpty && usesNetloc.contains s
      && !(p.take 2 == ['/', '/']))) = true
  · rw [if_pos hA]
    by_cases hp0 : (!p.isEmpty && !(p.headD ' ' == '/')) = true
    · rw [if_pos hp0]
      right
      refine ⟨rfl, ?_, hA⟩
      have h2 := (Bool.and_eq_true _ _).mp hp0
      exact bool_not_true h2.2
    · rw [if_neg hp0]
      left; rfl
  · rw [if_neg hA]
    left; rfl

/-- A second `canonAssemble` recomputes exactly the re-read components. -/
theorem canonAssemble_canon (s n p q : List Char)
    (hstrip : pyStrip (urlunparse s n p [] q []) = urlunparse s n p [] q [])
    (hparse : urlparseE (urlunparse s n p [] q [])
      = some ⟨s, n, canonRepath s n p, [], q, []⟩)
    (hslow : pyLower s = s)
    (hnlow : pyLower n = n) (hnr : rstripChars '.' n = n)
    (hpne : p ≠ [])
    (hpd : p = ['/'] ∨ rstripChars '/' p = p)
    (hqrt : (q.isEmpty || urlencodeDoseq ((parseQs q).filter
        (fun kv => !(stripParamsSet.contains (pyLower kv.1)))) == q) = true) :
    canonAssemble ⟨urlunparse s n p [] q []⟩
      = some (s, n, canonRepath s n p, q) := by
  unfold canonAssemble
  rw [show (String.mk (urlunparse s n p [] q [])).data
      = urlunparse s n p [] q [] from rfl]
  rw [hstrip, hparse]
  dsimp only
  rw [hslow, hnlow, hnr]
  have hpath3 : (if (rstripChars '/' (canonRepath s n p)).isEmpty then ['/']
      else rstripChars '/' (canonRepath s n p)) = canonRepath s n p := by
    rcases canonRepath_cases s n p with hP | ⟨hP, hph, _⟩
    · rw [hP]
      rcases hpd with hp1 | hp1
      · subst hp1
        rfl
      · rw [hp1]
        rw [if_neg ?_]
        intro hcon
        cases p with
        | nil => exact hpne rfl
        | cons a r => exact absurd hcon (by exact List.cons_ne_nil a r ∘ List.isEmpty_iff.mp)
    · rcases hpd with hp1 | hp1
      · exfalso
        subst hp1
        exact absurd hph (by decide)
      · rw [hP, rstrip_noop_cons hpne hp1]
        rw [if_neg ?_]
        intro hcon
        exact absurd hcon (by exact List.cons_ne_nil '/' p ∘ List.isEmpty_iff.mp)
  rw [hpath3]
  cases q with
  | nil =>
      rw [show List.isEmpty ([] : List Char) = true from rfl]
      rw [if_pos rfl]
  | cons e w =>
      rw [show List.isEmpty (e :: w) = false from rfl]
      rw [if_neg (by exact Bool.false_ne_true)]
      rw [show List.isEmpty (e :: w) = false from rfl] at hqrt
      rw [Bool.false_or] at hqrt
      rw [eq_of_beq hqrt]

/-- Re-assembling the re-read components reproduces the first output. -/
theorem urlunparse_repath (s n p q : List Char) (hpne : p ≠ []) :
    urlunparse s n (canonRepath s n p) [] q [] = urlunparse s n p [] q [] := by
  rcases canonRepath_cases s n p with hP | ⟨hP, hph, hAc⟩
  · rw [hP]
  · have htk : ((('/' :: p).take 2) == ['/', '/']) = false := by
      cases p with
      | nil => exact absurd rfl hpne
      | cons c t =>
          rw [List.take_succ_cons, List.take_succ_cons, List.take_zero]
          rw [List.cons_beq_cons, List.cons_beq_cons]
          rw [show ((c :: t).headD ' ' == '/') = (c == '/') from rfl] at hph
          rw [hph]
          rfl
    have hAc' : (!n.isEmpty || (!s.isEmpty && usesNetloc.contains s
        && !(('/' :: p).take 2 == ['/', '/']))) = true := by
      cases hn : n.isEmpty with
      | false => rfl
      | true =>
          rw [hn] at hAc
          rw [show (!true) = false from rfl, Bool.false_or] at hAc ⊢
          obtain ⟨h1, _⟩ := (Bool.and_eq_true _ _).mp hAc
          rw [h1, htk]
          rfl
    have hin : (!('/' :: p).isEmpty && !(('/' :: p).headD ' ' == '/')) = false := rfl
    have hrep : canonRepath s n ('/' :: p) = '/' :: p := by
      unfold canonRepath
      rw [if_pos hAc']
      rw [if_neg (fun hcon => Bool.false_ne_true (hin.symm.trans hcon))]
    rw [hP]
    rw [urlunparse_eval s n ('/' :: p) q, urlunparse_eval s n p q]
    simp only [if_pos hAc', if_pos hAc, hrep, hP]

/-- C2: amended — `canonical_url` is idempotent on every input that passes the
re-parse stability check `canonicalStable` (in particular on every input whose
parse fails, where the fallback `strip().lower()` is a fixed point); the check
excludes the failure classes in which the first output is changed by a second
pass's whitespace stripping, re-read as a netloc from a `//`-initial path with
an empty netloc, re-read as a scheme, re-split at a `;params` suffix, or whose
re-encoded query does not re-parse to itself. -/
theorem claim_C2_amended (u : String) (h : canonicalStable u = true) :
    canonical_url (canonical_url u) = canonical_url u := by
  cases hca : canonAssemble u with
  | none => exact canonical_url_fallback u hca
  | some cp =>
      obtain ⟨s, n, p, q⟩ := cp
      unfold canonicalStable at h
      rw [hca] at h
      dsimp only at h
      simp only [Bool.and_eq_true] at h
      obtain ⟨⟨⟨⟨⟨⟨h1, h2⟩, h3⟩, h4⟩, h5⟩, h6⟩, h7⟩ := h
      obtain ⟨f1, f2, f3, f4, f5, f6, f7, f8, f9, f10⟩ :=
        canonAssemble_facts u s n p q hca
      have hstrip : pyStrip (urlunparse s n p [] q []) = urlunparse s n p [] q [] :=
        eq_of_beq h1
      have hC0 : (urlunparse s n p [] q []).dropWhile isC0OrSpace
          = urlunparse s n p [] q [] := eq_of_beq h2
      have hUn : removeUnsafeBytes (urlunparse s n p [] q [])
          = urlunparse s n p [] q [] := eq_of_beq h3
      have hslash : (n.isEmpty && p.take 2 == ['/', '/']) = false := bool_not_true h4
      have hredetect : s = [] → splitScheme (urlunparse s n p [] q [])
          = ([], urlunparse s n p [] q []) := by
        intro hs0
        subst hs0
        rw [show (!List.isEmpty ([] : List Char)) = false from rfl, Bool.false_or] at h5
        exact eq_of_beq h5
      have hsplit := urlsplitE_canon s n p q f1 f2 f5 f6 f7 f8 f10 hC0 hUn
        hslash hredetect
      have hparse := urlparseE_canon s n p q hsplit h6
      have hassem := canonAssemble_canon s n p q hstrip hparse f1 f3 f4 f7 f9 h7
      have hcu : canonical_url u = ⟨urlunparse s n p [] q []⟩ := by
        unfold canonical_url
        rw [hca]
      rw [hcu]
      unfold canonical_url
      rw [hassem]
      dsimp only
      rw [urlunparse_repath s n p q f7]

set_option maxRecDepth 4000 in
/-- C2: counterexample — `canonical_url` is not idempotent: on `"a /"` the
first pass strips the trailing slash and leaves a trailing space, which only
the second pass's `strip()` removes. -/
theorem claim_C2_counterexample :
    canonical_url ⟨"a /".data⟩ = ⟨"a ".data⟩
    ∧ canonical_url ⟨"a ".data⟩ = ⟨"a".data⟩
    ∧ canonical_url (canonical_url ⟨"a /".data⟩) ≠ canonical_url ⟨"a /".data⟩ := by
  refine ⟨?_, ?_, ?_⟩ <;> decide

set_option maxRecDepth 8000 in
/-- C2: witness — a mixed-case http URL with a tracking parameter passes the
stability check, and a second canonicalization leaves its output unchanged. -/
theorem claim_C2_witness :
    canonicalStable ⟨"HTTP://Example.COM./a/?b=2&utm_source=x".data⟩ = true
    ∧ canonical_url (canonical_url ⟨"HTTP://Example.COM./a/?b=2&utm_source=x".data⟩)
      = canonical_url ⟨"HTTP://Example.COM./a/?b=2&utm_source=x".data⟩ :=
  ⟨by decide, claim_C2_amended _ (by decide)⟩

theorem normalizeItems_cons (parseDT : String → Option String) (now : String)
    (source : SourceCfg) (raw : RawItem) (rest : List RawItem) :
    normalizeItems parseDT now source (raw :: rest)
    = if raw.url == "" then normalizeItems parseDT now source rest
      else
        { id := Item.make_id raw.url source.id
          source_id := source.id
          external_id := raw.external_id
          url := raw.url
          url_canonical := canonical_url raw.url
          title := raw.title.getD "Untitled"
          content := raw.content
          author := raw.author
          published_at := match raw.published_at with
            | none => now
            | some sv => (parseDT sv).getD now
          ingested_at := some now
          category := source.category.getD "news"
          language := source.lang.getD "en"
          metadata := raw.metadata } :: normalizeItems parseDT now source rest := rfl

/-- C3: every item produced by `_normalize_items` carries an id equal to the
first 16 hex characters of the SHA-256 digest of `"{source_id}:{url}"`, for its
own url and source — reproducible from those two inputs alone. -/
theorem claim_C3 (parseDT : String → Option String) (now : String)
    (source : SourceCfg) (raws : List RawItem) (it : Item)
    (h : it ∈ normalizeItems parseDT now source raws) :
    it.id = (sha256Hex (strUtf8 (source.id ++ ":" ++ it.url))).take 16 := by
  induction raws with
  | nil => exact absurd h (List.not_mem_nil it)
  | cons raw rest ih =>
      rw [normalizeItems_cons] at h
      by_cases hu : (raw.url == "") = true
      · rw [if_pos hu] at h
        exact ih h
      · rw [if_neg hu] at h
        rcases List.mem_cons.mp h with h1 | h1
        · have hid : it.id = Item.make_id raw.url source.id := by rw [h1]
          have hurl : it.url = raw.url := by rw [h1]
          rw [hid, hurl]
          unfold Item.make_id
          exact rfl
        · exact ih h1

set_option maxRecDepth 10000 in
/-- C3: witness — normalizing one raw item under source `src` yields an item
whose id is the first 16 hex characters of `sha256("src:http://e.com/a")`,
with the digest prefix checked against its known value. -/
theorem claim_C3_witness :
    c3item ∈ normalizeItems (fun _ => none) "t0" ⟨"src", none, none⟩ [c3raw]
    ∧ c3item.id = (sha256Hex (strUtf8 ("src" ++ ":" ++ c3item.url))).take 16
    ∧ c3item.id = "24035152da5d97e3" := by
  have hm : c3item ∈ normalizeItems (fun _ => none) "t0" ⟨"src", none, none⟩ [c3raw] :=
    List.mem_cons_self _ _
  refine ⟨hm, claim_C3 (fun _ => none) "t0" ⟨"src", none, none⟩ [c3raw] c3item hm, ?_⟩
  decide

/- ----------------------------------------------------------------------
   clustering invariants (C4)
   ---------------------------------------------------------------------- -/

theorem flatten_dictExtend {α : Type} (d : List (String × List α)) (k : String)
    (xs : List α) :
    ((dictExtend d k xs).map Prod.snd).flatten.Perm
      ((d.map Prod.snd).flatten ++ xs) := by
  induction d with
  | nil =>
      simp [dictExtend]
  | cons kv rest ih =>
      rw [dictExtend]
      by_cases hk : (kv.1 == k) = true
      · rw [if_pos hk]
        simp only [List.map_cons, List.flatten_cons]
        rw [List.append_assoc, List.append_assoc]
        exact (@List.perm_append_comm _ xs _).append_left kv.2
      · rw [if_neg hk]
        simp only [List.map_cons, List.flatten_cons]
        rw [List.append_assoc]
        exact ih.append_left kv.2

theorem dictExtend_snd_ne_nil {α : Type} (d : List (String × List α)) (k : String)
    (xs : List α) (hd : ∀ kv ∈ d, kv.2 ≠ []) (hxs : xs ≠ []) :
    ∀ kv ∈ dictExtend d k xs, kv.2 ≠ [] := by
  induction d with
  | nil =>
      intro kv hkv
      rw [dictExtend] at hkv
      rcases List.mem_cons.mp hkv with h | h
      · subst h; exact hxs
      · exact absurd h (List.not_mem_nil kv)
  | cons kv0 rest ih =>
      intro kv hkv
      rw [dictExtend] at hkv
      by_cases hk : (kv0.1 == k) = true
      · rw [if_pos hk] at hkv
        rcases List.mem_cons.mp hkv with h | h
        · subst h
          intro hcon
          rcases List.append_eq_nil.mp hcon with ⟨_, h2⟩
          exact hxs h2
        · exact hd kv (List.mem_cons_of_mem kv0 h)
      · rw [if_neg hk] at hkv
        rcases List.mem_cons.mp hkv with h | h
        · rw [h]
          exact hd kv0 (List.mem_cons_self kv0 rest)
        · exact ih (fun kv2 hkv2 => hd kv2 (List.mem_cons_of_mem kv0 hkv2)) kv h

theorem foldl_dictExtend_perm {α : Type} (key : α → String) (items : List α) :
    ∀ d0 : List (String × List α),
    (((items.foldl (fun d it => dictExtend d (key it) [it]) d0).map Prod.snd).flatten).Perm
      ((d0.map Prod.snd).flatten ++ items) := by
  induction items with
  | nil =>
      intro d0
      simp
  | cons it rest ih =>
      intro d0
      rw [List.foldl_cons]
      refine (ih (dictExtend d0 (key it) [it])).trans ?_
      have h1 := (flatten_dictExtend d0 (key it) [it]).append_right rest
      refine h1.trans ?_
      rw [List.append_assoc, List.singleton_append]

theorem foldl_dictExtend_group_perm (roots : (String × List ItemRecord) → String)
    (clusters : List (String × List ItemRecord)) :
    ∀ m0 : List (String × List ItemRecord),
    (((clusters.foldl (fun m kv => dictExtend m (roots kv) kv.2) m0).map Prod.snd).flatten).Perm
      ((m0.map Prod.snd).flatten ++ ((clusters.map Prod.snd).flatten)) := by
  induction clusters with
  | nil =>
      intro m0
      simp
  | cons kv rest ih =>
      intro m0
      rw [List.foldl_cons]
      refine (ih (dictExtend m0 (roots kv) kv.2)).trans ?_
      simp only [List.map_cons, List.flatten_cons]
      have h1 := (flatten_dictExtend m0 (roots kv) kv.2).append_right
        ((rest.map Prod.snd).flatten)
      refine h1.trans ?_
      rw [List.append_assoc]

theorem pickBest_mem (env : ClusterEnv) (g : ItemRecord) (rest : List ItemRecord) :
    pickBest env (g :: rest) ∈ g :: rest := by
  rw [pickBest]
  induction rest generalizing g with
  | nil => exact List.mem_cons_self g []
  | cons x xs ih =>
      rw [List.foldl_cons]
      by_cases hc : keyGt (pickKey env x) (pickKey env g) = true
      · rw [if_pos hc]
        exact List.mem_cons_of_mem g (ih x)
      · rw [if_neg hc]
        rcases List.mem_cons.mp (ih g) with h | h
        · rw [h]
          exact List.mem_cons_self g _
        · exact List.mem_cons_of_mem g (List.mem_cons_of_mem x h)

theorem countP_id_eq_one (g : List ItemRecord) (rep : ItemRecord)
    (hnd : (g.map ItemRecord.id).Nodup) (hmem : rep ∈ g) :
    g.countP (fun it => it.id == rep.id) = 1 := by
  induction g with
  | nil => exact absurd hmem (List.not_mem_nil rep)
  | cons a t ih =>
      rw [List.map_cons, List.nodup_cons] at hnd
      rcases List.mem_cons.mp hmem with h | h
      · subst h
        rw [List.countP_cons_of_pos _ _ (by simp)]
        rw [List.countP_eq_zero.mpr ?_]
        intro it hit hcon
        exact hnd.1 (by
          rw [← eq_of_beq hcon]
          exact List.mem_map_of_mem ItemRecord.id hit)
      · have hne : (a.id == rep.id) = false := by
          apply beq_eq_false_iff_ne.mpr
          intro hcon
          apply hnd.1
          rw [hcon]
          exact List.mem_map_of_mem ItemRecord.id h
        rw [List.countP_cons_of_neg _ _ (by rw [hne]; exact Bool.false_ne_true)]
        exact ih hnd.2 h

theorem urlClusters_ne_nil (items : List ItemRecord) :
    ∀ kv ∈ urlClusters items, kv.2 ≠ [] := by
  unfold urlClusters
  suffices h : ∀ d0 : List (String × List ItemRecord), (∀ kv ∈ d0, kv.2 ≠ []) →
      ∀ kv ∈ items.foldl (fun d it => dictExtend d (canonical_url it.url) [it]) d0,
        kv.2 ≠ [] by
    exact h [] (fun kv hkv => absurd hkv (List.not_mem_nil kv))
  induction items with
  | nil =>
      intro d0 hd0 kv hkv
      exact hd0 kv hkv
  | cons it rest ih =>
      intro d0 hd0 kv hkv
      rw [List.foldl_cons] at hkv
      exact ih (dictExtend d0 (canonical_url it.url) [it])
        (dictExtend_snd_ne_nil d0 _ [it] hd0 (List.cons_ne_nil _ _)) kv hkv

theorem assignIds_map_snd (l : List (String × List ItemRecord)) :
    ∀ n, (assignIds n l).map Prod.snd = l.map Prod.snd := by
  induction l with
  | nil => intro n; rfl
  | cons kv rest ih =>
      intro n
      rw [assignIds]
      simp only [List.map_cons]
      rw [ih (n + 1)]

theorem clusterPhase1_ne_nil (items : List ItemRecord) :
    ∀ kv ∈ clusterPhase1 items, kv.2 ≠ [] := by
  intro kv hkv
  have h1 : kv.2 ∈ (clusterPhase1 items).map Prod.snd := List.mem_map_of_mem Prod.snd hkv
  unfold clusterPhase1 at h1
  rw [assignIds_map_snd _ 0] at h1
  obtain ⟨kv0, hkv0, heq⟩ := List.mem_map.mp h1
  rw [← heq]
  exact urlClusters_ne_nil items kv0 hkv0

theorem clusterMerged_ne_nil (env : ClusterEnv) (items : List ItemRecord) :
    ∀ kv ∈ clusterMerged env items, kv.2 ≠ [] := by
  unfold clusterMerged
  suffices h : ∀ (cl : List (String × List ItemRecord))
      (m0 : List (String × List ItemRecord)) (root : String → String),
      (∀ kv ∈ m0, kv.2 ≠ []) → (∀ kv ∈ cl, kv.2 ≠ []) →
      ∀ kv ∈ cl.foldl (fun m kv => dictExtend m (root kv.1) kv.2) m0, kv.2 ≠ [] by
    exact h (clusterPhase1 items) []
      (ufFind (clusterParent env (clusterReps env (clusterPhase1 items))))
      (fun kv hkv => absurd hkv (List.not_mem_nil kv))
      (clusterPhase1_ne_nil items)
  intro cl
  induction cl with
  | nil =>
      intro m0 root hm0 _ kv hkv
      exact hm0 kv hkv
  | cons kv0 rest ih =>
      intro m0 root hm0 hcl kv hkv
      rw [List.foldl_cons] at hkv
      exact ih (dictExtend m0 (root kv0.1) kv0.2) root
        (dictExtend_snd_ne_nil m0 _ kv0.2 hm0 (hcl kv0 (List.mem_cons_self kv0 rest)))
        (fun kv2 hkv2 => hcl kv2 (List.mem_cons_of_mem kv0 hkv2)) kv hkv

theorem urlClusters_flatten_perm (items : List ItemRecord) :
    (((urlClusters items).map Prod.snd).flatten).Perm items := by
  have h := foldl_dictExtend_perm (fun it => canonical_url it.url) items []
  rw [List.map_nil, List.flatten_nil, List.nil_append] at h
  exact h

theorem clusterMerged_perm (env : ClusterEnv) (items : List ItemRecord) :
    (((clusterMerged env items).map Prod.snd).flatten).Perm items := by
  have h := foldl_dictExtend_group_perm
    (fun kv => ufFind (clusterParent env (clusterReps env (clusterPhase1 items))) kv.1)
    (clusterPhase1 items) []
  rw [List.map_nil, List.flatten_nil, List.nil_append] at h
  refine h.trans ?_
  unfold clusterPhase1
  rw [assignIds_map_snd _ 0]
  exact urlClusters_flatten_perm items

/-- C4: amended — if the passed items have pairwise distinct ids, then every
item in every returned cluster carries that cluster's id in `cluster_id` (in
particular non-null), and each cluster marks exactly one item as
representative; with duplicate ids every item whose id matches the picked
representative's is marked, so a cluster can have several. -/
theorem claim_C4_amended (env : ClusterEnv) (items : List ItemRecord)
    (hids : (items.map ItemRecord.id).Nodup) :
    ∀ kv ∈ clusterItems env items,
      (∀ it ∈ kv.2, it.cluster_id = some kv.1)
      ∧ kv.2.countP (fun it => it.is_representative) = 1 := by
  intro kv hkv
  unfold clusterItems at hkv
  by_cases hempty : items.isEmpty = true
  · rw [if_pos hempty] at hkv
    exact absurd hkv (List.not_mem_nil kv)
  · rw [if_neg hempty] at hkv
    unfold tagClusters at hkv
    obtain ⟨kv0, hkv0, heq⟩ := List.mem_map.mp hkv
    have hfst : kv.1 = kv0.1 := by rw [← heq]
    have hsnd : kv.2 = kv0.2.map (fun it : ItemRecord =>
        { it with cluster_id := some kv0.1,
                  is_representative := it.id == (pickBest env kv0.2).id }) := by
      rw [← heq]
    have hnodup : (kv0.2.map ItemRecord.id).Nodup := by
      have hsl : List.Sublist kv0.2 ((clusterMerged env items).map Prod.snd).flatten :=
        List.sublist_flatten_of_mem (List.mem_map_of_mem Prod.snd hkv0)
      have hperm := (clusterMerged_perm env items).map ItemRecord.id
      exact (hperm.nodup_iff.mpr hids).sublist (hsl.map ItemRecord.id)
    have hne : kv0.2 ≠ [] := clusterMerged_ne_nil env items kv0 hkv0
    constructor
    · intro it hit
      rw [hsnd] at hit
      obtain ⟨it0, _, heq0⟩ := List.mem_map.mp hit
      rw [← heq0, hfst]
    · rw [hsnd, List.countP_map]
      have hpred : ((fun it : ItemRecord => it.is_representative) ∘ (fun it : ItemRecord =>
          { it with cluster_id := some kv0.1,
                    is_representative := it.id == (pickBest env kv0.2).id }))
          = fun it0 : ItemRecord => it0.id == (pickBest env kv0.2).id := rfl
      rw [hpred]
      cases hg : kv0.2 with
      | nil => exact absurd hg hne
      | cons g rest =>
          apply countP_id_eq_one
          · rw [← hg]
            exact hnodup
          · rw [← hg]
            rw [hg]
            exact pickBest_mem env g rest

set_option maxRecDepth 4000 in
/-- C4: counterexample — two items sharing one id and one url fall into a
single cluster in which both are marked `is_representative` (the tag is
`item.id == rep.id`), so "exactly one representative per cluster" fails. -/
theorem claim_C4_counterexample :
    ((clusterItems cexClusterEnv
        [{ mkItem "x" "s" "news" with url := "u", title := "A" },
         { mkItem "x" "s" "news" with url := "u", title := "B" }]).map
      (fun kv => kv.2.countP (fun it => it.is_representative))) = [2] := by
  decide

set_option maxRecDepth 4000 in
/-- C4: witness — two distinct-id items with the same url form one cluster in
which every item is tagged with the cluster id and exactly one is the
representative. -/
theorem claim_C4_witness :
    (([{ mkItem "a" "s" "news" with url := "u" },
       { mkItem "b" "s" "news" with url := "u" }].map ItemRecord.id).Nodup)
    ∧ (clusterItems cexClusterEnv
        [{ mkItem "a" "s" "news" with url := "u" },
         { mkItem "b" "s" "news" with url := "u" }]).length = 1
    ∧ ∀ kv ∈ clusterItems cexClusterEnv
        [{ mkItem "a" "s" "news" with url := "u" },
         { mkItem "b" "s" "news" with url := "u" }],
      (∀ it ∈ kv.2, it.cluster_id = some kv.1)
      ∧ kv.2.countP (fun it => it.is_representative) = 1 :=
  ⟨by decide, by decide,
   claim_C4_amended cexClusterEnv
     [{ mkItem "a" "s" "news" with url := "u" },
      { mkItem "b" "s" "news" with url := "u" }] (by decide)⟩

/- ----------------------------------------------------------------------
   popularity factor (C7)
   ---------------------------------------------------------------------- -/

theorem posRaws_cons (spf : List (String × String)) (it : ItemRecord)
    (rest : List ItemRecord) (sid : String) :
    posRaws spf (it :: rest) sid
    = if (it.source_id == sid
          && decide (0 < getRawPopularity it.metadata (spf.lookup it.source_id))) then
        getRawPopularity it.metadata (spf.lookup it.source_id) :: posRaws spf rest sid
      else posRaws spf rest sid := by
  unfold posRaws
  rw [List.filter_cons]
  by_cases hc : (it.source_id == sid
      && decide (0 < getRawPopularity it.metadata (spf.lookup it.source_id))) = true
  · rw [if_pos hc, if_pos hc, List.map_cons]
  · rw [if_neg hc, if_neg hc]

theorem bmax_lookup (spf : List (String × String)) (items : List ItemRecord) :
    ∀ (m0 : List (String × ℚ)) (sid : String),
    ((items.foldl (bmaxStep spf) m0).lookup sid)
    = (posRaws spf items sid).foldl
        (fun o r => some (max (o.getD 0) r)) (m0.lookup sid) := by
  induction items with
  | nil =>
      intro m0 sid
      rfl
  | cons it rest ih =>
      intro m0 sid
      rw [List.foldl_cons, posRaws_cons, ih]
      by_cases hpos : (0 < getRawPopularity it.metadata (spf.lookup it.source_id))
      · by_cases hsid : (it.source_id == sid) = true
        · rw [if_pos (by rw [hsid, decide_eq_true hpos]; rfl)]
          rw [List.foldl_cons]
          congr 1
          unfold bmaxStep
          rw [if_pos hpos, eq_of_beq hsid, dictSet_lookup_self]
        · rw [if_neg (by
            intro hcon
            rw [Bool.and_eq_true] at hcon
            exact hsid hcon.1)]
          congr 1
          unfold bmaxStep
          rw [if_pos hpos]
          apply dictSet_lookup_ne
          intro hcon
          rw [hcon] at hsid
          simp at hsid
      · rw [if_neg (by rw [decide_eq_false hpos, Bool.and_false]; exact Bool.false_ne_true)]
        congr 1
        unfold bmaxStep
        rw [if_neg hpos]

theorem clamp_lookup (m : List (String × ℚ)) (sid : String) :
    (clampBatchMax m).lookup sid
    = (m.lookup sid).map (fun v => if v < 1 then 1 else v) := by
  induction m with
  | nil => rfl
  | cons kv rest ih =>
      unfold clampBatchMax at ih ⊢
      rw [List.map_cons]
      by_cases hv : kv.2 < 1
      · rw [if_pos hv]
        rw [List.lookup_cons, List.lookup_cons]
        cases hk : (sid == kv.1) with
        | true =>
            dsimp only
            simp [hv]
        | false =>
            dsimp only
            exact ih
      · rw [if_neg hv]
        rw [List.lookup_cons, List.lookup_cons]
        cases hk : (sid == kv.1) with
        | true =>
            dsimp only
            simp [hv]
        | false =>
            dsimp only
            exact ih

theorem foldl_mergeMax_some (l : List ℚ) :
    ∀ c : ℚ, l.foldl (fun o r => some (max (o.getD 0) r)) (some c)
      = some (l.foldl max c) := by
  induction l with
  | nil => intro c; rfl
  | cons r t ih =>
      intro c
      rw [List.foldl_cons, List.foldl_cons]
      exact ih (max c r)

theorem foldl_mergeMax_none_cons (r : ℚ) (t : List ℚ) :
    (r :: t).foldl (fun o r => some (max (o.getD 0) r)) none
      = some ((r :: t).foldl max 0) := by
  rw [List.foldl_cons, List.foldl_cons]
  exact foldl_mergeMax_some t (max 0 r)

/-- C7: amended — for an item of the batch, the popularity factor is `0` when
its raw value is nonpositive (in particular when no numeric value is present,
where the raw value defaults to 0), and otherwise equals
`min 1 (log1p raw / log1p (max 1 M))` where `M` is the batch maximum of the
same source's raw values: a batch maximum below 1 is clamped to 1 (the factor
is then generally nonzero, not 0), the declared popularity field falls back to
the fixed key list when its value is missing or non-numeric, and the
`max_for_source` 1000 default is unreachable from `score_items`. -/
theorem claim_C7_amended (log1p : ℚ → ℚ) (spf : List (String × String))
    (items : List ItemRecord) (it : ItemRecord) (h : it ∈ items) :
    popularityFactor log1p spf (clampBatchMax (batchSourceMaxRaw spf items)) it
    = (if getRawPopularity it.metadata (spf.lookup it.source_id) ≤ 0 then 0
       else min 1 (log1p (getRawPopularity it.metadata (spf.lookup it.source_id))
         / log1p (max 1 (batchRawMax spf items it.source_id)))) := by
  unfold popularityFactor
  by_cases hraw : getRawPopularity it.metadata (spf.lookup it.source_id) ≤ 0
  · rw [if_pos hraw, if_pos hraw]
  · rw [if_neg hraw, if_neg hraw]
    have hpos : 0 < getRawPopularity it.metadata (spf.lookup it.source_id) :=
      lt_of_not_le hraw
    have hmem : getRawPopularity it.metadata (spf.lookup it.source_id)
        ∈ posRaws spf items it.source_id := by
      unfold posRaws
      apply List.mem_map_of_mem
      rw [List.mem_filter]
      exact ⟨h, by rw [beq_self_eq_true, decide_eq_true hpos]; rfl⟩
    obtain ⟨r0, t0, hrt⟩ : ∃ r0 t0, posRaws spf items it.source_id = r0 :: t0 := by
      cases hp : posRaws spf items it.source_id with
      | nil =>
          rw [hp] at hmem
          exact absurd hmem (List.not_mem_nil _)
      | cons r0 t0 => exact ⟨r0, t0, rfl⟩
    have hlook : (clampBatchMax (batchSourceMaxRaw spf items)).lookup it.source_id
        = some (if batchRawMax spf items it.source_id < 1 then 1
                else batchRawMax spf items it.source_id) := by
      rw [clamp_lookup]
      unfold batchSourceMaxRaw
      rw [bmax_lookup spf items [] it.source_id]
      rw [show (([] : List (String × ℚ)).lookup it.source_id) = none from rfl]
      rw [hrt, foldl_mergeMax_none_cons]
      unfold batchRawMax
      rw [hrt]
      simp
    rw [hlook]
    dsimp only
    have hclamp : (if batchRawMax spf items it.source_id < 1 then (1 : ℚ)
        else batchRawMax spf items it.source_id)
        = max 1 (batchRawMax spf items it.source_id) := by
      rcases lt_or_le (batchRawMax spf items it.source_id) 1 with hlt | hle
      · rw [if_pos hlt, max_eq_left (le_of_lt hlt)]
      · rw [if_neg (not_lt.mpr hle), max_eq_right hle]
    have hge : ¬ ((if batchRawMax spf items it.source_id < 1 then (1 : ℚ)
        else batchRawMax spf items it.source_id) < 1) := by
      rw [hclamp]
      exact not_lt.mpr (le_max_left 1 _)
    rw [if_neg hge, hclamp]

/-- C7: counterexample — a lone item with `points = 1/2` (batch maximum 1/2,
below one): the spec formula yields 0, but the code clamps the batch maximum
to 1 and yields `min 1 (log1p(1/2)/log1p(1))`, which is 1/2 for the identity
stand-in for `log1p` — nonzero. -/
theorem claim_C7_counterexample :
    popularitySpec (fun x => x) [] [c7item] c7item = 0
    ∧ popularityFactor (fun x => x) []
        (clampBatchMax (batchSourceMaxRaw [] [c7item])) c7item = 1 / 2
    ∧ popularityFactor (fun x => x) []
        (clampBatchMax (batchSourceMaxRaw [] [c7item])) c7item
      ≠ popularitySpec (fun x => x) [] [c7item] c7item := by
  have h1 : popularitySpec (fun x => x) [] [c7item] c7item = 0 := by
    unfold popularitySpec batchRawMax posRaws c7item mkItem
    norm_num [lookupNum, List.lookup, getRawPopularity, getRawFallback]
  have h2 : popularityFactor (fun x => x) []
      (clampBatchMax (batchSourceMaxRaw [] [c7item])) c7item = 1 / 2 := by
    unfold popularityFactor batchSourceMaxRaw bmaxStep clampBatchMax c7item mkItem
    norm_num [lookupNum, List.lookup, getRawPopularity, getRawFallback, dictSet]
  refine ⟨h1, h2, ?_⟩
  rw [h1, h2]
  norm_num

/-- C7: witness — the amended formula instantiated at the lone `points = 1/2`
item with the identity `log1p` stand-in. -/
theorem claim_C7_witness :
    c7item ∈ [c7item]
    ∧ popularityFactor (fun x => x) []
        (clampBatchMax (batchSourceMaxRaw [] [c7item])) c7item
      = (if getRawPopularity c7item.metadata (List.lookup c7item.source_id []) ≤ 0 then 0
         else min 1 ((fun x : ℚ => x) (getRawPopularity c7item.metadata
             (List.lookup c7item.source_id []))
           / (fun x : ℚ => x) (max 1 (batchRawMax [] [c7item] c7item.source_id)))) :=
  ⟨List.mem_cons_self c7item [],
   claim_C7_amended (fun x => x) [] [c7item] c7item (List.mem_cons_self c7item [])⟩
